import Mathlib

/-!
Verification of the flowlens exploration/QA engine against its specification.

This file shallow-embeds the relevant parts of the source (the URL
canonicalizer and the `urllib.parse` routines it calls, the journey
aggregation, the site graph, the exploration loop, the step executor's
element resolution, the auth handler's decision logic, and the state
verifier's diff) as executable Lean definitions, and proves or refutes the
frozen claims about them.

Python data is modelled as follows: `str` values are `List Char` where the
character level matters (URL canonicalization) and `String` elsewhere;
`dict`s are association lists in insertion order with unique keys; machine
integers are `Nat`/`Int` (no overflow is reachable in the modelled code);
code that can raise is modelled by `Option`/explicit status results.
-/

/-! ## Step and journey statuses (src/agent/models/flow.py) -/

/-- `FlowStepResult.status`: passed | failed | blocked | inconclusive | skipped. -/
inductive StepStatus where
  | passed
  | failed
  | blocked
  | inconclusive
  | skipped
deriving DecidableEq, Repr

/-- `FlowResult.status`: passed | failed | blocked | partial
(`partialJ` stands for the source's "partial"). -/
inductive JourneyStatus where
  | passed
  | failed
  | blocked
  | partialJ
deriving DecidableEq, Repr

/-- Journey aggregation exactly as in `QAAgent._execute_journey`
(src/agent/core/qa_agent.py lines 396-403): all-passed, then any-blocked,
then any-failed, else partial. -/
def aggregateJourney (l : List StepStatus) : JourneyStatus :=
  if l.all (· = .passed) then .passed
  else if l.any (· = .blocked) then .blocked
  else if l.any (· = .failed) then .failed
  else .partialJ

/-- Modelled from the spec (§4.9): the fixed-precedence reference
aggregation — Passed iff every step Passed; Failed if ≥1 Failed; Blocked if
none Failed but ≥1 Blocked; else Partial. -/
def specAggregate (l : List StepStatus) : JourneyStatus :=
  if l.all (· = .passed) then .passed
  else if l.any (· = .failed) then .failed
  else if l.any (· = .blocked) then .blocked
  else .partialJ

/-- The step loop of `QAAgent._execute_journey` (line 376): step results are
recorded in order and the journey halts right after the first step whose
status is failed or blocked. Given the statuses the steps would produce,
this returns the list actually recorded. -/
def runSteps : List StepStatus → List StepStatus
  | [] => []
  | s :: rest => if s = .failed ∨ s = .blocked then [s] else s :: runSteps rest

/-! ## Site graph (src/agent/models/graph.py) -/

/-- `SiteNode.status` values used by the explorer. -/
inductive NodeStatus where
  | discovered
  | visiting
  | visited
  | failed
  | blocked
deriving DecidableEq, Repr

/-- `SiteNode` (the fields the modelled operations touch; the remaining
fields — elements, actions, bugs, metrics, screenshot — are payload never
read by the graph or loop logic). -/
structure SiteNode where
  url : String
  title : String := ""
  page_type : String := "other"
  status : NodeStatus := .discovered
  depth : Nat := 0
deriving DecidableEq, Repr

/-- `SiteGraph`: `nodes` is the Python dict url → SiteNode as an
association list in insertion order (unique keys), `edges` the list of
directed edges. -/
structure SiteGraph where
  root_url : String
  nodes : List (String × SiteNode) := []
  edges : List (String × String) := []
deriving DecidableEq, Repr

/-- `SiteGraph.get_node`. -/
def SiteGraph.get_node (g : SiteGraph) (url : String) : Option SiteNode :=
  (g.nodes.find? (fun kv => kv.1 = url)).map (·.2)

/-- `SiteGraph.add_node(url, **kwargs)` — the call sites only pass `depth`
and `page_type`, the other dataclass fields take their defaults. Returns
the (possibly pre-existing) node together with the new graph. -/
def SiteGraph.add_node (g : SiteGraph) (url : String) (depth : Nat := 0)
    (page_type : String := "other") : SiteGraph × SiteNode :=
  match g.get_node url with
  | some n => (g, n)
  | none =>
    let n : SiteNode := { url := url, depth := depth, page_type := page_type }
    ({ g with nodes := g.nodes ++ [(url, n)] }, n)

/-- `SiteGraph.add_edge`: append unless already present or a self-loop. -/
def SiteGraph.add_edge (g : SiteGraph) (from_url to_url : String) : SiteGraph :=
  if (from_url, to_url) ∈ g.edges ∨ from_url = to_url then g
  else { g with edges := g.edges ++ [(from_url, to_url)] }

/-! ## State verifier (src/agent/utils/state_verifier.py) -/

/-- `StateSnapshot`. Cookies are (name, domain) pairs; storage maps are
association lists mirroring the captured JS objects; network errors are
(url, status, method). -/
structure StateSnapshot where
  url : String := ""
  cookies : List (String × String) := []
  local_storage : List (String × String) := []
  session_storage : List (String × String) := []
  console_errors : List String := []
  network_errors : List (String × Nat × String) := []
  dom_hash : String := ""
deriving DecidableEq, Repr

/-- `StateChange`. -/
structure StateChange where
  cookies_added : List String := []
  cookies_removed : List String := []
  storage_changes : List (String × String) := []
  new_console_errors : List String := []
  new_network_errors : List (String × Nat × String) := []
  url_changed : Bool := false
  dom_changed : Bool := false
deriving DecidableEq, Repr

/-- `StateVerifier.compare` (lines 144-169). Python's set differences are
unordered; they are modelled as deduplicated/filtered lists (same
contents, a fixed order). `storage_changes` iterates
`set(after.local_storage) - set(before.local_storage)` — only keys newly
present in `after` — and `session_storage` is never consulted. -/
def StateVerifier.compare (before after : StateSnapshot) : StateChange :=
  let beforeCookies := before.cookies.map (·.1)
  let afterCookies := after.cookies.map (·.1)
  let beforeKeys := before.local_storage.map (·.1)
  let beforeNet := before.network_errors.map (fun e => (e.1, e.2.1))
  { url_changed := before.url != after.url
    cookies_added := afterCookies.dedup.filter (fun n => ! beforeCookies.contains n)
    cookies_removed := beforeCookies.dedup.filter (fun n => ! afterCookies.contains n)
    storage_changes := after.local_storage.filter (fun kv => ! beforeKeys.contains kv.1)
    new_console_errors := after.console_errors.filter (fun e => ! before.console_errors.contains e)
    new_network_errors := after.network_errors.filter (fun e => ! beforeNet.contains (e.1, e.2.1))
    dom_changed := before.dom_hash != after.dom_hash }

/-- A Python `str` as its list of characters. -/
abbrev PyStr := List Char

/-- String literal to `PyStr`. -/
def pys (s : String) : PyStr := s.toList

/-- Python string `<`: lexicographic by code point. -/
def pyStrLtB : PyStr → PyStr → Bool
  | [], [] => false
  | [], _ :: _ => true
  | _ :: _, [] => false
  | a :: as, b :: bs => if a < b then true else if b < a then false else pyStrLtB as bs

/-! ## Frontier (heapq usage in src/agent/core/explorer.py)

The source stores frontier entries `(-priority, depth, url)` in a Python
list manipulated only through `heapq.heappush`/`heapq.heappop`. Entry
tuples are linearly ordered (Python tuple order: `Int`, then `Nat`, then
code-point-lexicographic string comparison) and entries that compare equal
are identical tuples, so `heappop`'s observable behaviour is exactly
"remove and return a minimal entry". The queue is modelled as the list of
entries in insertion order: push appends, pop removes a minimal entry. -/

/-- A frontier entry `(-priority, depth, url)` as pushed by the source. -/
structure QEntry where
  negPriority : Int
  depth : Nat
  url : String
deriving DecidableEq, Repr

/-- Python tuple `<` on `(-priority, depth, url)`; string comparison is
code-point lexicographic (`pyStrLtB`). -/
def QEntry.lt (a b : QEntry) : Prop :=
  a.negPriority < b.negPriority ∨
    (a.negPriority = b.negPriority ∧
      (a.depth < b.depth ∨ (a.depth = b.depth ∧ pyStrLtB a.url.toList b.url.toList = true)))

instance (a b : QEntry) : Decidable (QEntry.lt a b) := by
  unfold QEntry.lt; infer_instance

/-- `heapq.heappush(queue, e)`: the queue gains one entry; in insertion
order it is appended at the end. -/
def pushEntry (q : List QEntry) (e : QEntry) : List QEntry := q ++ [e]

/-- Select a minimal entry among `e :: l` (leftmost among equal-comparing,
hence identical, entries), returning it with the rest. -/
def selectMin (e : QEntry) : List QEntry → QEntry × List QEntry
  | [] => (e, [])
  | x :: xs =>
    let p := selectMin x xs
    if QEntry.lt p.1 e then (p.1, e :: p.2) else (e, x :: xs)

/-- `heapq.heappop(queue)`: remove and return a minimal entry (`none` on an
empty queue). -/
def popMin : List QEntry → Option (QEntry × List QEntry)
  | [] => none
  | e :: rest => some (selectMin e rest)

/-! ## Exploration loop (src/agent/core/explorer.py)

`SiteExplorer.explore` / `_visit_page` / `_follow_link` / `_expand_menu` /
`_test_form` / `_test_search` / `_click_button` as a small-step machine.
The environment (the rendered pages: which links exist, whether navigation
succeeds) is resolved nondeterministically by the step relation's
parameters. `QAAgent.run` / `_visit_and_test` / `_queue_links` /
`_track_navigation` follow the same skeleton (same loop guard, same graph
and frontier operations). -/

/-- Machine state: the graph, the frontier, `self._visit_count`, and the
page currently being visited (`none` between loop iterations;
`some (url, false)` after the node was popped and marked visiting but
before the successful `page.goto`, `some (url, true)` afterwards). -/
structure ExploreState where
  graph : SiteGraph
  queue : List QEntry
  visitCount : Nat
  current : Option (String × Bool)
deriving DecidableEq, Repr

/-- Overwrite one node's status (`node.status = ...` on a node held by the
graph). -/
def setNodeStatus (g : SiteGraph) (url : String) (st : NodeStatus) : SiteGraph :=
  { g with nodes := g.nodes.map (fun kv => if kv.1 = url then (kv.1, { kv.2 with status := st }) else kv) }

/-- `SiteExplorer.__init__` + the seeding in `explore` (lines 184-187):
root node added at depth 0 as "home", entry `(-10, 0, base_url)` pushed. -/
def initState (baseUrl : String) : ExploreState :=
  { graph := ((SiteGraph.mk baseUrl [] []).add_node baseUrl 0 "home").1
    queue := pushEntry [] ⟨-10, 0, baseUrl⟩
    visitCount := 0
    current := none }

/-- `_follow_link` (lines 370-399): `link` is the normalized href and `p`
the element priority. New destination: node at `depth+1`, edge, push with
priority decayed past depth 3 (floored at 1); known destination: edge only. -/
def followLinkOp (s : ExploreState) (u : String) (udepth : Nat) (link : String) (p : Int) : ExploreState :=
  match s.graph.get_node link with
  | some _ => { s with graph := s.graph.add_edge u link }
  | none =>
    let depth := udepth + 1
    let pri := if depth > 3 then max 1 (p - 2) else p
    { s with
        graph := ((s.graph.add_node link depth).1).add_edge u link
        queue := pushEntry s.queue ⟨-pri, depth, link⟩ }

/-- `_expand_menu` (lines 430-442): the `not in self.graph.nodes` filter is
computed before the loop, so a duplicate new link reaches
`add_node`/`add_edge`/`heappush` unconditionally. -/
def menuLinkOp (s : ExploreState) (u : String) (udepth : Nat) (link : String) (p : Int) : ExploreState :=
  { s with
      graph := ((s.graph.add_node link (udepth + 1)).1).add_edge u link
      queue := pushEntry s.queue ⟨-p, udepth + 1, link⟩ }

/-- `_test_form` / `_test_search` / `_click_button` (and
`QAAgent._track_navigation`): when the page navigated to `link` not yet in
the graph, add node at `depth+1` (page_type per call site), edge, push. -/
def navDiscoverOp (s : ExploreState) (u : String) (udepth : Nat) (link : String) (p : Int)
    (pt : String) : ExploreState :=
  match s.graph.get_node link with
  | some _ => s
  | none =>
    { s with
        graph := ((s.graph.add_node link (udepth + 1) pt).1).add_edge u link
        queue := pushEntry s.queue ⟨-p, udepth + 1, link⟩ }

/-- One step of the exploration loop. `maxPages` is `self.max_pages`.
Constructors mirror the source paths:
* `popSkip`: loop guard holds, popped url's node is missing or no longer
  "discovered" (lines 189-194) — entry dropped.
* `popStart`: loop guard holds, popped node is "discovered"; `_visit_page`
  starts and marks it "visiting" (line 209).
* `navFail`: `page.goto` returned status ≥ 400 or raised (before or after
  the visit counter moved) — node marked "failed", visit ends.
* `navOk`: navigation succeeded, `self._visit_count += 1` (line 235).
* `followLink` / `menuLink` / `navDiscover`: element interactions register
  destinations while the visit is in progress.
* `finishVisit`: node marked "visited" (line 283), visit ends. -/
inductive ExploreStep (maxPages : Nat) : ExploreState → ExploreState → Prop where
  | popSkip (s : ExploreState) (e : QEntry) (rest : List QEntry) :
      s.current = none → s.visitCount < maxPages →
      popMin s.queue = some (e, rest) →
      (∀ n, s.graph.get_node e.url = some n → n.status ≠ .discovered) →
      ExploreStep maxPages s { s with queue := rest }
  | popStart (s : ExploreState) (e : QEntry) (rest : List QEntry) (n : SiteNode) :
      s.current = none → s.visitCount < maxPages →
      popMin s.queue = some (e, rest) →
      s.graph.get_node e.url = some n → n.status = .discovered →
      ExploreStep maxPages s
        { s with queue := rest, graph := setNodeStatus s.graph e.url .visiting,
                 current := some (e.url, false) }
  | navFail (s : ExploreState) (u : String) (ph : Bool) :
      s.current = some (u, ph) →
      ExploreStep maxPages s
        { s with graph := setNodeStatus s.graph u .failed, current := none }
  | navOk (s : ExploreState) (u : String) :
      s.current = some (u, false) →
      ExploreStep maxPages s
        { s with visitCount := s.visitCount + 1, current := some (u, true) }
  | followLink (s : ExploreState) (u link : String) (p : Int) (n : SiteNode) :
      s.current = some (u, true) → s.graph.get_node u = some n →
      ExploreStep maxPages s (followLinkOp s u n.depth link p)
  | menuLink (s : ExploreState) (u link : String) (p : Int) (n : SiteNode) :
      s.current = some (u, true) → s.graph.get_node u = some n →
      ExploreStep maxPages s (menuLinkOp s u n.depth link p)
  | navDiscover (s : ExploreState) (u link : String) (p : Int) (pt : String) (n : SiteNode) :
      s.current = some (u, true) → s.graph.get_node u = some n →
      ExploreStep maxPages s (navDiscoverOp s u n.depth link p pt)
  | finishVisit (s : ExploreState) (u : String) :
      s.current = some (u, true) →
      ExploreStep maxPages s
        { s with graph := setNodeStatus s.graph u .visited, current := none }

/-- States reachable by the exploration loop from the seeded state. -/
def ExploreReachable (maxPages : Nat) (baseUrl : String) (s : ExploreState) : Prop :=
  Relation.ReflTransGen (ExploreStep maxPages) (initState baseUrl) s

/-- Number of graph nodes currently marked "visited". -/
def countVisitedG (g : SiteGraph) : Nat :=
  (g.nodes.filter (fun kv => kv.2.status = .visited)).length

/-- Number of nodes currently marked "visited". -/
def countVisited (s : ExploreState) : Nat := countVisitedG s.graph

/-- 1 while a visit is past its successful navigation (the phase in which
`finishVisit` may mark one more node visited), else 0. -/
def currentBit (s : ExploreState) : Nat :=
  match s.current with
  | some (_, true) => 1
  | _ => 0

/-- The inductive invariant of the exploration loop: unique node keys; the
node under visit exists and is "visiting"; the visit counter respects the
budget (strictly before a pending navigation); visited nodes are counted
by the visit counter; and edge endpoints are nodes. -/
def ExploreInv (maxPages : Nat) (s : ExploreState) : Prop :=
  (s.graph.nodes.map (·.1)).Nodup ∧
  (∀ u ph, s.current = some (u, ph) →
    ∃ n, s.graph.get_node u = some n ∧ n.status = .visiting) ∧
  s.visitCount ≤ maxPages ∧
  (∀ u, s.current = some (u, false) → s.visitCount < maxPages) ∧
  countVisited s + currentBit s ≤ s.visitCount ∧
  (∀ p ∈ s.graph.edges, (s.graph.get_node p.1).isSome ∧ (s.graph.get_node p.2).isSome)

/-! ## Step executor element resolution (src/agent/core/qa_agent.py)

`QAAgent._get_element` / `_execute_step`, modelled over a rendered-page
abstraction: `query_selector` is an association list from selector strings,
and the `button, a, [role=button], input[type=submit]` / `input, textarea`
scans are element lists in DOM order. Interactions (`fill`/`click`) either
succeed or raise with a message, supplied by the environment. -/

/-- `PageElement` (src/agent/models/graph.py) — the catalog entry; only
`selector` is read by `_get_element`. -/
structure PageElement where
  type : String
  selector : String
  text : String
  href : Option String := none
  priority : Int := 5
deriving DecidableEq, Repr

/-- One DOM element as observed through the Playwright calls the source
makes: visibility, the `is_disabled()` answer (or that the call raises),
text content, placeholder, and whether `fill`/`click` raises (and with
what message). -/
structure DomElement where
  visible : Bool := true
  disabled : Bool := false
  disabledRaises : Bool := false
  text : String := ""
  placeholder : String := ""
  interactErr : Option String := none
deriving DecidableEq, Repr

/-- The rendered page: `query_selector` results plus the two
`query_selector_all` scans used by the text fallback. -/
structure DomPage where
  bySelector : List (String × DomElement) := []
  buttons : List DomElement := []
  inputs : List DomElement := []
deriving DecidableEq, Repr

/-- `page.query_selector(sel)`. -/
def DomPage.query_selector (page : DomPage) (sel : String) : Option DomElement :=
  (page.bySelector.find? (fun kv => kv.1 = sel)).map (·.2)

/-- `needle` occurs as a contiguous substring of `hay`. -/
def occursIn (needle hay : List Char) : Bool :=
  needle.isPrefixOf hay ||
    match hay with
    | [] => false
    | _ :: t => occursIn needle t

/-- ASCII lower-casing of one character (the strings compared in the
modelled code are ASCII, where Python's `str.lower` agrees). -/
def lowerChar (c : Char) : Char :=
  if 'A' ≤ c ∧ c ≤ 'Z' then Char.ofNat (c.toNat + 32) else c

/-- Case-insensitive substring test (`needle.lower() in hay.lower()`). -/
def strContains (hay needle : String) : Bool :=
  occursIn (needle.toList.map lowerChar) (hay.toList.map lowerChar)

/-- `QAAgent._get_element` (lines 541-594): (1) catalog index — return the
element only if found, visible and not disabled (`is_disabled` raising
counts as not disabled); (2) if `text_contains` is nonempty, first
button-like element whose text matches, is visible and is not known
disabled (`is_disabled` raising is ignored), then first input whose
placeholder matches and is visible — with no disabled check; else None. -/
def getElement (page : DomPage) (el_idx : Int) (elements : List PageElement)
    (text_contains : String) : Option DomElement :=
  let step1 : Option DomElement :=
    if h : 0 ≤ el_idx ∧ el_idx.toNat < elements.length then
      match page.query_selector (elements.get ⟨el_idx.toNat, h.2⟩).selector with
      | some el =>
        if el.visible ∧ ¬ (if el.disabledRaises then false else el.disabled) then some el
        else none
      | none => none
    else none
  match step1 with
  | some el => some el
  | none =>
    if text_contains ≠ "" then
      let btn := page.buttons.find? (fun b =>
        strContains b.text text_contains && b.visible && (b.disabledRaises || ! b.disabled))
      match btn with
      | some b => some b
      | none => page.inputs.find? (fun i => strContains i.placeholder text_contains && i.visible)
    else none

/-- The `except` clause of `_execute_step` (lines 523-533): messages
mentioning "disabled"/"not enabled" give blocked (checked first), then
"timeout" gives failed, else failed. -/
def classifyStepError (msg : String) : StepStatus :=
  if strContains msg "disabled" ∨ strContains msg "not enabled" then .blocked
  else if strContains msg "timeout" then .failed
  else .failed

/-- The status produced by `_execute_step` (lines 432-539) for a
`type`/`click` step. When `_get_element` returns None the source calls
`_fail_step`, a name defined nowhere in the repository: the resulting
`NameError` is caught by the same `except` clause, whose message contains
none of the classified substrings, so the status is failed. When an
element is returned, the interaction either raises (classified as above)
or succeeds, after which the status is the oracle verdict if a check text
is present and the oracle is available, else passed. -/
def executeStepStatus (page : DomPage) (action : String) (el_idx : Int)
    (elements : List PageElement) (text_contains : String)
    (hasCheck : Bool) (aiAvailable : Bool) (aiStatus : StepStatus) : StepStatus :=
  let verdict : StepStatus := if aiAvailable ∧ hasCheck then aiStatus else .passed
  if action = "type" ∨ action = "click" then
    match getElement page el_idx elements text_contains with
    | none => classifyStepError "name '_fail_step' is not defined"
    | some el =>
      match el.interactErr with
      | some msg => classifyStepError msg
      | none => verdict
  else verdict

/-! ## Auth handler (src/agent/utils/auth_handler.py)

`AuthHandler.check_and_handle_login` decision logic. The environment
supplies what the page evaluation found (login wall or not, the page's
domain) and how the hand-off would end (a cookie jar, or a timeout).
The modelled mode is the server/remote path (`self._pw is None`); the
headful path caches and injects identically. -/

/-- The handler's mutable per-scan state: `self._auth_attempted` and
`self._cached_cookies` (`[]` models both `None` and an empty jar — the
source tests truthiness). -/
structure AuthState where
  auth_attempted : List String := []
  cached_cookies : List (String × String) := []
deriving DecidableEq, Repr

/-- `AuthResult` (success, method, cookies_injected). -/
structure AuthResult where
  success : Bool
  method : String
  cookies_injected : Nat := 0
deriving DecidableEq, Repr

/-- How the environment resolves a hand-off: the cookie event fires with a
jar, or the wait times out. -/
inductive HandoffOutcome where
  | cookies (jar : List (String × String))
  | timeout
deriving DecidableEq, Repr

/-- `check_and_handle_login` (lines 110-182) + `_inject_cached_cookies`
(lines 334-351): no result unless a login wall is detected; an
already-attempted domain returns method "skipped" with nothing injected;
otherwise the domain is recorded, a truthy cached jar is re-injected
(method "cached_cookies"; `injectOk` is whether `add_cookies`/`reload`
raised), and with no cache the hand-off runs: a delivered nonempty jar is
injected and cached (method "remote_browser"), a timeout or empty jar
gives a failed "skipped" result. -/
def check_and_handle_login (st : AuthState) (isLoginPage : Bool) (domain : String)
    (outcome : HandoffOutcome) (injectOk : Bool) : Option AuthResult × AuthState :=
  if ¬ isLoginPage then (none, st)
  else if domain ∈ st.auth_attempted then
    (some ⟨false, "skipped", 0⟩, st)
  else
    let st1 := { st with auth_attempted := domain :: st.auth_attempted }
    if st.cached_cookies ≠ [] then
      if injectOk then (some ⟨true, "cached_cookies", st.cached_cookies.length⟩, st1)
      else (some ⟨false, "cached_cookies", 0⟩, st1)
    else
      match outcome with
      | .cookies jar =>
        if jar ≠ [] then
          (some ⟨true, "remote_browser", jar.length⟩, { st1 with cached_cookies := jar })
        else (some ⟨false, "skipped", 0⟩, st1)
      | .timeout => (some ⟨false, "skipped", 0⟩, st1)

/-! ## URL canonicalization (src/agent/core/explorer.py `_normalize`,
identical in src/agent/core/crawler.py and src/agent/core/qa_agent.py)

The canonicalizer is three calls into CPython 3.11's `urllib.parse`:
`urlparse`, `sorted(parse_qs(query).items())`, `urlencode(•, doseq=True)`,
`urlunparse` — plus `path.rstrip("/") or "/"` and `fragment=""`. Those
stdlib routines are embedded below at the character level (`PyStr`, a
Python `str` as its list of code points; Lean `Char` is exactly a
non-surrogate scalar, matching the strings `quote` accepts without
raising). Not modelled: the `ValueError`s `urlsplit` raises for netlocs
with unbalanced brackets or non-NFKC non-ASCII netlocs (theorems exclude
such inputs by hypothesis), and `parse_qsl`'s `strict_parsing` /
`max_num_fields` knobs, which the source leaves at their defaults. -/



/-- `s.split(c, 1)`: split at the first occurrence of `c`, if any. -/
def splitOnceChar (c : Char) : PyStr → Option (PyStr × PyStr)
  | [] => none
  | x :: xs =>
    if x = c then some ([], xs)
    else (splitOnceChar c xs).map (fun p => (x :: p.1, p.2))

/-- `s.rstrip("/")`. -/
def rstripSlash (s : PyStr) : PyStr := (s.reverse.dropWhile (· == '/')).reverse

/-- `urllib.parse.scheme_chars`. -/
def isSchemeChar (c : Char) : Bool := c.isAlphanum || c == '+' || c == '-' || c == '.'

/-! ### UTF-8 (CPython `str.encode('utf-8')` / `bytes.decode('utf-8', 'replace')`) -/

/-- UTF-8 encoding of one scalar value. -/
def utf8EncodeChar (n : Nat) : List Nat :=
  if n < 0x80 then [n]
  else if n < 0x800 then [0xC0 + n / 64, 0x80 + n % 64]
  else if n < 0x10000 then [0xE0 + n / 4096, 0x80 + (n / 64) % 64, 0x80 + n % 64]
  else [0xF0 + n / 262144, 0x80 + (n / 4096) % 64, 0x80 + (n / 64) % 64, 0x80 + n % 64]

/-- `s.encode('utf-8')`. -/
def utf8Encode (s : PyStr) : List Nat := s.flatMap (fun c => utf8EncodeChar c.toNat)

/-- U+FFFD. -/
def replChar : Char := '�'

/-- A UTF-8 continuation byte. -/
def isCont (b : Nat) : Bool := 0x80 ≤ b && b < 0xC0

/-- `bytes.decode('utf-8', errors='replace')`: CPython substitutes one
U+FFFD for each maximal subpart of an ill-formed sequence (lead bytes with
their valid continuations up to the first offending byte; decoding resumes
at the offending byte). -/
def utf8DecodeReplace : List Nat → List Char
  | [] => []
  | b :: bs =>
    if b < 0x80 then Char.ofNat b :: utf8DecodeReplace bs
    else if b < 0xC2 then replChar :: utf8DecodeReplace bs
    else if b < 0xE0 then
      match bs with
      | b1 :: bs1 =>
        if isCont b1 then
          Char.ofNat ((b - 0xC0) * 64 + (b1 - 0x80)) :: utf8DecodeReplace bs1
        else replChar :: utf8DecodeReplace (b1 :: bs1)
      | [] => [replChar]
    else if b < 0xF0 then
      let lo := if b = 0xE0 then 0xA0 else 0x80
      let hi := if b = 0xED then 0x9F else 0xBF
      match bs with
      | b1 :: bs1 =>
        if lo ≤ b1 ∧ b1 ≤ hi then
          match bs1 with
          | b2 :: bs2 =>
            if isCont b2 then
              Char.ofNat ((b - 0xE0) * 4096 + (b1 - 0x80) * 64 + (b2 - 0x80)) :: utf8DecodeReplace bs2
            else replChar :: utf8DecodeReplace (b2 :: bs2)
          | [] => [replChar]
        else replChar :: utf8DecodeReplace (b1 :: bs1)
      | [] => [replChar]
    else if b < 0xF5 then
      let lo := if b = 0xF0 then 0x90 else 0x80
      let hi := if b = 0xF4 then 0x8F else 0xBF
      match bs with
      | b1 :: bs1 =>
        if lo ≤ b1 ∧ b1 ≤ hi then
          match bs1 with
          | b2 :: bs2 =>
            if isCont b2 then
              match bs2 with
              | b3 :: bs3 =>
                if isCont b3 then
                  Char.ofNat ((b - 0xF0) * 262144 + (b1 - 0x80) * 4096 + (b2 - 0x80) * 64 + (b3 - 0x80)) :: utf8DecodeReplace bs3
                else replChar :: utf8DecodeReplace (b3 :: bs3)
              | [] => [replChar]
            else replChar :: utf8DecodeReplace (b2 :: bs2)
          | [] => [replChar]
        else replChar :: utf8DecodeReplace (b1 :: bs1)
      | [] => [replChar]
    else replChar :: utf8DecodeReplace bs
termination_by l => l.length
decreasing_by all_goals simp [List.length_cons] <;> omega

/-! ### Percent-quoting (`quote_plus` / the unquoting inside `parse_qsl`) -/

/-- `urllib.parse._ALWAYS_SAFE` as a byte predicate: ASCII alphanumerics
and `_.-~`. -/
def alwaysSafeByte (b : Nat) : Bool :=
  (0x41 ≤ b && b ≤ 0x5A) || (0x61 ≤ b && b ≤ 0x7A) || (0x30 ≤ b && b ≤ 0x39) ||
    b == 0x5F || b == 0x2E || b == 0x2D || b == 0x7E

/-- Uppercase hex digit of `n < 16` (the `%XX` escapes use upper case). -/
def hexUpper (n : Nat) : Char :=
  if n < 10 then Char.ofNat (0x30 + n) else Char.ofNat (0x41 + n - 10)

/-- One byte of `quote_from_bytes`: safe bytes pass through, the rest
become `%XX`. -/
def quoteByte (safe : List Char) (b : Nat) : PyStr :=
  if alwaysSafeByte b || safe.contains (Char.ofNat b) then [Char.ofNat b]
  else ['%', hexUpper (b / 16), hexUpper (b % 16)]

/-- `quote(s, safe)`: UTF-8 encode (strict — total here since `Char`
excludes surrogates), then quote each byte. -/
def quote (safe : List Char) (s : PyStr) : PyStr :=
  (utf8Encode s).flatMap (quoteByte safe)

/-- `quote_plus(s)` with `safe=''` (as called by `urlencode`): plain
`quote` when `s` has no space, else `quote(s, ' ')` with spaces turned
into `+`. -/
def quote_plus (s : PyStr) : PyStr :=
  if ¬ s.contains ' ' then quote [] s
  else (quote [' '] s).map (fun c => if c = ' ' then '+' else c)

/-- An uppercase hex digit, as emitted by `%XX` escapes. -/
def isUpHex (c : Char) : Bool :=
  (0x30 ≤ c.toNat && c.toNat ≤ 0x39) || (0x41 ≤ c.toNat && c.toNat ≤ 0x46)

/-- The character classes `quote_plus` can emit: always-safe bytes, `%`,
`+`, and uppercase hex digits. -/
def qpOK (c : Char) : Bool :=
  alwaysSafeByte c.toNat || c == '%' || c == '+' || isUpHex c

/-- Hex digit value of a byte (both cases, as in `_hextobyte`). -/
def hexValByte (b : Nat) : Option Nat :=
  if 0x30 ≤ b ∧ b ≤ 0x39 then some (b - 0x30)
  else if 0x61 ≤ b ∧ b ≤ 0x66 then some (b - 0x61 + 10)
  else if 0x41 ≤ b ∧ b ≤ 0x46 then some (b - 0x41 + 10)
  else none

/-- `unquote_to_bytes` on a byte string: each `%hh` with two hex digits
becomes the byte `hh`, any other `%` is literal. (The source splits on
`%` and re-joins; this character-wise recursion computes the same
result.) -/
def unquote_to_bytes : List Nat → List Nat
  | [] => []
  | b :: rest =>
    if b = 0x25 then
      match rest with
      | h1 :: h2 :: rest2 =>
        match hexValByte h1, hexValByte h2 with
        | some x, some y => (16 * x + y) :: unquote_to_bytes rest2
        | _, _ => b :: unquote_to_bytes (h1 :: h2 :: rest2)
      | [h1] => b :: unquote_to_bytes [h1]
      | [] => b :: unquote_to_bytes []
    else b :: unquote_to_bytes rest
termination_by l => l.length
decreasing_by all_goals simp [List.length_cons] <;> omega

/-- An ASCII character (member of a maximal `_asciire` run). -/
def isAsciiChar (c : Char) : Bool := c.toNat ≤ 0x7F

/-- Decode one accumulated (reversed) ASCII run: percent-unquote its bytes
and UTF-8-decode with replacement. -/
def flushRun (acc : PyStr) : PyStr :=
  utf8DecodeReplace (unquote_to_bytes ((acc.reverse).map Char.toNat))

/-- Worker for `unquote`: maximal ASCII runs are percent-decoded as byte
strings, non-ASCII characters pass through. -/
def unquoteGo (acc : PyStr) : PyStr → PyStr
  | [] => flushRun acc
  | c :: rest =>
    if isAsciiChar c then unquoteGo (c :: acc) rest
    else flushRun acc ++ c :: unquoteGo [] rest

/-- `unquote(s)` with the defaults used by `parse_qsl`
(`encoding='utf-8', errors='replace'`). -/
def unquote (s : PyStr) : PyStr :=
  if ¬ s.contains '%' then s else unquoteGo [] s

/-! ### urlsplit / urlparse / urlunsplit / urlunparse -/

/-- The scheme step of `urlsplit`: accept `pre:` as a scheme iff the first
`:` has a nonempty prefix whose head is an ASCII letter and whose
characters are all scheme characters; the scheme is lowercased. -/
def splitScheme (url : PyStr) : PyStr × PyStr :=
  match splitOnceChar ':' url with
  | some (pre, post) =>
    if pre ≠ [] ∧ (pre.headI).isAlpha ∧ pre.all isSchemeChar then
      (pre.map Char.toLower, post)
    else ([], url)
  | none => ([], url)

/-- A netloc delimiter (`_splitnetloc` stops at `/`, `?`, `#`). -/
def isNetlocDelim (c : Char) : Bool := c == '/' || c == '?' || c == '#'

/-- The netloc step of `urlsplit`: if the remainder starts `//`, the
netloc runs to the first `/?#`. -/
def splitNetloc (url : PyStr) : PyStr × PyStr :=
  match url with
  | '/' :: '/' :: rest =>
    (rest.takeWhile (fun c => ! isNetlocDelim c), rest.dropWhile (fun c => ! isNetlocDelim c))
  | _ => ([], url)

/-- The result of `urlsplit`. -/
structure SplitResult where
  scheme : PyStr
  netloc : PyStr
  path : PyStr
  query : PyStr
  fragment : PyStr
deriving DecidableEq, Repr

/-- Characters kept by `urlsplit`'s removal of unsafe bytes: everything but
tab, CR and LF. -/
def cleanChar (c : Char) : Bool := !(c == '\t' || c == '\x0d' || c == '\n')

/-- `urlsplit` (CPython 3.11, `allow_fragments=True`): strip leading
C0-control/space, drop every tab/CR/LF, then scheme, netloc, fragment,
query. The bracket/NFKC netloc `ValueError`s are not modelled. -/
def urlsplit (url0 : PyStr) : SplitResult :=
  let url1 := url0.dropWhile (fun c => decide (c.toNat ≤ 0x20))
  let url2 := url1.filter cleanChar
  let sp := splitScheme url2
  let snl := splitNetloc sp.2
  let sf := match splitOnceChar '#' snl.2 with | some p => p | none => (snl.2, [])
  let sq := match splitOnceChar '?' sf.1 with | some p => p | none => (sf.1, [])
  ⟨sp.1, snl.1, sq.1, sq.2, sf.2⟩

/-- `urllib.parse.uses_params`. -/
def uses_params : List PyStr :=
  [pys "", pys "ftp", pys "hdl", pys "prospero", pys "http", pys "imap",
   pys "https", pys "shttp", pys "rtsp", pys "rtsps", pys "rtspu", pys "sip",
   pys "sips", pys "mms", pys "sftp", pys "tel"]

/-- `urllib.parse.uses_netloc`. -/
def uses_netloc : List PyStr :=
  [pys "", pys "ftp", pys "http", pys "gopher", pys "nntp", pys "telnet",
   pys "imap", pys "wais", pys "file", pys "mms", pys "https", pys "shttp",
   pys "snews", pys "prospero", pys "rtsp", pys "rtsps", pys "rtspu",
   pys "rsync", pys "svn", pys "svn+ssh", pys "sftp", pys "nfs", pys "git",
   pys "git+ssh", pys "ws", pys "wss"]

/-- `_splitparams`: split the path's params — the first `;` of the final
path segment (only called when the path contains `;`). -/
def splitparams (url : PyStr) : PyStr × PyStr :=
  if url.contains '/' then
    match splitOnceChar '/' url.reverse with
    | some (revB, revA) =>
      match splitOnceChar ';' revB.reverse with
      | some (b1, b2) => (revA.reverse ++ '/' :: b1, b2)
      | none => (url, [])
    | none => (url, [])
  else
    match splitOnceChar ';' url with
    | some (a, b) => (a, b)
    | none => (url, [])

/-- The result of `urlparse`. -/
structure ParseResult where
  scheme : PyStr
  netloc : PyStr
  path : PyStr
  params : PyStr
  query : PyStr
  fragment : PyStr
deriving DecidableEq, Repr

/-- `urlparse`: `urlsplit`, then params split off the path when the scheme
uses params and the path contains `;`. -/
def urlparse (url : PyStr) : ParseResult :=
  let s := urlsplit url
  if s.scheme ∈ uses_params ∧ s.path.contains ';' then
    let pp := splitparams s.path
    ⟨s.scheme, s.netloc, pp.1, pp.2, s.query, s.fragment⟩
  else ⟨s.scheme, s.netloc, s.path, [], s.query, s.fragment⟩

/-- `urlunsplit` (CPython 3.11): `//`+netloc is emitted iff the netloc is
nonempty, or the scheme is nonempty, uses a netloc, and the path does not
already start with `//`. -/
def urlunsplit (scheme netloc url query fragment : PyStr) : PyStr :=
  let url1 :=
    if netloc ≠ [] ∨ (scheme ≠ [] ∧ scheme ∈ uses_netloc ∧ url.take 2 ≠ pys "//") then
      pys "//" ++ netloc ++ (if url ≠ [] ∧ url.take 1 ≠ pys "/" then '/' :: url else url)
    else url
  let url2 := if scheme ≠ [] then scheme ++ ':' :: url1 else url1
  let url3 := if query ≠ [] then url2 ++ '?' :: query else url2
  if fragment ≠ [] then url3 ++ '#' :: fragment else url3

/-- `urlunparse`: re-attach params, then `urlunsplit`. -/
def urlunparse (p : ParseResult) : PyStr :=
  let url := if p.params ≠ [] then p.path ++ ';' :: p.params else p.path
  urlunsplit p.scheme p.netloc url p.query p.fragment

/-! ### parse_qs / urlencode -/

/-- `.replace('+', ' ')` as applied to each name/value by `parse_qsl`. -/
def plusToSpace (s : PyStr) : PyStr := s.map (fun c => if c = '+' then ' ' else c)

/-- One `name=value` piece of `parse_qsl`: `none` for the pieces the source
drops (empty piece, piece without `=`, piece with an empty value), otherwise
the pair after `+`→space and `unquote` on both sides. -/
def decodePiece (nv : PyStr) : Option (PyStr × PyStr) :=
  if nv = [] then none
  else match splitOnceChar '=' nv with
    | none => none
    | some (nm, vl) =>
      if vl = [] then none
      else some (unquote (plusToSpace nm), unquote (plusToSpace vl))

/-- The decoded key of a query piece (if the piece survives `parse_qsl`). -/
def decodeKey (nv : PyStr) : Option PyStr := (decodePiece nv).map Prod.fst

/-- `parse_qsl(qs)` with the defaults (`keep_blank_values=False`,
`separator='&'`): split on `&`, drop empty pieces, pieces without `=` and
pieces with an empty value; names and values get `+`→space then
`unquote`. -/
def parse_qsl (qs : PyStr) : List (PyStr × PyStr) :=
  let query_args := if qs = [] then [] else qs.splitOn '&'
  query_args.filterMap decodePiece

/-- Insert one pair into the result dict: append the value if the key
exists, else add the key at the end (Python dict insertion order). -/
def insertPair (acc : List (PyStr × List PyStr)) (k : PyStr) (v : PyStr) :
    List (PyStr × List PyStr) :=
  match acc with
  | [] => [(k, [v])]
  | (k0, vs) :: rest =>
    if k0 = k then (k0, vs ++ [v]) :: rest else (k0, vs) :: insertPair rest k v

/-- Fold a list of pairs into an accumulator dict with `insertPair`. -/
def insertAll (acc : List (PyStr × List PyStr)) (ps : List (PyStr × PyStr)) :
    List (PyStr × List PyStr) :=
  ps.foldl (fun a kv => insertPair a kv.1 kv.2) acc

/-- `parse_qs(qs)`: group `parse_qsl` pairs by key. -/
def parse_qs (qs : PyStr) : List (PyStr × List PyStr) :=
  insertAll [] (parse_qsl qs)

/-- Flatten a grouped dict back to its key/value pairs in order. -/
def flattenPairs (l : List (PyStr × List PyStr)) : List (PyStr × PyStr) :=
  l.flatMap (fun kv => kv.2.map (fun v => (kv.1, v)))

/-- Key lookup in a grouped dict (first match). -/
def lookupKey (k : PyStr) : List (PyStr × List PyStr) → Option (List PyStr)
  | [] => none
  | (k0, vs) :: rest => if k0 = k then some vs else lookupKey k rest

/-- Insertion step of `sorted` by key (keys are unique, so the list
component is never compared). -/
def insertSorted (x : PyStr × List PyStr) :
    List (PyStr × List PyStr) → List (PyStr × List PyStr)
  | [] => [x]
  | y :: ys => if pyStrLtB x.1 y.1 then x :: y :: ys else y :: insertSorted x ys

/-- `sorted(parse_qs(...).items())`: sort the items by key (Python tuple
comparison on unique keys). -/
def sortedItems (l : List (PyStr × List PyStr)) : List (PyStr × List PyStr) :=
  l.foldr insertSorted []

/-- `urlencode(params, doseq=True)` on str keys with list-of-str values:
`quote_plus(k)=quote_plus(v)` for each value, joined by `&`. -/
def urlencode (l : List (PyStr × List PyStr)) : PyStr :=
  List.intercalate ['&']
    (l.flatMap (fun kv => kv.2.map (fun v => quote_plus kv.1 ++ '=' :: quote_plus v)))

/-- The repository's `_normalize` (explorer.py lines 610-618, identical in
crawler.py and qa_agent.py): sort-and-reencode the query, drop the
fragment, strip trailing slashes from the path (the empty path becomes
`/`), and reassemble. -/
def normalizeUrl (url : PyStr) : PyStr :=
  let parsed := urlparse url
  let params := sortedItems (parse_qs parsed.query)
  let path0 := rstripSlash parsed.path
  urlunparse { parsed with
    fragment := []
    query := urlencode params
    path := if path0 = [] then ['/'] else path0 }

/-! ### A small concrete run (shared by several theorems)

Budget-1 exploration of a seed page "http://s" holding two same-priority
nav links: pop+visit the seed, register both links, finish the visit. -/

/-- The seeded state. -/
def demoA : ExploreState := initState "http://s"

/-- After `popStart` on the seed entry. -/
def demoB : ExploreState :=
  { demoA with
    queue := []
    graph := setNodeStatus demoA.graph "http://s" NodeStatus.visiting
    current := some ("http://s", false) }

/-- After the successful navigation (`navOk`). -/
def demoC : ExploreState :=
  { demoB with visitCount := demoB.visitCount + 1, current := some ("http://s", true) }

/-- After following the first link. -/
def demoD : ExploreState := followLinkOp demoC "http://s" 0 "http://s/a" 9

/-- After following the second link. -/
def demoE : ExploreState := followLinkOp demoD "http://s" 0 "http://s/b" 9

/-- After `finishVisit`. -/
def demoF : ExploreState :=
  { demoE with
    graph := setNodeStatus demoE.graph "http://s" NodeStatus.visited
    current := none }

/-- After `popStart` on the "http://s/a" entry (needs budget ≥ 2). -/
def demoG : ExploreState :=
  { demoF with
    queue := [⟨-9, 1, "http://s/b"⟩]
    graph := setNodeStatus demoF.graph "http://s/a" NodeStatus.visiting
    current := some ("http://s/a", false) }

/-! # Theorems -/

/-! ## C10: `add_node` on an existing URL -/

/-- C10: `SiteGraph.add_node` is idempotent for an already-present URL and
never overwrites — if the URL is already a node, it returns the existing
node and the entire graph unchanged; the supplied depth/page_type are
ignored, so a node re-discovered at a different depth keeps its original
fields. -/
theorem add_node_existing (g : SiteGraph) (url : String) (d : Nat) (pt : String)
    (n : SiteNode) (h : g.get_node url = some n) :
    g.add_node url d pt = (g, n) := by
  unfold SiteGraph.add_node
  rw [h]

/-- Witness for `add_node_existing`: a node added at depth 2 as "home" is
returned unchanged by a second `add_node` at depth 7 as "search". -/
theorem add_node_existing_witness :
    (((SiteGraph.mk "r" [] []).add_node "u" 2 "home").1).add_node "u" 7 "search" =
      ((((SiteGraph.mk "r" [] []).add_node "u" 2 "home").1),
        { url := "u", page_type := "home", depth := 2 }) :=
  add_node_existing _ "u" 7 "search" _ rfl

/-! ## C2: journey aggregation -/

/-- The halted step list never contains both a failed and a blocked step. -/
theorem runSteps_not_both (l : List StepStatus) :
    ¬ (StepStatus.failed ∈ runSteps l ∧ StepStatus.blocked ∈ runSteps l) := by
  induction l with
  | nil => simp [runSteps]
  | cons s rest ih =>
    by_cases h : s = .failed ∨ s = .blocked
    · rcases h with h | h <;> subst h <;> simp [runSteps]
    · rw [runSteps, if_neg h]
      push_neg at h
      rintro ⟨hf, hb⟩
      rcases List.mem_cons.1 hf with hf | hf
      · exact h.1 hf.symm
      · rcases List.mem_cons.1 hb with hb | hb
        · exact h.2 hb.symm
        · exact ih ⟨hf, hb⟩

/-- An aggregation of all-passed steps is the only way to get passed. -/
theorem aggregateJourney_passed_iff (l : List StepStatus) :
    aggregateJourney l = .passed ↔ l.all (· = .passed) := by
  unfold aggregateJourney
  by_cases h : l.all (· = .passed)
  · simp [h]
  · simp only [h, if_false, Bool.false_eq_true, iff_false]
    by_cases h1 : l.any (· = .blocked) <;> by_cases h2 : l.any (· = .failed) <;>
      simp [h1, h2]

/-- C2 counterexample: the code checks any-blocked before any-failed, so on
the list [failed, blocked] it returns blocked where the spec's fixed
precedence returns failed. -/
theorem aggregateJourney_ne_spec_cex :
    aggregateJourney [.failed, .blocked] ≠ specAggregate [.failed, .blocked] := by
  decide

/-- C2 (amended): on every step list the journey loop can actually record
(it halts right after the first failed or blocked step, so the two never
coexist) the code's aggregation equals the spec's fixed-precedence
reference; and, unconditionally, a list containing a failed step never
aggregates to passed. -/
theorem aggregateJourney_eq_spec_halted :
    (∀ l : List StepStatus, aggregateJourney (runSteps l) = specAggregate (runSteps l)) ∧
    (∀ l : List StepStatus, StepStatus.failed ∈ l → aggregateJourney l ≠ .passed) := by
  constructor
  · intro l
    unfold aggregateJourney specAggregate
    by_cases hp : (runSteps l).all (· = .passed)
    · simp [hp]
    · by_cases hf : (runSteps l).any (· = .failed) <;>
        by_cases hb : (runSteps l).any (· = .blocked)
      · exfalso
        refine runSteps_not_both l ⟨?_, ?_⟩
        · rcases List.any_eq_true.1 hf with ⟨x, hx, he⟩
          have hx2 : x = .failed := by simpa using he
          exact hx2 ▸ hx
        · rcases List.any_eq_true.1 hb with ⟨x, hx, he⟩
          have hx2 : x = .blocked := by simpa using he
          exact hx2 ▸ hx
      · simp [hp, hf, hb]
      · simp [hp, hf, hb]
      · simp [hp, hf, hb]
  · intro l hf hpass
    have := (aggregateJourney_passed_iff l).1 hpass
    have := List.all_eq_true.1 this _ hf
    simp at this

/-- Witness for `aggregateJourney_eq_spec_halted`. -/
theorem aggregateJourney_eq_spec_halted_witness :
    aggregateJourney (runSteps [.passed, .failed, .blocked]) =
      specAggregate (runSteps [.passed, .failed, .blocked]) ∧
    aggregateJourney [.passed, .failed] ≠ .passed :=
  ⟨aggregateJourney_eq_spec_halted.1 _,
   aggregateJourney_eq_spec_halted.2 [.passed, .failed] (by decide)⟩

/-! ## C8: state diff storage changes -/

/-- C8 counterexample: the key "k" is captured in both snapshots with
different values, yet `compare` reports no storage change (it only
considers keys newly present in the after snapshot). -/
theorem compare_misses_changed_key :
    (StateVerifier.compare { local_storage := [("k", "1")] }
        { local_storage := [("k", "2")] }).storage_changes = [] ∧
    ({ local_storage := [("k", "1")] } : StateSnapshot).local_storage ≠
      ({ local_storage := [("k", "2")] } : StateSnapshot).local_storage := by
  exact ⟨rfl, by decide⟩

/-- C8 (amended): the diff's storage changes are exactly the after-values
of the local-storage keys newly present in the after snapshot; keys
present in both with different values, removed keys, and session storage
never appear. -/
theorem storage_changes_iff (before after : StateSnapshot) (k v : String) :
    (k, v) ∈ (StateVerifier.compare before after).storage_changes ↔
      ((k, v) ∈ after.local_storage ∧ ∀ w, (k, w) ∉ before.local_storage) := by
  have hrfl : (StateVerifier.compare before after).storage_changes =
      after.local_storage.filter
        (fun kv => ! (before.local_storage.map (·.1)).contains kv.1) := rfl
  rw [hrfl, List.mem_filter]
  have hmap : ((before.local_storage.map (·.1)).contains k = false) ↔
      ∀ w, (k, w) ∉ before.local_storage := by
    rw [← Bool.not_eq_true, List.contains_eq_any_beq]
    simp only [List.any_eq_true, not_exists, not_and]
    constructor
    · intro h w hw
      exact h k (List.mem_map.2 ⟨(k, w), hw, rfl⟩) (by simp)
    · intro h x hx hbeq
      rcases List.mem_map.1 hx with ⟨kv, hkv, hk1⟩
      have hkx : k = x := by simpa using hbeq
      exact h kv.2 (by
        have hkv2 : kv = (k, kv.2) := by
          obtain ⟨a, b⟩ := kv
          simp only [Prod.mk.injEq, and_true]
          simp only at hk1
          rw [hk1, hkx]
        exact hkv2 ▸ hkv)
  constructor
  · rintro ⟨hmem, hc⟩
    exact ⟨hmem, hmap.1 (by simpa using hc)⟩
  · rintro ⟨hmem, hnone⟩
    exact ⟨hmem, by simpa using hmap.2 hnone⟩

/-! ## C6: cached-cookie re-injection -/

/-- C6 counterexample: a login wall on "ex.com" is handled successfully
and the jar is cached, but when a wall reappears on the same domain the
handler returns "skipped" with zero cookies injected (the attempted-domain
check fires before the cached-jar check) — it does not re-inject. -/
theorem auth_same_domain_wall_skipped :
    check_and_handle_login ⟨[], []⟩ true "ex.com"
        (.cookies [("session", "s"), ("auth_token", "t")]) true =
      (some ⟨true, "remote_browser", 2⟩,
        ⟨["ex.com"], [("session", "s"), ("auth_token", "t")]⟩) ∧
    check_and_handle_login ⟨["ex.com"], [("session", "s"), ("auth_token", "t")]⟩
        true "ex.com" .timeout true =
      (some ⟨false, "skipped", 0⟩,
        ⟨["ex.com"], [("session", "s"), ("auth_token", "t")]⟩) := by
  exact ⟨rfl, rfl⟩

/-- C6 (amended): on a domain already attempted the handler always returns
a failed "skipped" result with nothing injected and the state unchanged —
even when a successful jar is cached; the cached jar is silently
re-injected only when a wall appears on a domain not yet attempted. -/
theorem cached_cookie_reinjection (st : AuthState) (domain : String)
    (oc : HandoffOutcome) (ok : Bool) :
    (domain ∈ st.auth_attempted →
      check_and_handle_login st true domain oc ok = (some ⟨false, "skipped", 0⟩, st)) ∧
    (domain ∉ st.auth_attempted → st.cached_cookies ≠ [] →
      check_and_handle_login st true domain oc ok =
        (some ⟨ok, "cached_cookies", if ok then st.cached_cookies.length else 0⟩,
          { st with auth_attempted := domain :: st.auth_attempted })) := by
  constructor
  · intro h
    simp [check_and_handle_login, h]
  · intro h hc
    cases ok <;> simp [check_and_handle_login, h, hc]

/-- Witness for `cached_cookie_reinjection`. -/
theorem cached_cookie_reinjection_witness :
    (check_and_handle_login ⟨["d"], [("session", "s")]⟩ true "d" .timeout true =
      (some ⟨false, "skipped", 0⟩, ⟨["d"], [("session", "s")]⟩)) ∧
    (check_and_handle_login ⟨["d"], [("session", "s")]⟩ true "e" .timeout true =
      (some ⟨true, "cached_cookies", 1⟩, ⟨["e", "d"], [("session", "s")]⟩)) := by
  constructor
  · exact (cached_cookie_reinjection ⟨["d"], [("session", "s")]⟩ "d" .timeout true).1
      (by decide)
  · exact (cached_cookie_reinjection ⟨["d"], [("session", "s")]⟩ "e" .timeout true).2
      (by decide) (by decide)

/-! ## C5: visible-but-disabled elements -/

/-- C5 counterexample: the step's target is resolved by catalog index,
present in the DOM, visible, and disabled — yet `_get_element` skips it
(returns None) and the step is reported failed (via the undefined
`_fail_step` name, whose `NameError` the `except` clause classifies as
failed), not blocked. -/
theorem disabled_target_step_failed :
    getElement
        { bySelector := [("s", { visible := true, disabled := true })] } 0
        [{ type := "cta", selector := "s", text := "Go" }] "" = none ∧
    executeStepStatus
        { bySelector := [("s", { visible := true, disabled := true })] } "click" 0
        [{ type := "cta", selector := "s", text := "Go" }] "" true true .passed =
      .failed := by
  exact ⟨by decide, by decide⟩

/-- C5 (amended): a step whose catalog-index target is present, visible
and disabled resolves to None — `_get_element` skips disabled elements —
and (absent a text fallback) the step status is failed, never blocked.
Blocked arises only when the resolver actually returns an element (e.g.
through the placeholder fallback, which has no disabled check) and the
interaction then raises an error mentioning "disabled"/"not enabled". -/
theorem disabled_resolution_status :
    (∀ (page : DomPage) (elements : List PageElement) (idx : Int) (el : DomElement)
        (hasCheck ai : Bool) (aiS : StepStatus)
        (h0 : 0 ≤ idx) (h1 : idx.toNat < elements.length),
      page.query_selector (elements.get ⟨idx.toNat, h1⟩).selector = some el →
      el.visible = true → el.disabled = true → el.disabledRaises = false →
      getElement page idx elements "" = none ∧
      executeStepStatus page "click" idx elements "" hasCheck ai aiS = .failed) ∧
    (∀ (page : DomPage) (elements : List PageElement) (idx : Int) (el : DomElement)
        (tc msg : String) (hasCheck ai : Bool) (aiS : StepStatus),
      getElement page idx elements tc = some el →
      el.interactErr = some msg →
      (strContains msg "disabled" = true ∨ strContains msg "not enabled" = true) →
      executeStepStatus page "click" idx elements tc hasCheck ai aiS = .blocked) := by
  constructor
  · intro page elements idx el hasCheck ai aiS h0 h1 hsel hvis hdis hnr
    have hnone : getElement page idx elements "" = none := by
      unfold getElement
      rw [dif_pos ⟨h0, h1⟩, hsel]
      simp [hvis, hdis, hnr]
    refine ⟨hnone, ?_⟩
    unfold executeStepStatus
    rw [if_pos (Or.inr rfl), hnone]
    show classifyStepError "name '_fail_step' is not defined" = .failed
    decide
  · intro page elements idx el tc msg hasCheck ai aiS hget herr hmsg
    unfold executeStepStatus
    rw [if_pos (Or.inr rfl), hget]
    simp only [herr]
    unfold classifyStepError
    rw [if_pos hmsg]

/-- Witness for `disabled_resolution_status`: the failed branch on a
visible disabled button resolved by index, and the blocked branch on a
disabled input resolved through its placeholder whose fill raises
"element is not enabled". -/
theorem disabled_resolution_status_witness :
    (getElement
        { bySelector := [("#b", { visible := true, disabled := true })] } 0
        [{ type := "cta", selector := "#b", text := "Buy" }] "" = none ∧
      executeStepStatus
        { bySelector := [("#b", { visible := true, disabled := true })] } "click" 0
        [{ type := "cta", selector := "#b", text := "Buy" }] "" false true .passed =
        .failed) ∧
    executeStepStatus
        { inputs := [{ visible := true, disabled := true, placeholder := "Email",
                       interactErr := some "element is not enabled" }] }
        "click" (-1) [] "Email" false true .passed = .blocked := by
  constructor
  · exact disabled_resolution_status.1 _ _ 0 _ false true .passed (by decide)
      (by decide) rfl rfl rfl rfl
  · exact disabled_resolution_status.2 _ [] (-1) _ "Email"
      "element is not enabled" false true .passed rfl rfl
      (Or.inr (by decide))


/-! ## C7: frontier pop order -/

/-- `pyStrLtB` is irreflexive. -/
theorem pyStrLt_irrefl : ∀ l : PyStr, pyStrLtB l l = false := by
  intro l
  induction l with
  | nil => rfl
  | cons a as ih =>
    simp only [pyStrLtB]
    rw [if_neg (lt_irrefl a), if_neg (lt_irrefl a), ih]

/-- `pyStrLtB` is transitive. -/
theorem pyStrLt_trans : ∀ (a b c : PyStr),
    pyStrLtB a b = true → pyStrLtB b c = true → pyStrLtB a c = true := by
  intro a
  induction a with
  | nil =>
    intro b c _ hbc
    cases c with
    | nil => cases b <;> simp [pyStrLtB] at hbc
    | cons x xs => rfl
  | cons a as ih =>
    intro b c hab hbc
    cases b with
    | nil => simp [pyStrLtB] at hab
    | cons b bs =>
      cases c with
      | nil => simp [pyStrLtB] at hbc
      | cons c cs =>
        simp only [pyStrLtB] at hab hbc ⊢
        by_cases h1 : a < b
        · by_cases h2 : b < c
          · rw [if_pos (lt_trans h1 h2)]
          · by_cases h3 : c < b
            · rw [if_neg h2, if_pos h3] at hbc; exact absurd hbc (by simp)
            · have hbceq : b = c := le_antisymm (not_lt.1 h3) (not_lt.1 h2)
              subst hbceq; rw [if_pos h1]
        · by_cases h3 : b < a
          · rw [if_neg h1, if_pos h3] at hab; exact absurd hab (by simp)
          · have hba : a = b := le_antisymm (not_lt.1 h3) (not_lt.1 h1)
            subst hba
            rw [if_neg h1, if_neg h3] at hab
            by_cases h2 : a < c
            · rw [if_pos h2]
            · by_cases h4 : c < a
              · rw [if_neg h2, if_pos h4] at hbc; exact absurd hbc (by simp)
              · have hac : a = c := le_antisymm (not_lt.1 h4) (not_lt.1 h2)
                subst hac
                rw [if_neg h2, if_neg h2] at hbc ⊢
                exact ih bs cs hab hbc

/-- `pyStrLtB` is trichotomous. -/
theorem pyStrLt_tricho : ∀ a b : PyStr,
    pyStrLtB a b = true ∨ a = b ∨ pyStrLtB b a = true := by
  intro a
  induction a with
  | nil =>
    intro b
    cases b with
    | nil => exact Or.inr (Or.inl rfl)
    | cons x xs => exact Or.inl rfl
  | cons a as ih =>
    intro b
    cases b with
    | nil => exact Or.inr (Or.inr rfl)
    | cons b bs =>
      rcases lt_trichotomy a b with h | h | h
      · exact Or.inl (by simp only [pyStrLtB]; rw [if_pos h])
      · subst h
        rcases ih bs with h2 | h2 | h2
        · refine Or.inl ?_
          simp only [pyStrLtB]
          rw [if_neg (lt_irrefl a), if_neg (lt_irrefl a)]
          exact h2
        · exact Or.inr (Or.inl (by rw [h2]))
        · refine Or.inr (Or.inr ?_)
          simp only [pyStrLtB]
          rw [if_neg (lt_irrefl a), if_neg (lt_irrefl a)]
          exact h2
      · exact Or.inr (Or.inr (by simp only [pyStrLtB]; rw [if_pos h]))

/-- The entry order is irreflexive. -/
theorem qlt_irrefl (a : QEntry) : ¬ QEntry.lt a a := by
  unfold QEntry.lt
  rintro (h | ⟨-, h | ⟨-, h⟩⟩)
  · exact absurd h (lt_irrefl _)
  · exact absurd h (lt_irrefl _)
  · rw [pyStrLt_irrefl] at h; exact absurd h (by simp)

/-- The entry order is transitive. -/
theorem qlt_trans {a b c : QEntry} (hab : QEntry.lt a b) (hbc : QEntry.lt b c) :
    QEntry.lt a c := by
  unfold QEntry.lt at *
  rcases hab with h1 | ⟨e1, h1⟩ <;> rcases hbc with h2 | ⟨e2, h2⟩
  · exact Or.inl (lt_trans h1 h2)
  · exact Or.inl (e2 ▸ h1)
  · exact Or.inl (e1 ▸ h2)
  · refine Or.inr ⟨e1.trans e2, ?_⟩
    rcases h1 with h1 | ⟨d1, h1⟩ <;> rcases h2 with h2 | ⟨d2, h2⟩
    · exact Or.inl (lt_trans h1 h2)
    · exact Or.inl (d2 ▸ h1)
    · exact Or.inl (d1 ▸ h2)
    · exact Or.inr ⟨d1.trans d2, pyStrLt_trans _ _ _ h1 h2⟩

/-- The entry order is trichotomous. -/
theorem qlt_tricho (a b : QEntry) :
    QEntry.lt a b ∨ a = b ∨ QEntry.lt b a := by
  obtain ⟨an, ad, au⟩ := a
  obtain ⟨bn, bd, bu⟩ := b
  unfold QEntry.lt
  rcases lt_trichotomy an bn with h | h | h
  · exact Or.inl (Or.inl h)
  · subst h
    rcases Nat.lt_trichotomy ad bd with h | h | h
    · exact Or.inl (Or.inr ⟨rfl, Or.inl h⟩)
    · subst h
      rcases pyStrLt_tricho au.toList bu.toList with h | h | h
      · exact Or.inl (Or.inr ⟨rfl, Or.inr ⟨rfl, h⟩⟩)
      · have : au = bu := by
          apply String.ext
          exact h
        subst this
        exact Or.inr (Or.inl rfl)
      · exact Or.inr (Or.inr (Or.inr ⟨rfl, Or.inr ⟨rfl, h⟩⟩))
    · exact Or.inr (Or.inr (Or.inr ⟨rfl, Or.inl h⟩))
  · exact Or.inr (Or.inr (Or.inl h))

/-- Not-less-than, spelled out. -/
theorem qlt_not_iff (a b : QEntry) :
    ¬ QEntry.lt a b ↔
      (b.negPriority < a.negPriority ∨
        (b.negPriority = a.negPriority ∧
          (b.depth < a.depth ∨
            (b.depth = a.depth ∧
              (b.url = a.url ∨ pyStrLtB b.url.toList a.url.toList = true))))) := by
  constructor
  · intro h
    rcases qlt_tricho a b with hlt | heq | hgt
    · exact absurd hlt h
    · subst heq
      exact Or.inr ⟨rfl, Or.inr ⟨rfl, Or.inl rfl⟩⟩
    · unfold QEntry.lt at hgt
      rcases hgt with h1 | ⟨e1, h1⟩
      · exact Or.inl h1
      · refine Or.inr ⟨e1, ?_⟩
        rcases h1 with h1 | ⟨d1, h1⟩
        · exact Or.inl h1
        · exact Or.inr ⟨d1, Or.inr h1⟩
  · rintro (h | ⟨he, h⟩) hlt
    · unfold QEntry.lt at hlt
      rcases hlt with h1 | ⟨e1, -⟩
      · exact absurd (lt_trans h h1) (lt_irrefl _)
      · exact absurd (e1 ▸ h) (lt_irrefl _)
    · unfold QEntry.lt at hlt
      rcases hlt with h1 | ⟨e1, h1⟩
      · exact absurd (he ▸ h1) (lt_irrefl _)
      · rcases h with hd | ⟨hd, hu⟩
        · rcases h1 with h2 | ⟨d2, -⟩
          · exact absurd (lt_trans hd h2) (lt_irrefl _)
          · exact absurd (d2 ▸ hd) (lt_irrefl _)
        · rcases h1 with h2 | ⟨d2, h2⟩
          · exact absurd (hd ▸ h2) (lt_irrefl _)
          · rcases hu with hu | hu
            · rw [hu, pyStrLt_irrefl] at h2
              exact absurd h2 (by simp)
            · have := pyStrLt_trans _ _ _ h2 hu
              rw [pyStrLt_irrefl] at this
              exact absurd this (by simp)

/-- `selectMin e l` returns an element of `e :: l`, the rest is `e :: l`
minus it, and it is minimal. -/
theorem selectMin_sound : ∀ (l : List QEntry) (e : QEntry),
    (selectMin e l).1 ∈ e :: l ∧
      (e :: l).Perm ((selectMin e l).1 :: (selectMin e l).2) ∧
      ∀ x ∈ e :: l, ¬ QEntry.lt x (selectMin e l).1 := by
  intro l
  induction l with
  | nil =>
    intro e
    refine ⟨List.mem_singleton.2 rfl, List.Perm.refl _, ?_⟩
    intro x hx
    rw [List.mem_singleton] at hx
    subst hx
    exact qlt_irrefl _
  | cons x xs ih =>
    intro e
    obtain ⟨hmem, hperm, hmin⟩ := ih x
    simp only [selectMin]
    by_cases hlt : QEntry.lt (selectMin x xs).1 e
    · rw [if_pos hlt]
      refine ⟨List.mem_cons_of_mem _ hmem, ?_, ?_⟩
      · exact (hperm.cons e).trans (List.Perm.swap _ _ _)
      · intro y hy
        rcases List.mem_cons.1 hy with hy | hy
        · subst hy
          intro hy0
          exact qlt_irrefl _ (qlt_trans hlt hy0)
        · exact hmin y hy
    · rw [if_neg hlt]
      refine ⟨List.mem_cons_self _ _, List.Perm.refl _, ?_⟩
      intro y hy
      rcases List.mem_cons.1 hy with hy | hy
      · subst hy; exact qlt_irrefl _
      · intro hye
        rcases qlt_tricho (selectMin x xs).1 e with hme | hme | hme
        · exact hlt hme
        · exact hmin y hy (hme ▸ hye)
        · exact hmin y hy (qlt_trans hye hme)

/-- `popMin` returns an element of the queue, the rest is the queue minus
that element, and the element is minimal. -/
theorem popMin_sound {q : List QEntry} {e : QEntry} {rest : List QEntry}
    (h : popMin q = some (e, rest)) :
    e ∈ q ∧ q.Perm (e :: rest) ∧ ∀ x ∈ q, ¬ QEntry.lt x e := by
  cases q with
  | nil => simp [popMin] at h
  | cons e0 rest0 =>
    rw [popMin] at h
    obtain ⟨hmem, hperm, hmin⟩ := selectMin_sound rest0 e0
    have he : (selectMin e0 rest0).1 = e := by
      have := congrArg (fun o => Option.map Prod.fst o) h
      simpa using this
    have hr : (selectMin e0 rest0).2 = rest := by
      have := congrArg (fun o => Option.map Prod.snd o) h
      simpa using this
    rw [he, hr] at hperm
    rw [he] at hmem hmin
    exact ⟨hmem, hperm, hmin⟩

/-- C7 counterexample: two frontier entries with equal priority and depth,
url "…/b" pushed before url "…/a": the first pop returns the entry pushed
later (URL lexicographic order), so the insertion sequence does not break
the remaining tie. -/
theorem frontier_tie_not_insertion_order :
    pushEntry (pushEntry [] ⟨-9, 1, "http://s/b"⟩) ⟨-9, 1, "http://s/a"⟩ =
      [⟨-9, 1, "http://s/b"⟩, ⟨-9, 1, "http://s/a"⟩] ∧
    popMin [⟨-9, 1, "http://s/b"⟩, ⟨-9, 1, "http://s/a"⟩] =
      some (⟨-9, 1, "http://s/a"⟩, [⟨-9, 1, "http://s/b"⟩]) := by
  exact ⟨rfl, by decide⟩

/-- C7 (amended): the frontier pops by priority descending (entries store
`-priority`, so a smaller `negPriority` is a higher priority), then depth
ascending, then url in code-point-lexicographic ascending order — the
insertion sequence plays no role. The popped entry belongs to the queue,
the remainder is the queue minus it, and every queue entry compares no
smaller. -/
theorem frontier_pop_order (q : List QEntry) (e : QEntry) (rest : List QEntry)
    (h : popMin q = some (e, rest)) :
    e ∈ q ∧ q.Perm (e :: rest) ∧
      ∀ x ∈ q,
        e.negPriority < x.negPriority ∨
          (e.negPriority = x.negPriority ∧
            (e.depth < x.depth ∨
              (e.depth = x.depth ∧
                (e.url = x.url ∨ pyStrLtB e.url.toList x.url.toList = true)))) := by
  obtain ⟨hmem, hperm, hmin⟩ := popMin_sound h
  refine ⟨hmem, hperm, fun x hx => ?_⟩
  exact (qlt_not_iff x e).1 (hmin x hx)

/-- Witness for `frontier_pop_order`. -/
theorem frontier_pop_order_witness :
    (⟨-9, 1, "http://s/a"⟩ : QEntry) ∈
        [(⟨-9, 1, "http://s/b"⟩ : QEntry), ⟨-9, 1, "http://s/a"⟩] ∧
    List.Perm [(⟨-9, 1, "http://s/b"⟩ : QEntry), ⟨-9, 1, "http://s/a"⟩]
        ((⟨-9, 1, "http://s/a"⟩ : QEntry) :: [⟨-9, 1, "http://s/b"⟩]) ∧
      ∀ x ∈ [(⟨-9, 1, "http://s/b"⟩ : QEntry), ⟨-9, 1, "http://s/a"⟩],
        (⟨-9, 1, "http://s/a"⟩ : QEntry).negPriority < x.negPriority ∨
          ((⟨-9, 1, "http://s/a"⟩ : QEntry).negPriority = x.negPriority ∧
            ((⟨-9, 1, "http://s/a"⟩ : QEntry).depth < x.depth ∨
              ((⟨-9, 1, "http://s/a"⟩ : QEntry).depth = x.depth ∧
                ((⟨-9, 1, "http://s/a"⟩ : QEntry).url = x.url ∨
                  pyStrLtB (⟨-9, 1, "http://s/a"⟩ : QEntry).url.toList x.url.toList = true)))) :=
  frontier_pop_order _ _ _ (by decide)

/-! ## Exploration machine lemmas (shared by C3, C4, C9) -/

/-- Pointwise implication bounds filtered lengths. -/
theorem filter_length_le_of_imp {α : Type} (p q : α → Bool) :
    ∀ l : List α, (∀ x ∈ l, p x = true → q x = true) →
      (l.filter p).length ≤ (l.filter q).length := by
  intro l
  induction l with
  | nil => intro _; simp
  | cons a l ih =>
    intro h
    have hrest := ih (fun x hx => h x (List.mem_cons_of_mem _ hx))
    by_cases hp : p a = true
    · rw [List.filter_cons_of_pos hp, List.filter_cons_of_pos (h a (List.mem_cons_self _ _) hp)]
      simpa using hrest
    · rw [List.filter_cons_of_neg (by simpa using hp)]
      refine le_trans hrest ?_
      by_cases hq : q a = true
      · rw [List.filter_cons_of_pos hq]; exact Nat.le_succ _
      · rw [List.filter_cons_of_neg (by simpa using hq)]

/-- Pointwise disjunction bounds a filtered length by a sum. -/
theorem filter_length_le_add {α : Type} (p q r : α → Bool) :
    ∀ l : List α, (∀ x ∈ l, p x = true → q x = true ∨ r x = true) →
      (l.filter p).length ≤ (l.filter q).length + (l.filter r).length := by
  intro l
  induction l with
  | nil => intro _; simp
  | cons a l ih =>
    intro h
    have hrest := ih (fun x hx => h x (List.mem_cons_of_mem _ hx))
    cases hp : p a <;> cases hq : q a <;> cases hr : r a <;>
      simp [List.filter_cons, hp, hq, hr] <;>
      try omega
    have hcontra := h a (List.mem_cons_self _ _) hp
    rw [hq, hr] at hcontra
    simp at hcontra

/-- With unique keys, at most one association-list entry carries key `u`. -/
theorem filter_key_length_le_one (u : String) :
    ∀ l : List (String × SiteNode), (l.map (·.1)).Nodup →
      (l.filter (fun kv => kv.1 = u)).length ≤ 1 := by
  intro l
  induction l with
  | nil => intro _; simp
  | cons kv l ih =>
    intro hnd
    rw [List.map_cons, List.nodup_cons] at hnd
    by_cases hk : kv.1 = u
    · rw [List.filter_cons_of_pos (by simpa using hk)]
      have : l.filter (fun kv => decide (kv.1 = u)) = [] := by
        rw [List.filter_eq_nil_iff]
        intro x hx
        simp only [decide_eq_true_eq]
        intro hxu
        exact hnd.1 (List.mem_map.2 ⟨x, hx, by rw [hxu, hk]⟩)
      rw [this]
      simp
    · rw [List.filter_cons_of_neg (by simpa using hk)]
      exact le_trans (ih hnd.2) (le_refl _)

/-- `find?` across the key-preserving status-overwrite map. -/
theorem find?_setStatus (u v : String) (st : NodeStatus) :
    ∀ l : List (String × SiteNode),
      (l.map (fun kv => if kv.1 = u then (kv.1, { kv.2 with status := st }) else kv)).find?
          (fun kv => kv.1 = v) =
        if v = u then
          (l.find? (fun kv => kv.1 = v)).map (fun kv => (kv.1, { kv.2 with status := st }))
        else l.find? (fun kv => kv.1 = v) := by
  intro l
  induction l with
  | nil => simp
  | cons kv l ih =>
    by_cases hkv : kv.1 = v
    · by_cases hvu : v = u
      · rw [if_pos hvu]
        rw [List.map_cons, if_pos (hvu ▸ hkv), List.find?_cons_of_pos _ (by simpa using hkv),
          List.find?_cons_of_pos _ (by simpa using hkv)]
        rfl
      · rw [if_neg hvu]
        have hku : ¬ kv.1 = u := fun h => hvu (hkv ▸ h)
        rw [List.map_cons, if_neg hku, List.find?_cons_of_pos _ (by simpa using hkv),
          List.find?_cons_of_pos _ (by simpa using hkv)]
    · have hmapped : (if kv.1 = u then (kv.1, { kv.2 with status := st }) else kv).1 = kv.1 := by
        split <;> rfl
      rw [List.map_cons, List.find?_cons_of_neg _ (by simp [hmapped, hkv]),
        List.find?_cons_of_neg _ (by simpa using hkv)]
      exact ih

/-- `get_node` after `setNodeStatus`. -/
theorem get_node_setStatus (g : SiteGraph) (u v : String) (st : NodeStatus) :
    (setNodeStatus g u st).get_node v =
      if v = u then (g.get_node v).map (fun n => { n with status := st })
      else g.get_node v := by
  unfold setNodeStatus SiteGraph.get_node
  simp only [find?_setStatus]
  by_cases hvu : v = u
  · rw [if_pos hvu, if_pos hvu, Option.map_map, Option.map_map]
    rfl
  · rw [if_neg hvu, if_neg hvu]

/-- `setNodeStatus` preserves the key list. -/
theorem setStatus_keys (g : SiteGraph) (u : String) (st : NodeStatus) :
    (setNodeStatus g u st).nodes.map (·.1) = g.nodes.map (·.1) := by
  unfold setNodeStatus
  rw [List.map_map]
  congr 1
  funext kv
  simp only [Function.comp_apply]
  split <;> rfl

/-- `setNodeStatus` does not touch the edges. -/
theorem setStatus_edges (g : SiteGraph) (u : String) (st : NodeStatus) :
    (setNodeStatus g u st).edges = g.edges := rfl

/-- `get_node` after `add_node`. -/
theorem get_node_add_node (g : SiteGraph) (url v : String) (d : Nat) (pt : String) :
    ((g.add_node url d pt).1).get_node v =
      if g.get_node url = none ∧ v = url then
        some { url := url, depth := d, page_type := pt }
      else g.get_node v := by
  unfold SiteGraph.add_node
  cases hg : g.get_node url with
  | some n => rw [if_neg (by simp)]
  | none =>
    have hfind : g.nodes.find? (fun kv => kv.1 = url) = none := by
      unfold SiteGraph.get_node at hg
      cases h : g.nodes.find? (fun kv => kv.1 = url) with
      | none => rfl
      | some kv => rw [h] at hg; simp at hg
    by_cases hv : v = url
    · rw [if_pos ⟨rfl, hv⟩]
      subst hv
      unfold SiteGraph.get_node
      rw [List.find?_append, hfind, List.find?_cons_of_pos _ (by simp)]
      rfl
    · rw [if_neg (by simp [hv])]
      unfold SiteGraph.get_node
      rw [List.find?_append]
      cases hf : g.nodes.find? (fun kv => kv.1 = v) with
      | some kv => rfl
      | none =>
        rw [List.find?_cons_of_neg _ (by simp; exact fun h => hv h.symm)]
        rfl

/-- `add_node` preserves existing nodes verbatim. -/
theorem add_node_preserves (g : SiteGraph) (url v : String) (d : Nat) (pt : String)
    (n : SiteNode) (h : g.get_node v = some n) :
    ((g.add_node url d pt).1).get_node v = some n := by
  rw [get_node_add_node]
  split
  · rename_i hcond
    rw [hcond.2] at h
    rw [hcond.1] at h
    exact absurd h (by simp)
  · exact h

/-- `add_node` leaves the edges unchanged. -/
theorem add_node_edges (g : SiteGraph) (url : String) (d : Nat) (pt : String) :
    ((g.add_node url d pt).1).edges = g.edges := by
  unfold SiteGraph.add_node
  cases g.get_node url <;> rfl

/-- `add_edge` leaves the nodes unchanged. -/
theorem add_edge_nodes (g : SiteGraph) (a b : String) :
    (g.add_edge a b).nodes = g.nodes := by
  unfold SiteGraph.add_edge
  split <;> rfl

/-- An edge of `add_edge g a b` is an old edge or `(a, b)`. -/
theorem add_edge_mem (g : SiteGraph) (a b : String) (p : String × String)
    (h : p ∈ (g.add_edge a b).edges) : p ∈ g.edges ∨ p = (a, b) := by
  unfold SiteGraph.add_edge at h
  split at h
  · exact Or.inl h
  · rcases List.mem_append.1 h with h | h
    · exact Or.inl h
    · exact Or.inr (List.mem_singleton.1 h)

/-- `get_node` is unchanged by `add_edge`. -/
theorem get_node_add_edge (g : SiteGraph) (a b v : String) :
    (g.add_edge a b).get_node v = g.get_node v := by
  unfold SiteGraph.get_node
  rw [add_edge_nodes]

/-- Overwriting a status with a non-"visited" status cannot increase the
visited count. -/
theorem countG_setStatus_le (g : SiteGraph) (u : String) (st : NodeStatus)
    (hst : st ≠ .visited) :
    countVisitedG (setNodeStatus g u st) ≤ countVisitedG g := by
  unfold countVisitedG setNodeStatus
  simp only [List.filter_map, List.length_map]
  refine filter_length_le_of_imp _ _ _ ?_
  intro kv _ h
  simp only [Function.comp_apply] at h
  by_cases hk : kv.1 = u
  · rw [if_pos hk] at h
    simp only [decide_eq_true_eq] at h
    exact absurd h hst
  · rw [if_neg hk] at h
    exact h

/-- Overwriting one status (unique keys) increases the visited count by at
most one. -/
theorem countG_setStatus_le_add_one (g : SiteGraph) (u : String) (st : NodeStatus)
    (hnd : (g.nodes.map (·.1)).Nodup) :
    countVisitedG (setNodeStatus g u st) ≤ countVisitedG g + 1 := by
  unfold countVisitedG setNodeStatus
  simp only [List.filter_map, List.length_map]
  refine le_trans
    (filter_length_le_add _ (fun kv => kv.2.status = .visited) (fun kv => kv.1 = u)
      g.nodes ?_) ?_
  · intro kv _ h
    simp only [Function.comp_apply] at h
    by_cases hk : kv.1 = u
    · exact Or.inr (by simpa using hk)
    · rw [if_neg hk] at h
      exact Or.inl h
  · have := filter_key_length_le_one u g.nodes hnd
    omega

/-- `add_node` never adds a visited node. -/
theorem countG_add_node (g : SiteGraph) (url : String) (d : Nat) (pt : String) :
    countVisitedG ((g.add_node url d pt).1) = countVisitedG g := by
  unfold countVisitedG SiteGraph.add_node
  cases g.get_node url with
  | some n => rfl
  | none => simp [List.filter_append]

/-- `add_edge` does not change the visited count. -/
theorem countG_add_edge (g : SiteGraph) (a b : String) :
    countVisitedG (g.add_edge a b) = countVisitedG g := by
  unfold countVisitedG
  rw [add_edge_nodes]

/-- `add_node` keeps node keys unique. -/
theorem add_node_keys_nodup (g : SiteGraph) (url : String) (d : Nat) (pt : String)
    (hnd : (g.nodes.map (·.1)).Nodup) :
    (((g.add_node url d pt).1).nodes.map (·.1)).Nodup := by
  unfold SiteGraph.add_node
  cases hg : g.get_node url with
  | some n => exact hnd
  | none =>
    simp only [List.map_append, List.map_cons, List.map_nil]
    rw [List.nodup_append]
    refine ⟨hnd, List.nodup_singleton _, ?_⟩
    intro x hx hx1
    rw [List.mem_singleton] at hx1
    unfold SiteGraph.get_node at hg
    rcases List.mem_map.1 hx with ⟨kv, hkv, hk1⟩
    have hfind : g.nodes.find? (fun kv => kv.1 = url) = none := by
      cases h : g.nodes.find? (fun kv => kv.1 = url) with
      | none => rfl
      | some kv2 => rw [h] at hg; simp at hg
    rw [List.find?_eq_none] at hfind
    exact hfind kv hkv (decide_eq_true (hk1.trans hx1))

/-- `setNodeStatus` preserves node existence. -/
theorem isSome_setStatus (g : SiteGraph) (u : String) (st : NodeStatus) (v : String) :
    ((setNodeStatus g u st).get_node v).isSome = (g.get_node v).isSome := by
  rw [get_node_setStatus]
  split
  · cases g.get_node v <;> rfl
  · rfl

/-- `add_node` preserves node existence. -/
theorem isSome_add_node (g : SiteGraph) (url v : String) (d : Nat) (pt : String)
    (h : (g.get_node v).isSome = true) :
    (((g.add_node url d pt).1).get_node v).isSome = true := by
  rcases Option.isSome_iff_exists.1 h with ⟨n, hn⟩
  rw [add_node_preserves g url v d pt n hn]
  rfl

/-- After `add_node url`, the node `url` exists. -/
theorem add_node_self_isSome (g : SiteGraph) (url : String) (d : Nat) (pt : String) :
    (((g.add_node url d pt).1).get_node url).isSome = true := by
  rw [get_node_add_node]
  split
  · rfl
  · rename_i hcond
    cases hg : g.get_node url with
    | some n => rfl
    | none => exact absurd ⟨hg, rfl⟩ hcond

/-- One step of the exploration loop preserves the invariant. -/
theorem ExploreInv_step (maxPages : Nat) {s t : ExploreState}
    (hinv : ExploreInv maxPages s) (hstep : ExploreStep maxPages s t) :
    ExploreInv maxPages t := by
  obtain ⟨hnd, hcur, hbud, hpend, hcnt, hedge⟩ := hinv
  unfold countVisited at hcnt
  cases hstep with
  | popSkip e rest hc hv hpop hskip =>
    exact ⟨hnd, hcur, hbud, hpend, hcnt, hedge⟩
  | popStart e rest n hc hv hpop hn hdisc =>
    refine ⟨?_, ?_, hbud, ?_, ?_, ?_⟩
    · show ((setNodeStatus s.graph e.url .visiting).nodes.map (·.1)).Nodup
      rw [setStatus_keys]; exact hnd
    · intro u ph h
      simp only [Option.some.injEq, Prod.mk.injEq] at h
      show ∃ nn, (setNodeStatus s.graph e.url .visiting).get_node u = some nn ∧
        nn.status = .visiting
      rw [get_node_setStatus, if_pos h.1.symm, ← h.1, hn]
      exact ⟨_, rfl, rfl⟩
    · intro u h
      exact hv
    · show countVisitedG (setNodeStatus s.graph e.url .visiting) + 0 ≤ s.visitCount
      have h1 := countG_setStatus_le s.graph e.url .visiting (by simp)
      omega
    · intro p hp
      show ((setNodeStatus s.graph e.url .visiting).get_node p.1).isSome = true ∧
        ((setNodeStatus s.graph e.url .visiting).get_node p.2).isSome = true
      rw [isSome_setStatus, isSome_setStatus]
      exact hedge p (by rwa [setStatus_edges] at hp)
  | navFail u ph hc =>
    refine ⟨?_, ?_, hbud, ?_, ?_, ?_⟩
    · show ((setNodeStatus s.graph u .failed).nodes.map (·.1)).Nodup
      rw [setStatus_keys]; exact hnd
    · intro u' ph' h; simp at h
    · intro u' h; simp at h
    · show countVisitedG (setNodeStatus s.graph u .failed) + 0 ≤ s.visitCount
      have h1 := countG_setStatus_le s.graph u .failed (by simp)
      omega
    · intro p hp
      show ((setNodeStatus s.graph u .failed).get_node p.1).isSome = true ∧
        ((setNodeStatus s.graph u .failed).get_node p.2).isSome = true
      rw [isSome_setStatus, isSome_setStatus]
      exact hedge p (by rwa [setStatus_edges] at hp)
  | navOk u hc =>
    refine ⟨hnd, ?_, ?_, ?_, ?_, hedge⟩
    · intro u' ph' h
      simp only [Option.some.injEq, Prod.mk.injEq] at h
      rw [← h.1]
      exact hcur u false hc
    · exact hpend u hc
    · intro u' h
      simp only [Option.some.injEq, Prod.mk.injEq] at h
      exact absurd h.2 (by simp)
    · show countVisitedG s.graph + 1 ≤ s.visitCount + 1
      have h3 : currentBit s = 0 := by unfold currentBit; rw [hc]
      omega
  | followLink u link p n hc hn =>
    unfold followLinkOp
    cases hlink : s.graph.get_node link with
    | some m =>
      refine ⟨?_, ?_, hbud, hpend, ?_, ?_⟩
      · show ((s.graph.add_edge u link).nodes.map (·.1)).Nodup
        rw [add_edge_nodes]; exact hnd
      · intro u' ph' h
        show ∃ nn, (s.graph.add_edge u link).get_node u' = some nn ∧ nn.status = .visiting
        rw [get_node_add_edge]
        exact hcur u' ph' h
      · show countVisitedG (s.graph.add_edge u link) + currentBit s ≤ s.visitCount
        rw [countG_add_edge]
        exact hcnt
      · intro q hq
        show ((s.graph.add_edge u link).get_node q.1).isSome = true ∧
          ((s.graph.add_edge u link).get_node q.2).isSome = true
        rw [get_node_add_edge, get_node_add_edge]
        rcases add_edge_mem _ _ _ _ hq with hq | hq
        · exact hedge q hq
        · subst hq
          constructor
          · rcases hcur u true hc with ⟨nn, hnn, -⟩
            simp [hnn]
          · simp [hlink]
    | none =>
      refine ⟨?_, ?_, hbud, hpend, ?_, ?_⟩
      · show (((s.graph.add_node link (n.depth + 1)).1.add_edge u link).nodes.map (·.1)).Nodup
        rw [add_edge_nodes]
        exact add_node_keys_nodup _ _ _ _ hnd
      · intro u' ph' h
        show ∃ nn, ((s.graph.add_node link (n.depth + 1)).1.add_edge u link).get_node u' =
          some nn ∧ nn.status = .visiting
        rw [get_node_add_edge]
        rcases hcur u' ph' h with ⟨nn, hnn, hst⟩
        exact ⟨nn, add_node_preserves _ _ _ _ _ _ hnn, hst⟩
      · show countVisitedG ((s.graph.add_node link (n.depth + 1)).1.add_edge u link) +
          currentBit s ≤ s.visitCount
        rw [countG_add_edge, countG_add_node]
        exact hcnt
      · intro q hq
        show (((s.graph.add_node link (n.depth + 1)).1.add_edge u link).get_node q.1).isSome = true ∧
          (((s.graph.add_node link (n.depth + 1)).1.add_edge u link).get_node q.2).isSome = true
        rw [get_node_add_edge, get_node_add_edge]
        rcases add_edge_mem _ _ _ _ hq with hq | hq
        · rw [add_node_edges] at hq
          rcases hedge q hq with ⟨h1, h2⟩
          exact ⟨isSome_add_node _ _ _ _ _ h1, isSome_add_node _ _ _ _ _ h2⟩
        · subst hq
          constructor
          · rcases hcur u true hc with ⟨nn, hnn, -⟩
            exact isSome_add_node _ _ _ _ _ (by simp [hnn])
          · exact add_node_self_isSome _ _ _ _
  | menuLink u link p n hc hn =>
    unfold menuLinkOp
    refine ⟨?_, ?_, hbud, hpend, ?_, ?_⟩
    · show (((s.graph.add_node link (n.depth + 1)).1.add_edge u link).nodes.map (·.1)).Nodup
      rw [add_edge_nodes]
      exact add_node_keys_nodup _ _ _ _ hnd
    · intro u' ph' h
      show ∃ nn, ((s.graph.add_node link (n.depth + 1)).1.add_edge u link).get_node u' =
        some nn ∧ nn.status = .visiting
      rw [get_node_add_edge]
      rcases hcur u' ph' h with ⟨nn, hnn, hst⟩
      exact ⟨nn, add_node_preserves _ _ _ _ _ _ hnn, hst⟩
    · show countVisitedG ((s.graph.add_node link (n.depth + 1)).1.add_edge u link) +
        currentBit s ≤ s.visitCount
      rw [countG_add_edge, countG_add_node]
      exact hcnt
    · intro q hq
      show (((s.graph.add_node link (n.depth + 1)).1.add_edge u link).get_node q.1).isSome = true ∧
        (((s.graph.add_node link (n.depth + 1)).1.add_edge u link).get_node q.2).isSome = true
      rw [get_node_add_edge, get_node_add_edge]
      rcases add_edge_mem _ _ _ _ hq with hq | hq
      · rw [add_node_edges] at hq
        rcases hedge q hq with ⟨h1, h2⟩
        exact ⟨isSome_add_node _ _ _ _ _ h1, isSome_add_node _ _ _ _ _ h2⟩
      · subst hq
        constructor
        · rcases hcur u true hc with ⟨nn, hnn, -⟩
          exact isSome_add_node _ _ _ _ _ (by simp [hnn])
        · exact add_node_self_isSome _ _ _ _
  | navDiscover u link p pt n hc hn =>
    unfold navDiscoverOp
    cases hlink : s.graph.get_node link with
    | some m =>
      exact ⟨hnd, hcur, hbud, hpend, hcnt, hedge⟩
    | none =>
      refine ⟨?_, ?_, hbud, hpend, ?_, ?_⟩
      · show (((s.graph.add_node link (n.depth + 1) pt).1.add_edge u link).nodes.map (·.1)).Nodup
        rw [add_edge_nodes]
        exact add_node_keys_nodup _ _ _ _ hnd
      · intro u' ph' h
        show ∃ nn, ((s.graph.add_node link (n.depth + 1) pt).1.add_edge u link).get_node u' =
          some nn ∧ nn.status = .visiting
        rw [get_node_add_edge]
        rcases hcur u' ph' h with ⟨nn, hnn, hst⟩
        exact ⟨nn, add_node_preserves _ _ _ _ _ _ hnn, hst⟩
      · show countVisitedG ((s.graph.add_node link (n.depth + 1) pt).1.add_edge u link) +
          currentBit s ≤ s.visitCount
        rw [countG_add_edge, countG_add_node]
        exact hcnt
      · intro q hq
        show (((s.graph.add_node link (n.depth + 1) pt).1.add_edge u link).get_node q.1).isSome = true ∧
          (((s.graph.add_node link (n.depth + 1) pt).1.add_edge u link).get_node q.2).isSome = true
        rw [get_node_add_edge, get_node_add_edge]
        rcases add_edge_mem _ _ _ _ hq with hq | hq
        · rw [add_node_edges] at hq
          rcases hedge q hq with ⟨h1, h2⟩
          exact ⟨isSome_add_node _ _ _ _ _ h1, isSome_add_node _ _ _ _ _ h2⟩
        · subst hq
          constructor
          · rcases hcur u true hc with ⟨nn, hnn, -⟩
            exact isSome_add_node _ _ _ _ _ (by simp [hnn])
          · exact add_node_self_isSome _ _ _ _
  | finishVisit u hc =>
    refine ⟨?_, ?_, hbud, ?_, ?_, ?_⟩
    · show ((setNodeStatus s.graph u .visited).nodes.map (·.1)).Nodup
      rw [setStatus_keys]; exact hnd
    · intro u' ph' h; simp at h
    · intro u' h; simp at h
    · show countVisitedG (setNodeStatus s.graph u .visited) + 0 ≤ s.visitCount
      have h1 := countG_setStatus_le_add_one s.graph u .visited hnd
      have h3 : currentBit s = 1 := by unfold currentBit; rw [hc]
      omega
    · intro p hp
      show ((setNodeStatus s.graph u .visited).get_node p.1).isSome = true ∧
        ((setNodeStatus s.graph u .visited).get_node p.2).isSome = true
      rw [isSome_setStatus, isSome_setStatus]
      exact hedge p (by rwa [setStatus_edges] at hp)

/-- The invariant holds at the seeded state. -/
theorem ExploreInv_init (maxPages : Nat) (baseUrl : String) :
    ExploreInv maxPages (initState baseUrl) := by
  refine ⟨?_, ?_, Nat.zero_le _, ?_, ?_, ?_⟩
  · show (((SiteGraph.mk baseUrl [] []).add_node baseUrl 0 "home").1.nodes.map (·.1)).Nodup
    simp [SiteGraph.add_node, SiteGraph.get_node]
  · intro u ph h
    simp [initState] at h
  · intro u h
    simp [initState] at h
  · show countVisitedG (initState baseUrl).graph + 0 ≤ 0
    simp [initState, countVisitedG, SiteGraph.add_node, SiteGraph.get_node]
  · intro p hp
    simp [initState, SiteGraph.add_node, SiteGraph.get_node] at hp

/-- Every reachable state satisfies the invariant. -/
theorem ExploreInv_reachable (maxPages : Nat) (baseUrl : String) (s : ExploreState)
    (h : ExploreReachable maxPages baseUrl s) : ExploreInv maxPages s := by
  induction h with
  | refl => exact ExploreInv_init maxPages baseUrl
  | tail hab hbc ih => exact ExploreInv_step maxPages ih hbc

/-- The demo run is a genuine run of the loop, for any positive budget. -/
theorem demo_reachE (m : Nat) (hm : 0 < m) : ExploreReachable m "http://s" demoE :=
  Relation.ReflTransGen.tail
    (Relation.ReflTransGen.tail
      (Relation.ReflTransGen.tail
        (Relation.ReflTransGen.tail Relation.ReflTransGen.refl
          (ExploreStep.popStart _ ⟨-10, 0, "http://s"⟩ []
            ⟨"http://s", "", "home", NodeStatus.discovered, 0⟩ rfl hm rfl rfl rfl))
        (ExploreStep.navOk _ "http://s" rfl))
      (ExploreStep.followLink _ "http://s" "http://s/a" 9
        ⟨"http://s", "", "home", NodeStatus.visiting, 0⟩ rfl rfl))
    (ExploreStep.followLink _ "http://s" "http://s/b" 9
      ⟨"http://s", "", "home", NodeStatus.visiting, 0⟩ rfl rfl)

/-- The demo run, continued through `finishVisit`. -/
theorem demo_reachF (m : Nat) (hm : 0 < m) : ExploreReachable m "http://s" demoF :=
  Relation.ReflTransGen.tail (demo_reachE m hm) (ExploreStep.finishVisit _ "http://s" rfl)

/-! ## C3: page budget vs node count -/

/-- C3 counterexample: with `max_pages = 1` the loop reaches a state whose
graph holds 3 nodes — discovered destinations become nodes immediately, so
the budget does not bound `|graph.nodes|`. -/
theorem nodes_exceed_budget_cex :
    ExploreReachable 1 "http://s" demoE ∧ 1 < demoE.graph.nodes.length :=
  ⟨demo_reachE 1 (by decide), by decide⟩

/-- C3 (amended): what the budget bounds is the number of pages visited:
in every reachable state `visit_count ≤ max_pages`, and the number of
nodes marked visited never exceeds `visit_count` (hence never the budget);
the total node count is not so bounded (see the counterexample). -/
theorem visit_count_bounded (maxPages : Nat) (baseUrl : String) (s : ExploreState)
    (h : ExploreReachable maxPages baseUrl s) :
    s.visitCount ≤ maxPages ∧ countVisited s ≤ s.visitCount := by
  obtain ⟨-, -, hbud, -, hcnt, -⟩ := ExploreInv_reachable maxPages baseUrl s h
  exact ⟨hbud, by omega⟩

/-- Witness for `visit_count_bounded` on the demo run with budget 1. -/
theorem visit_count_bounded_witness :
    demoE.visitCount ≤ 1 ∧ countVisited demoE ≤ demoE.visitCount :=
  visit_count_bounded 1 "http://s" demoE (demo_reachE 1 (by decide))

/-! ## C4: statuses only advance -/

/-- C4: once a node's status is visited or failed, no later operation of
the exploration loop changes it — the node's entry survives every step
verbatim. (The pop only starts visits on "discovered" nodes, status
writes only target the node under visit, which the invariant keeps at
"visiting", and `add_node` never overwrites.) -/
theorem visited_failed_status_persists (maxPages : Nat) (baseUrl : String)
    (s t : ExploreState) (hreach : ExploreReachable maxPages baseUrl s)
    (hstep : ExploreStep maxPages s t) (u : String) (n : SiteNode)
    (hn : s.graph.get_node u = some n)
    (hfin : n.status = .visited ∨ n.status = .failed) :
    t.graph.get_node u = some n := by
  obtain ⟨-, hcur, -, -, -, -⟩ := ExploreInv_reachable maxPages baseUrl s hreach
  cases hstep with
  | popSkip e rest hc hv hpop hskip => exact hn
  | popStart e rest n2 hc hv hpop hn2 hdisc =>
    show (setNodeStatus s.graph e.url .visiting).get_node u = some n
    rw [get_node_setStatus]
    by_cases hu : u = e.url
    · subst hu
      rw [hn] at hn2
      simp only [Option.some.injEq] at hn2
      rw [← hn2] at hdisc
      rcases hfin with hf | hf <;> rw [hf] at hdisc <;> simp at hdisc
    · rw [if_neg hu]; exact hn
  | navFail u0 ph hc =>
    show (setNodeStatus s.graph u0 .failed).get_node u = some n
    rw [get_node_setStatus]
    by_cases hu : u = u0
    · subst hu
      rcases hcur u ph hc with ⟨m, hm, hvis⟩
      rw [hn] at hm
      simp only [Option.some.injEq] at hm
      rw [← hm] at hvis
      rcases hfin with hf | hf <;> rw [hf] at hvis <;> simp at hvis
    · rw [if_neg hu]; exact hn
  | navOk u0 hc => exact hn
  | followLink u0 link p n2 hc hn2 =>
    unfold followLinkOp
    cases hlink : s.graph.get_node link with
    | some m =>
      show (s.graph.add_edge u0 link).get_node u = some n
      rw [get_node_add_edge]; exact hn
    | none =>
      show ((s.graph.add_node link (n2.depth + 1)).1.add_edge u0 link).get_node u = some n
      rw [get_node_add_edge]
      exact add_node_preserves _ _ _ _ _ _ hn
  | menuLink u0 link p n2 hc hn2 =>
    show ((s.graph.add_node link (n2.depth + 1)).1.add_edge u0 link).get_node u = some n
    rw [get_node_add_edge]
    exact add_node_preserves _ _ _ _ _ _ hn
  | navDiscover u0 link p pt n2 hc hn2 =>
    unfold navDiscoverOp
    cases hlink : s.graph.get_node link with
    | some m => exact hn
    | none =>
      show ((s.graph.add_node link (n2.depth + 1) pt).1.add_edge u0 link).get_node u = some n
      rw [get_node_add_edge]
      exact add_node_preserves _ _ _ _ _ _ hn
  | finishVisit u0 hc =>
    show (setNodeStatus s.graph u0 .visited).get_node u = some n
    rw [get_node_setStatus]
    by_cases hu : u = u0
    · subst hu
      rcases hcur u true hc with ⟨m, hm, hvis⟩
      rw [hn] at hm
      simp only [Option.some.injEq] at hm
      rw [← hm] at hvis
      rcases hfin with hf | hf <;> rw [hf] at hvis <;> simp at hvis
    · rw [if_neg hu]; exact hn

/-- Witness for `visited_failed_status_persists`: the visited seed node
survives the pop of the next frontier entry untouched. -/
theorem visited_failed_status_persists_witness :
    demoG.graph.get_node "http://s" =
      some { url := "http://s", page_type := "home", status := .visited, depth := 0 } :=
  visited_failed_status_persists 2 "http://s" demoF demoG (demo_reachF 2 (by decide))
    (ExploreStep.popStart _ ⟨-9, 1, "http://s/a"⟩ [⟨-9, 1, "http://s/b"⟩]
      ⟨"http://s/a", "", "other", NodeStatus.discovered, 1⟩ rfl (by decide)
      (by decide) rfl rfl)
    "http://s" { url := "http://s", page_type := "home", status := .visited, depth := 0 }
    rfl (Or.inl rfl)

/-! ## C9: no dangling edges -/

/-- C9: in every reachable graph state, both endpoints of every edge are
present as node keys. -/
theorem no_dangling_edges (maxPages : Nat) (baseUrl : String) (s : ExploreState)
    (h : ExploreReachable maxPages baseUrl s) :
    ∀ p ∈ s.graph.edges,
      (s.graph.get_node p.1).isSome = true ∧ (s.graph.get_node p.2).isSome = true :=
  (ExploreInv_reachable maxPages baseUrl s h).2.2.2.2.2

/-- Witness for `no_dangling_edges` on the demo run's first edge. -/
theorem no_dangling_edges_witness :
    (demoE.graph.get_node "http://s").isSome = true ∧
      (demoE.graph.get_node "http://s/a").isSome = true :=
  no_dangling_edges 1 "http://s" demoE (demo_reachE 1 (by decide))
    ("http://s", "http://s/a") (by decide)

/-! ## C1: URL canonicalization — string-level helper lemmas -/

theorem char_toNat_inj {a b : Char} (h : a.toNat = b.toNat) : a = b :=
  Char.ext (UInt32.ext h)

theorem char_toNat_ofNat {n : Nat} (h : n < 0xD800) : (Char.ofNat n).toNat = n := by
  have hv : n.isValidChar := Or.inl h
  simp [Char.ofNat, hv, Char.ofNatAux, Char.toNat]
  rfl

theorem char_valid_ranges (c : Char) :
    c.toNat < 0xD800 ∨ (0xDFFF < c.toNat ∧ c.toNat < 0x110000) := c.valid

theorem char_toNat_lt (c : Char) : c.toNat < 0x110000 := by
  rcases char_valid_ranges c with h | h <;> omega

theorem splitOnce_none_iff {c : Char} {s : PyStr} :
    splitOnceChar c s = none ↔ c ∉ s := by
  induction s with
  | nil => simp [splitOnceChar]
  | cons x xs ih =>
    by_cases hx : x = c
    · subst hx; simp [splitOnceChar]
    · simp [splitOnceChar, hx, Option.map_eq_none', ih, Ne.symm hx]

theorem splitOnce_some {c : Char} {s x y : PyStr}
    (h : splitOnceChar c s = some (x, y)) : s = x ++ c :: y ∧ c ∉ x := by
  induction s generalizing x y with
  | nil => simp [splitOnceChar] at h
  | cons a as ih =>
    by_cases ha : a = c
    · subst ha
      simp [splitOnceChar] at h
      obtain ⟨rfl, rfl⟩ := h
      simp
    · simp [splitOnceChar, ha] at h
      obtain ⟨x', hin, rfl⟩ := h
      obtain ⟨hs, hnx⟩ := ih hin
      refine ⟨by rw [hs]; simp, ?_⟩
      simp [hnx, Ne.symm ha]

theorem splitOnce_app_left {c : Char} {a x y : PyStr}
    (h : splitOnceChar c a = some (x, y)) (b : PyStr) :
    splitOnceChar c (a ++ b) = some (x, y ++ b) := by
  induction a generalizing x with
  | nil => simp [splitOnceChar] at h
  | cons p ps ih =>
    by_cases hp : p = c
    · subst hp
      simp [splitOnceChar] at h ⊢
      obtain ⟨rfl, rfl⟩ := h
      simp
    · simp [splitOnceChar, hp] at h ⊢
      obtain ⟨x', hin, rfl⟩ := h
      exact ⟨x', ih hin, rfl⟩

theorem splitOnce_app_none {c : Char} {a : PyStr}
    (h : splitOnceChar c a = none) (b : PyStr) :
    splitOnceChar c (a ++ b) =
      (splitOnceChar c b).map (fun p => (a ++ p.1, p.2)) := by
  induction a with
  | nil => simp
  | cons p ps ih =>
    by_cases hp : p = c
    · subst hp; simp [splitOnceChar] at h
    · simp [splitOnceChar, hp] at h ⊢
      rw [ih h]
      cases splitOnceChar c b <;> simp

theorem splitOnce_mk {c : Char} {a : PyStr} (h : c ∉ a) (b : PyStr) :
    splitOnceChar c (a ++ c :: b) = some (a, b) := by
  rw [splitOnce_app_none (splitOnce_none_iff.mpr h)]
  simp [splitOnceChar]
theorem rstrip_decomp (s : PyStr) :
    ∃ t, s = rstripSlash s ++ t ∧ ∀ c ∈ t, c = '/' := by
  refine ⟨(s.reverse.takeWhile (· == '/')).reverse, ?_, ?_⟩
  · rw [rstripSlash, ← List.reverse_append, List.takeWhile_append_dropWhile,
      List.reverse_reverse]
  · intro c hc
    have := List.mem_takeWhile_imp (List.mem_reverse.mp hc)
    simpa using this

theorem mem_rstrip {c : Char} {s : PyStr} (h : c ∈ rstripSlash s) : c ∈ s := by
  rw [rstripSlash, List.mem_reverse] at h
  exact List.mem_reverse.mp ((List.dropWhile_sublist _).mem h)

theorem rstrip_headI {s : PyStr} (h : rstripSlash s ≠ []) :
    (rstripSlash s).headI = s.headI := by
  obtain ⟨t, hs, _⟩ := rstrip_decomp s
  cases hr : rstripSlash s with
  | nil => exact absurd hr h
  | cons a l => rw [hs, hr]; simp

theorem rstrip_take_two {s : PyStr} (h : (rstripSlash s).take 2 = pys "//") :
    s.take 2 = pys "//" := by
  obtain ⟨t, hs, _⟩ := rstrip_decomp s
  have hlen : 2 ≤ (rstripSlash s).length := by
    by_contra hh
    push_neg at hh
    have := congrArg List.length h
    simp [List.length_take, pys] at this
    omega
  rw [hs, List.take_append_of_le_length hlen]
  exact h

theorem dropWhile_idem {p : Char → Bool} (l : List Char) :
    (l.dropWhile p).dropWhile p = l.dropWhile p := by
  rw [List.dropWhile_eq_self_iff]
  intro hl
  have := List.head_dropWhile_not p l (by simpa using List.length_pos.mp hl)
  simpa [List.getElem_zero, ← List.head_eq_getElem_zero] using this

theorem rstrip_idem (s : PyStr) : rstripSlash (rstripSlash s) = rstripSlash s := by
  rw [rstripSlash, rstripSlash, List.reverse_reverse, dropWhile_idem]

theorem rstrip_cons_slash {p0 : PyStr} (h : rstripSlash p0 = p0) (h0 : p0 ≠ []) :
    rstripSlash ('/' :: p0) = '/' :: p0 := by
  have hd : p0.reverse.dropWhile (· == '/') = p0.reverse := by
    have := congrArg List.reverse h
    rwa [rstripSlash, List.reverse_reverse] at this
  rw [rstripSlash]
  simp only [List.reverse_cons]
  rw [List.dropWhile_append]
  simp [hd, h0]

theorem decode_one {b : Nat} (hb : b < 0x80) (bs : List Nat) :
    utf8DecodeReplace (b :: bs) = Char.ofNat b :: utf8DecodeReplace bs := by
  rw [utf8DecodeReplace.eq_def]
  simp [hb]

theorem decode_two {b b1 : Nat} (hb : 0xC2 ≤ b) (hb' : b < 0xE0)
    (h1 : isCont b1 = true) (bs : List Nat) :
    utf8DecodeReplace (b :: b1 :: bs) =
      Char.ofNat ((b - 0xC0) * 64 + (b1 - 0x80)) :: utf8DecodeReplace bs := by
  rw [utf8DecodeReplace.eq_def]
  have h2 : ¬ b < 0x80 := by omega
  have h3 : ¬ b < 0xC2 := by omega
  simp [h2, h3, hb', h1]

theorem decode_three {b b1 b2 : Nat} (hb : 0xE0 ≤ b) (hb' : b < 0xF0)
    (h1 : (if b = 0xE0 then 0xA0 else 0x80) ≤ b1)
    (h1' : b1 ≤ (if b = 0xED then 0x9F else 0xBF))
    (h2 : isCont b2 = true) (bs : List Nat) :
    utf8DecodeReplace (b :: b1 :: b2 :: bs) =
      Char.ofNat ((b - 0xE0) * 4096 + (b1 - 0x80) * 64 + (b2 - 0x80)) ::
        utf8DecodeReplace bs := by
  rw [utf8DecodeReplace.eq_def]
  have g1 : ¬ b < 0x80 := by omega
  have g2 : ¬ b < 0xC2 := by omega
  have g3 : ¬ b < 0xE0 := by omega
  simp [g1, g2, g3, hb', h1, h1', h2]

theorem decode_four {b b1 b2 b3 : Nat} (hb : 0xF0 ≤ b) (hb' : b < 0xF5)
    (h1 : (if b = 0xF0 then 0x90 else 0x80) ≤ b1)
    (h1' : b1 ≤ (if b = 0xF4 then 0x8F else 0xBF))
    (h2 : isCont b2 = true) (h3 : isCont b3 = true) (bs : List Nat) :
    utf8DecodeReplace (b :: b1 :: b2 :: b3 :: bs) =
      Char.ofNat ((b - 0xF0) * 262144 + (b1 - 0x80) * 4096 + (b2 - 0x80) * 64 +
          (b3 - 0x80)) :: utf8DecodeReplace bs := by
  rw [utf8DecodeReplace.eq_def]
  have g1 : ¬ b < 0x80 := by omega
  have g2 : ¬ b < 0xC2 := by omega
  have g3 : ¬ b < 0xE0 := by omega
  have g4 : ¬ b < 0xF0 := by omega
  simp [g1, g2, g3, g4, hb', h1, h1', h2, h3]

theorem utf8_decode_encode (s : PyStr) :
    utf8DecodeReplace (utf8Encode s) = s := by
  induction s with
  | nil =>
    rw [show utf8Encode [] = [] from rfl, utf8DecodeReplace.eq_def]
  | cons c cs ih =>
    have hval := char_valid_ranges c
    set n := c.toNat with hn
    have hofn : Char.ofNat n = c := by rw [hn, Char.ofNat_toNat]
    rw [utf8Encode, List.flatMap_cons, ← utf8Encode]
    rcases Nat.lt_or_ge n 0x80 with h1 | h1
    · rw [show utf8EncodeChar n = [n] by simp [utf8EncodeChar, h1]]
      rw [List.cons_append, List.nil_append, decode_one h1, ih, hofn]
    · rcases Nat.lt_or_ge n 0x800 with h2 | h2
      · rw [show utf8EncodeChar n = [0xC0 + n / 64, 0x80 + n % 64] by
          simp [utf8EncodeChar, h2]; omega]
        simp only [List.cons_append, List.nil_append]
        rw [@decode_two (0xC0 + n / 64) (0x80 + n % 64) (by omega) (by omega)
          (by simp [isCont]; omega) (utf8Encode cs)]
        rw [show (0xC0 + n / 64 - 0xC0) * 64 + (0x80 + n % 64 - 0x80) = n by omega]
        rw [ih, hofn]
      · rcases Nat.lt_or_ge n 0x10000 with h3 | h3
        · rw [show utf8EncodeChar n =
              [0xE0 + n / 4096, 0x80 + (n / 64) % 64, 0x80 + n % 64] by
            simp [utf8EncodeChar, show ¬ n < 0x80 by omega,
              show ¬ n < 0x800 by omega, h3]]
          simp only [List.cons_append, List.nil_append]
          rw [@decode_three (0xE0 + n / 4096) (0x80 + (n / 64) % 64) (0x80 + n % 64)
            (by omega) (by omega)
            (by split <;> rename_i hsp <;> omega)
            (by split <;> rename_i hsp <;> omega)
            (by simp [isCont]; omega) (utf8Encode cs)]
          rw [show (0xE0 + n / 4096 - 0xE0) * 4096 + (0x80 + (n / 64) % 64 - 0x80) * 64 +
              (0x80 + n % 64 - 0x80) = n by omega]
          rw [ih, hofn]
        · have h4 : n < 0x110000 := by rcases hval with h | h <;> omega
          rw [show utf8EncodeChar n =
              [0xF0 + n / 262144, 0x80 + (n / 4096) % 64, 0x80 + (n / 64) % 64,
                0x80 + n % 64] by
            simp [utf8EncodeChar, show ¬ n < 0x80 by omega,
              show ¬ n < 0x800 by omega, show ¬ n < 0x10000 by omega]]
          simp only [List.cons_append, List.nil_append]
          rw [@decode_four (0xF0 + n / 262144) (0x80 + (n / 4096) % 64)
            (0x80 + (n / 64) % 64) (0x80 + n % 64)
            (by omega) (by omega)
            (by split <;> rename_i hsp <;> omega)
            (by split <;> rename_i hsp <;> omega)
            (by simp [isCont]; omega) (by simp [isCont]; omega) (utf8Encode cs)]
          rw [show (0xF0 + n / 262144 - 0xF0) * 262144 +
              (0x80 + (n / 4096) % 64 - 0x80) * 4096 +
              (0x80 + (n / 64) % 64 - 0x80) * 64 + (0x80 + n % 64 - 0x80) = n by omega]
          rw [ih, hofn]

/-! ## C1: quote / unquote roundtrip lemmas -/

theorem map_id_on {f : Char → Char} {l : PyStr} (h : ∀ x ∈ l, f x = x) :
    l.map f = l := by
  induction l with
  | nil => rfl
  | cons x xs ih =>
    rw [List.map_cons, h x (by simp), ih (fun y hy => h y (by simp [hy]))]

theorem utf8EncodeChar_lt {n b : Nat} (hn : n < 0x110000)
    (h : b ∈ utf8EncodeChar n) : b < 0x100 := by
  rcases Nat.lt_or_ge n 0x80 with h1 | h1
  · simp [utf8EncodeChar, h1] at h; omega
  · rcases Nat.lt_or_ge n 0x800 with h2 | h2
    · simp [utf8EncodeChar, show ¬ n < 0x80 by omega, h2] at h
      rcases h with rfl | rfl <;> omega
    · rcases Nat.lt_or_ge n 0x10000 with h3 | h3
      · simp [utf8EncodeChar, show ¬ n < 0x80 by omega,
          show ¬ n < 0x800 by omega, h3] at h
        rcases h with rfl | rfl | rfl <;> omega
      · simp [utf8EncodeChar, show ¬ n < 0x80 by omega,
          show ¬ n < 0x800 by omega, show ¬ n < 0x10000 by omega] at h
        rcases h with rfl | rfl | rfl | rfl <;> omega

theorem utf8_bytes_lt {b : Nat} {s : PyStr} (h : b ∈ utf8Encode s) : b < 0x100 := by
  rw [utf8Encode] at h
  obtain ⟨c, _, hb⟩ := List.mem_flatMap.mp h
  exact utf8EncodeChar_lt (char_toNat_lt c) hb

theorem isUpHex_hexUpper {m : Nat} (h : m < 16) : isUpHex (hexUpper m) = true := by
  rw [hexUpper]
  by_cases h10 : m < 10
  · rw [if_pos h10]
    simp [isUpHex, char_toNat_ofNat (show 0x30 + m < 0xD800 by omega)]
    omega
  · rw [if_neg h10]
    simp [isUpHex, char_toNat_ofNat (show 0x41 + m - 10 < 0xD800 by omega)]
    omega

theorem hexVal_hexUpper {m : Nat} (h : m < 16) :
    hexValByte ((hexUpper m).toNat) = some m := by
  rw [hexUpper]
  by_cases h10 : m < 10
  · rw [if_pos h10, char_toNat_ofNat (by omega)]
    rw [hexValByte, if_pos (by omega)]
    congr 1
    omega
  · rw [if_neg h10, char_toNat_ofNat (by omega)]
    rw [hexValByte, if_neg (by omega), if_neg (by omega), if_pos (by omega)]
    congr 1
    omega

theorem mem_quote {c : Char} {safe : List Char} {s : PyStr} (h : c ∈ quote safe s) :
    (alwaysSafeByte c.toNat = true ∧ c.toNat < 0x80) ∨ c ∈ safe ∨ c = '%' ∨
      isUpHex c = true := by
  rw [quote] at h
  obtain ⟨b, hb, hc⟩ := List.mem_flatMap.mp h
  have hblt := utf8_bytes_lt hb
  rw [quoteByte] at hc
  by_cases hs : (alwaysSafeByte b || safe.contains (Char.ofNat b)) = true
  · rw [if_pos hs] at hc
    simp at hc
    subst hc
    have hs2 : alwaysSafeByte b = true ∨ Char.ofNat b ∈ safe := by simpa using hs
    rcases hs2 with h' | h'
    · left
      have hbb : (Char.ofNat b).toNat = b := char_toNat_ofNat (by omega)
      refine ⟨by rwa [hbb], ?_⟩
      rw [hbb]
      rw [alwaysSafeByte] at h'
      simp at h'
      omega
    · right; left
      exact h'
  · rw [if_neg hs] at hc
    simp at hc
    rcases hc with rfl | rfl | rfl
    · right; right; left; rfl
    · right; right; right; exact isUpHex_hexUpper (by omega)
    · right; right; right; exact isUpHex_hexUpper (by omega)

theorem not_mem_quote_char {safe : List Char} {s : PyStr} {c : Char}
    (h1 : alwaysSafeByte c.toNat = false) (h2 : c ∉ safe) (h3 : c ≠ '%')
    (h4 : isUpHex c = false) : c ∉ quote safe s := by
  intro hm
  rcases mem_quote hm with ⟨h', _⟩ | h' | h' | h'
  · rw [h1] at h'; cases h'
  · exact h2 h'
  · exact h3 h'
  · rw [h4] at h'; cases h'

theorem quote_ascii {safe : List Char} {s : PyStr}
    (hsafe : ∀ c ∈ safe, c.toNat < 0x80 ∧ c ≠ '%') {c : Char}
    (h : c ∈ quote safe s) : c.toNat < 0x80 := by
  rcases mem_quote h with ⟨_, h'⟩ | h' | rfl | h'
  · exact h'
  · exact (hsafe c h').1
  · decide
  · rw [isUpHex] at h'; simp at h'; omega

theorem u2b_cons_ne {b : Nat} (rest : List Nat) (h : ¬ b = 0x25) :
    unquote_to_bytes (b :: rest) = b :: unquote_to_bytes rest := by
  rw [unquote_to_bytes.eq_def]
  simp [h]

theorem u2b_escape {h1 h2 x y : Nat} (rest : List Nat)
    (e1 : hexValByte h1 = some x) (e2 : hexValByte h2 = some y) :
    unquote_to_bytes (0x25 :: h1 :: h2 :: rest) =
      (16 * x + y) :: unquote_to_bytes rest := by
  rw [unquote_to_bytes.eq_def]
  simp [e1, e2]

theorem u2b_passthrough {bs : List Nat} (h : (0x25 : Nat) ∉ bs) :
    unquote_to_bytes bs = bs := by
  induction bs with
  | nil => rw [unquote_to_bytes.eq_def]
  | cons b rest ih =>
    simp at h
    rw [u2b_cons_ne rest (fun hh => h.1 hh.symm), ih h.2]

theorem u2b_quote {safe : List Char} (hsafe : ∀ c ∈ safe, c.toNat < 0x80 ∧ c ≠ '%')
    {bs : List Nat} (hlt : ∀ b ∈ bs, b < 0x100) :
    unquote_to_bytes ((bs.flatMap (quoteByte safe)).map Char.toNat) = bs := by
  induction bs with
  | nil =>
    rw [List.flatMap_nil, List.map_nil, unquote_to_bytes.eq_def]
  | cons b rest ih =>
    have hb : b < 0x100 := hlt b (by simp)
    rw [List.flatMap_cons, List.map_append, quoteByte]
    by_cases hs : (alwaysSafeByte b || safe.contains (Char.ofNat b)) = true
    · rw [if_pos hs]
      simp only [List.map_cons, List.map_nil, List.cons_append, List.nil_append]
      rw [char_toNat_ofNat (by omega)]
      have hb25 : ¬ b = 0x25 := by
        intro hcc
        subst hcc
        have hs2 : alwaysSafeByte 0x25 = true ∨ Char.ofNat 0x25 ∈ safe := by
          simpa using hs
        rcases hs2 with h' | h'
        · exact absurd h' (by decide)
        · rw [show Char.ofNat 0x25 = '%' by decide] at h'
          exact absurd rfl (hsafe _ h').2
      rw [u2b_cons_ne _ hb25, ih (fun x hx => hlt x (by simp [hx]))]
    · rw [if_neg hs]
      simp only [List.map_cons, List.map_nil, List.cons_append, List.nil_append]
      rw [show ('%').toNat = 0x25 from rfl,
        u2b_escape _ (hexVal_hexUpper (show b / 16 < 16 by omega))
          (hexVal_hexUpper (show b % 16 < 16 by omega))]
      rw [show 16 * (b / 16) + b % 16 = b by omega,
        ih (fun x hx => hlt x (by simp [hx]))]

theorem decode_ascii {l : PyStr} (h : ∀ c ∈ l, c.toNat < 0x80) :
    utf8DecodeReplace (l.map Char.toNat) = l := by
  induction l with
  | nil => rw [List.map_nil, utf8DecodeReplace.eq_def]
  | cons c rest ih =>
    rw [List.map_cons, decode_one (h c (by simp)), Char.ofNat_toNat,
      ih (fun x hx => h x (by simp [hx]))]

theorem unquoteGo_ascii {l : PyStr} (h : ∀ c ∈ l, isAsciiChar c = true)
    (acc : PyStr) : unquoteGo acc l = flushRun (l.reverse ++ acc) := by
  induction l generalizing acc with
  | nil => simp [unquoteGo]
  | cons c rest ih =>
    rw [unquoteGo, if_pos (h c (by simp)), ih (fun x hx => h x (by simp [hx]))]
    congr 1
    simp

theorem unquote_ascii {l : PyStr} (h : ∀ c ∈ l, c.toNat < 0x80) :
    unquote l = utf8DecodeReplace (unquote_to_bytes (l.map Char.toNat)) := by
  rw [unquote]
  by_cases hp : '%' ∈ l
  · rw [if_neg (by simp [hp])]
    rw [unquoteGo_ascii (fun c hc => by simp [isAsciiChar]; have := h c hc; omega)]
    rw [flushRun]
    simp
  · rw [if_pos (by simp [hp])]
    have h25 : (0x25 : Nat) ∉ l.map Char.toNat := by
      simp only [List.mem_map, not_exists]
      rintro c ⟨hc, hc25⟩
      have hcp : c = '%' := char_toNat_inj (by rw [hc25]; rfl)
      subst hcp
      exact hp hc
    rw [u2b_passthrough h25, decode_ascii h]

theorem unquote_quote {safe : List Char}
    (hsafe : ∀ c ∈ safe, c.toNat < 0x80 ∧ c ≠ '%') (s : PyStr) :
    unquote (quote safe s) = s := by
  rw [unquote_ascii (fun c hc => quote_ascii hsafe hc), quote,
    u2b_quote hsafe (fun b hb => utf8_bytes_lt hb)]
  exact utf8_decode_encode s

theorem plusToSpace_quote_plus (s : PyStr) :
    plusToSpace (quote_plus s) =
      quote (if s.contains ' ' = true then [' '] else []) s := by
  rw [quote_plus]
  by_cases hsp : ' ' ∈ s
  · rw [if_neg (by simp [hsp]), if_pos (by simp [hsp]), plusToSpace, List.map_map]
    apply map_id_on
    intro x hx
    by_cases hx' : x = ' '
    · subst hx'; simp
    · have hplus : x ≠ '+' := by
        intro hh
        subst hh
        exact not_mem_quote_char (by decide) (by decide) (by decide) (by decide) hx
      simp [hx', hplus]
  · rw [if_pos (by simp [hsp]), if_neg (by simp [hsp]), plusToSpace]
    apply map_id_on
    intro x hx
    have hplus : x ≠ '+' := by
      intro hh
      subst hh
      exact not_mem_quote_char (by decide) (by decide) (by decide) (by decide) hx
    simp [hplus]

theorem unquote_plusToSpace_qp (s : PyStr) :
    unquote (plusToSpace (quote_plus s)) = s := by
  rw [plusToSpace_quote_plus]
  by_cases hsp : ' ' ∈ s
  · rw [if_pos (by simp [hsp])]
    exact unquote_quote (by decide) s
  · rw [if_neg (by simp [hsp])]
    exact unquote_quote (by decide) s

theorem mem_quote_plus {c : Char} {s : PyStr} (h : c ∈ quote_plus s) :
    qpOK c = true := by
  rw [quote_plus] at h
  by_cases hsp : ' ' ∈ s
  · rw [if_neg (by simp [hsp])] at h
    simp only [List.mem_map] at h
    obtain ⟨x, hx, hfx⟩ := h
    by_cases hx' : x = ' '
    · subst hx'
      simp at hfx
      subst hfx
      decide
    · rw [if_neg hx'] at hfx
      subst hfx
      rcases mem_quote hx with ⟨h1, _⟩ | h1 | rfl | h1
      · simp [qpOK, h1]
      · simp at h1; exact absurd h1 hx'
      · decide
      · simp [qpOK, h1]
  · rw [if_pos (by simp [hsp])] at h
    rcases mem_quote h with ⟨h1, _⟩ | h1 | rfl | h1
    · simp [qpOK, h1]
    · simp at h1
    · decide
    · simp [qpOK, h1]

theorem not_mem_quote_plus {s : PyStr} {c : Char} (h : qpOK c = false) :
    c ∉ quote_plus s := by
  intro hm
  rw [mem_quote_plus hm] at h
  cases h

theorem utf8EncodeChar_ne_nil (n : Nat) : utf8EncodeChar n ≠ [] := by
  rw [utf8EncodeChar]
  split
  · simp
  · split
    · simp
    · split <;> simp

theorem quoteByte_ne_nil (safe : List Char) (b : Nat) : quoteByte safe b ≠ [] := by
  rw [quoteByte]
  split <;> simp

theorem quote_ne_nil (safe : List Char) {s : PyStr} (h : s ≠ []) :
    quote safe s ≠ [] := by
  cases s with
  | nil => exact absurd rfl h
  | cons c cs =>
    rw [quote]
    intro hnil
    rw [List.flatMap_eq_nil_iff] at hnil
    have henc : utf8EncodeChar c.toNat ≠ [] := utf8EncodeChar_ne_nil _
    cases hb : utf8EncodeChar c.toNat with
    | nil => exact absurd hb henc
    | cons b bs =>
      have hmem : b ∈ utf8Encode (c :: cs) := by
        rw [utf8Encode, List.flatMap_cons, hb]
        simp
      exact quoteByte_ne_nil safe b (hnil b hmem)

theorem quote_plus_ne_nil {s : PyStr} (h : s ≠ []) : quote_plus s ≠ [] := by
  rw [quote_plus]
  by_cases hsp : ' ' ∈ s
  · rw [if_neg (by simp [hsp])]
    simp only [ne_eq, List.map_eq_nil_iff]
    exact quote_ne_nil _ h
  · rw [if_pos (by simp [hsp])]
    exact quote_ne_nil _ h

theorem u2b_ne_nil {bs : List Nat} (h : bs ≠ []) : unquote_to_bytes bs ≠ [] := by
  cases bs with
  | nil => exact absurd rfl h
  | cons b rest =>
    by_cases hb : b = 0x25
    · subst hb
      match rest with
      | h1 :: h2 :: rest2 =>
        rw [unquote_to_bytes.eq_def]
        simp only [if_pos rfl]
        cases e1 : hexValByte h1 <;> cases e2 : hexValByte h2 <;> simp [e1, e2]
      | [h1] =>
        rw [unquote_to_bytes.eq_def]
        simp
      | [] =>
        rw [unquote_to_bytes.eq_def]
        simp
    · rw [u2b_cons_ne rest hb]
      simp

theorem decode_cons_shape (b : Nat) (rest : List Nat) :
    ∃ c t, utf8DecodeReplace (b :: rest) = c :: t := by
  rw [utf8DecodeReplace.eq_def]
  repeat' first | split | dsimp only
  all_goals first | exact ⟨_, _, rfl⟩ | simp_all

theorem decode_ne_nil {bs : List Nat} (h : bs ≠ []) : utf8DecodeReplace bs ≠ [] := by
  cases bs with
  | nil => exact absurd rfl h
  | cons b rest =>
    obtain ⟨c, t, he⟩ := decode_cons_shape b rest
    simp [he]

theorem flushRun_ne_nil {acc : PyStr} (h : acc ≠ []) : flushRun acc ≠ [] := by
  rw [flushRun]
  apply decode_ne_nil
  apply u2b_ne_nil
  simp [h]

theorem unquoteGo_ne_nil (l : PyStr) : ∀ acc : PyStr,
    acc ≠ [] ∨ l ≠ [] → unquoteGo acc l ≠ [] := by
  induction l with
  | nil =>
    intro acc hd
    rcases hd with hd | hd
    · exact flushRun_ne_nil hd
    · exact absurd rfl hd
  | cons c rest ih =>
    intro acc _
    rw [unquoteGo]
    by_cases hc : isAsciiChar c = true
    · rw [if_pos hc]
      exact ih (c :: acc) (Or.inl (by simp))
    · rw [if_neg hc]
      simp

theorem unquote_ne_nil {s : PyStr} (h : s ≠ []) : unquote s ≠ [] := by
  rw [unquote]
  split
  · exact h
  · exact unquoteGo_ne_nil s [] (Or.inr h)

/-! ## C1: parse_qsl / urlencode roundtrip -/

theorem parse_qsl_eq (qs : PyStr) :
    parse_qsl qs = (qs.splitOn '&').filterMap decodePiece := by
  by_cases h : qs = []
  · subst h
    simp [parse_qsl, List.splitOn_nil, decodePiece]
  · simp [parse_qsl, h]

theorem decodePiece_enc {k v : PyStr} (hv : v ≠ []) :
    decodePiece (quote_plus k ++ '=' :: quote_plus v) = some (k, v) := by
  have hk : '=' ∉ quote_plus k := not_mem_quote_plus (by decide)
  rw [decodePiece, if_neg (by simp), splitOnce_mk hk]
  simp [quote_plus_ne_nil hv, unquote_plusToSpace_qp]

theorem filterMap_some_id {L : List (PyStr × PyStr)}
    (h : ∀ kv ∈ L, decodePiece (quote_plus kv.1 ++ '=' :: quote_plus kv.2) = some kv) :
    L.filterMap (fun kv => decodePiece (quote_plus kv.1 ++ '=' :: quote_plus kv.2)) = L := by
  induction L with
  | nil => rfl
  | cons a l ih =>
    rw [List.filterMap_cons]
    simp only [h a (by simp)]
    rw [ih (fun kv hkv => h kv (by simp [hkv]))]

theorem enc_piece_no_amp (k v : PyStr) :
    '&' ∉ quote_plus k ++ '=' :: quote_plus v := by
  intro hm
  simp only [List.mem_append, List.mem_cons] at hm
  rcases hm with hm | hm | hm
  · exact not_mem_quote_plus (by decide) hm
  · exact absurd hm (by decide)
  · exact not_mem_quote_plus (by decide) hm

theorem parse_qsl_enc (L : List (PyStr × PyStr)) (hv : ∀ kv ∈ L, kv.2 ≠ []) :
    parse_qsl (List.intercalate ['&']
      (L.map (fun kv => quote_plus kv.1 ++ '=' :: quote_plus kv.2))) = L := by
  cases L with
  | nil => rfl
  | cons kv0 rest =>
    rw [parse_qsl_eq]
    have hamp : ∀ p ∈ (kv0 :: rest).map
        (fun kv => quote_plus kv.1 ++ '=' :: quote_plus kv.2), '&' ∉ p := by
      intro p hp
      obtain ⟨kv, _, rfl⟩ := List.mem_map.mp hp
      exact enc_piece_no_amp kv.1 kv.2
    rw [List.splitOn_intercalate _ '&' hamp (by simp)]
    rw [List.filterMap_map]
    exact filterMap_some_id (fun kv hkv => decodePiece_enc (hv kv hkv))

theorem insertAll_cons (acc : List (PyStr × List PyStr)) (p : PyStr × PyStr)
    (ps : List (PyStr × PyStr)) :
    insertAll acc (p :: ps) = insertAll (insertPair acc p.1 p.2) ps := rfl

theorem insertAll_app (acc : List (PyStr × List PyStr))
    (ps qs : List (PyStr × PyStr)) :
    insertAll acc (ps ++ qs) = insertAll (insertAll acc ps) qs :=
  List.foldl_append _ _ _ _

theorem insertPair_notmem {acc : List (PyStr × List PyStr)} {k : PyStr}
    (h : ∀ kv ∈ acc, kv.1 ≠ k) (v : PyStr) :
    insertPair acc k v = acc ++ [(k, [v])] := by
  induction acc with
  | nil => rfl
  | cons a l ih =>
    obtain ⟨k0, vs⟩ := a
    rw [insertPair, if_neg (h (k0, vs) (by simp))]
    rw [ih (fun kv hkv => h kv (by simp [hkv]))]
    simp

theorem insertPair_append_last {acc : List (PyStr × List PyStr)} {k : PyStr}
    (h : ∀ kv ∈ acc, kv.1 ≠ k) (ws : List PyStr) (v : PyStr) :
    insertPair (acc ++ [(k, ws)]) k v = acc ++ [(k, ws ++ [v])] := by
  induction acc with
  | nil => simp [insertPair]
  | cons a l ih =>
    obtain ⟨k0, vs⟩ := a
    simp only [List.cons_append]
    rw [insertPair, if_neg (h (k0, vs) (by simp))]
    rw [ih (fun kv hkv => h kv (by simp [hkv]))]

theorem insertAll_same_key {acc : List (PyStr × List PyStr)} {k : PyStr}
    (h : ∀ kv ∈ acc, kv.1 ≠ k) (vs : List PyStr) (ws : List PyStr) :
    insertAll (acc ++ [(k, ws)]) (vs.map (fun v => (k, v))) =
      acc ++ [(k, ws ++ vs)] := by
  induction vs generalizing ws with
  | nil => simp [insertAll]
  | cons v vt ih =>
    rw [List.map_cons, insertAll_cons]
    simp only
    rw [insertPair_append_last h, ih]
    simp

theorem insertAll_groups (l : List (PyStr × List PyStr)) :
    ∀ acc : List (PyStr × List PyStr),
    (∀ kv ∈ acc, ∀ kw ∈ l, kv.1 ≠ kw.1) →
    l.Pairwise (fun a b => a.1 ≠ b.1) →
    (∀ kv ∈ l, kv.2 ≠ []) →
    insertAll acc (flattenPairs l) = acc ++ l := by
  induction l with
  | nil =>
    intro acc _ _ _
    simp [flattenPairs, insertAll]
  | cons g rest ih =>
    intro acc hdisj hpw hne
    obtain ⟨k, vs⟩ := g
    cases vs with
    | nil => exact absurd rfl (hne (k, []) (by simp))
    | cons v vt =>
      rw [flattenPairs, List.flatMap_cons, ← flattenPairs, insertAll_app]
      have hk : ∀ kv ∈ acc, kv.1 ≠ k :=
        fun kv hkv => hdisj kv hkv (k, v :: vt) (by simp)
      have hstep : insertAll acc ((v :: vt).map (fun x => (k, x))) =
          acc ++ [(k, v :: vt)] := by
        rw [List.map_cons, insertAll_cons]
        simp only
        rw [insertPair_notmem hk v, insertAll_same_key hk vt [v]]
        simp
      rw [hstep]
      rw [List.pairwise_cons] at hpw
      rw [ih (acc ++ [(k, v :: vt)]) ?_ hpw.2
        (fun kv hkv => hne kv (by simp [hkv]))]
      · simp
      · intro kv hkv kw hkw
        rcases List.mem_append.mp hkv with hin | hin
        · exact hdisj kv hin kw (by simp [hkw])
        · have : kv = (k, v :: vt) := by simpa using hin
          rw [this]
          exact hpw.1 kw hkw

theorem urlencode_flatten (l : List (PyStr × List PyStr)) :
    urlencode l = List.intercalate ['&'] ((flattenPairs l).map
      (fun kv => quote_plus kv.1 ++ '=' :: quote_plus kv.2)) := by
  rw [urlencode, flattenPairs, List.map_flatMap]
  have hfun : (fun (a : PyStr × List PyStr) =>
      List.map (fun kv => quote_plus kv.1 ++ '=' :: quote_plus kv.2)
        (List.map (fun v => (a.1, v)) a.2)) =
      (fun a => a.2.map (fun v => quote_plus a.1 ++ '=' :: quote_plus v)) := by
    funext a
    rw [List.map_map]
    rfl
  rw [hfun]

theorem parse_qs_enc {l : List (PyStr × List PyStr)}
    (hpw : l.Pairwise (fun a b => a.1 ≠ b.1)) (hne : ∀ kv ∈ l, kv.2 ≠ [])
    (hvne : ∀ kv ∈ l, ∀ v ∈ kv.2, v ≠ []) :
    parse_qs (urlencode l) = l := by
  rw [parse_qs, urlencode_flatten, parse_qsl_enc _ ?_]
  · exact insertAll_groups l [] (by simp) hpw hne
  · intro kv hkv
    rw [flattenPairs] at hkv
    obtain ⟨g, hg, hkv2⟩ := List.mem_flatMap.mp hkv
    obtain ⟨v, hv, rfl⟩ := List.mem_map.mp hkv2
    exact hvne g hg v hv

theorem decodePiece_some {nv : PyStr} {kv : PyStr × PyStr}
    (h : decodePiece nv = some kv) :
    ∃ nm vl, splitOnceChar '=' nv = some (nm, vl) ∧ vl ≠ [] ∧
      kv = (unquote (plusToSpace nm), unquote (plusToSpace vl)) := by
  rw [decodePiece] at h
  by_cases h0 : nv = []
  · simp [h0] at h
  · rw [if_neg h0] at h
    cases he : splitOnceChar '=' nv with
    | none => rw [he] at h; simp at h
    | some p =>
      obtain ⟨nm, vl⟩ := p
      rw [he] at h
      by_cases hvl : vl = []
      · simp [hvl] at h
      · simp [hvl] at h
        exact ⟨nm, vl, rfl, hvl, h.symm⟩

theorem parse_qsl_val_ne (q : PyStr) : ∀ kv ∈ parse_qsl q, kv.2 ≠ [] := by
  intro kv hkv
  rw [parse_qsl_eq] at hkv
  obtain ⟨nv, _, hdec⟩ := List.mem_filterMap.mp hkv
  obtain ⟨nm, vl, _, hvl, rfl⟩ := decodePiece_some hdec
  exact unquote_ne_nil (by simp [plusToSpace, hvl])

theorem mem_insertPair_fst {acc : List (PyStr × List PyStr)} {k : PyStr}
    {v : PyStr} {kv : PyStr × List PyStr} (h : kv ∈ insertPair acc k v) :
    kv.1 ∈ acc.map Prod.fst ∨ kv.1 = k := by
  induction acc with
  | nil =>
    simp [insertPair] at h
    right
    rw [h]
  | cons a l ih =>
    obtain ⟨k0, vs⟩ := a
    by_cases hk : k0 = k
    · rw [insertPair, if_pos hk] at h
      rcases List.mem_cons.mp h with rfl | hin
      · left; simp
      · left; exact List.mem_map_of_mem Prod.fst (List.mem_cons_of_mem _ hin)
    · rw [insertPair, if_neg hk] at h
      rcases List.mem_cons.mp h with rfl | hin
      · left; simp
      · rcases ih hin with hin' | hin'
        · left
          simp only [List.map_cons]
          exact List.mem_cons_of_mem _ hin'
        · right; exact hin'

theorem insertPair_pairwise {acc : List (PyStr × List PyStr)} {k : PyStr}
    {v : PyStr} (h : acc.Pairwise (fun a b => a.1 ≠ b.1)) :
    (insertPair acc k v).Pairwise (fun a b => a.1 ≠ b.1) := by
  induction acc with
  | nil => simp [insertPair]
  | cons a l ih =>
    obtain ⟨k0, vs⟩ := a
    rw [List.pairwise_cons] at h
    by_cases hk : k0 = k
    · rw [insertPair, if_pos hk, List.pairwise_cons]
      exact ⟨h.1, h.2⟩
    · rw [insertPair, if_neg hk, List.pairwise_cons]
      refine ⟨?_, ih h.2⟩
      intro b hb
      rcases mem_insertPair_fst hb with hin | hin
      · obtain ⟨b', hb', hfst⟩ := List.mem_map.mp hin
        rw [← hfst]
        exact h.1 b' hb'
      · rw [hin]
        exact hk
    
theorem insertPair_vals_ne {acc : List (PyStr × List PyStr)} {k : PyStr}
    {v : PyStr} (h : ∀ kv ∈ acc, kv.2 ≠ []) :
    ∀ kv ∈ insertPair acc k v, kv.2 ≠ [] := by
  induction acc with
  | nil =>
    intro kv hkv
    simp [insertPair] at hkv
    simp [hkv]
  | cons a l ih =>
    obtain ⟨k0, vs⟩ := a
    intro kv hkv
    by_cases hk : k0 = k
    · rw [insertPair, if_pos hk] at hkv
      rcases List.mem_cons.mp hkv with rfl | hin
      · simp
      · exact h kv (by simp [hin])
    · rw [insertPair, if_neg hk] at hkv
      rcases List.mem_cons.mp hkv with rfl | hin
      · exact h (k0, vs) (by simp)
      · exact ih (fun kw hkw => h kw (by simp [hkw])) kv hin

theorem insertPair_vals_elem {acc : List (PyStr × List PyStr)} {k : PyStr}
    {v : PyStr} (h : ∀ kv ∈ acc, ∀ x ∈ kv.2, x ≠ []) (hv : v ≠ []) :
    ∀ kv ∈ insertPair acc k v, ∀ x ∈ kv.2, x ≠ [] := by
  induction acc with
  | nil =>
    intro kv hkv
    simp [insertPair] at hkv
    intro x hx
    rw [hkv] at hx
    simp at hx
    rw [hx]
    exact hv
  | cons a l ih =>
    obtain ⟨k0, vs⟩ := a
    intro kv hkv
    by_cases hk : k0 = k
    · rw [insertPair, if_pos hk] at hkv
      rcases List.mem_cons.mp hkv with rfl | hin
      · intro x hx
        simp at hx
        rcases hx with hx | hx
        · exact h (k0, vs) (by simp) x (by simp [hx])
        · rw [hx]; exact hv
      · exact h kv (by simp [hin])
    · rw [insertPair, if_neg hk] at hkv
      rcases List.mem_cons.mp hkv with rfl | hin
      · exact h (k0, vs) (by simp)
      · exact ih (fun kw hkw => h kw (by simp [hkw])) kv hin

theorem insertAll_pairwise (ps : List (PyStr × PyStr)) :
    ∀ acc : List (PyStr × List PyStr), acc.Pairwise (fun a b => a.1 ≠ b.1) →
    (insertAll acc ps).Pairwise (fun a b => a.1 ≠ b.1) := by
  induction ps with
  | nil => intro acc h; exact h
  | cons p pt ih =>
    intro acc h
    rw [insertAll_cons]
    exact ih _ (insertPair_pairwise h)

theorem insertAll_vals_ne (ps : List (PyStr × PyStr)) :
    ∀ acc : List (PyStr × List PyStr), (∀ kv ∈ acc, kv.2 ≠ []) →
    ∀ kv ∈ insertAll acc ps, kv.2 ≠ [] := by
  induction ps with
  | nil => intro acc h; exact h
  | cons p pt ih =>
    intro acc h
    rw [insertAll_cons]
    exact ih _ (insertPair_vals_ne h)

theorem insertAll_vals_elem (ps : List (PyStr × PyStr)) :
    ∀ acc : List (PyStr × List PyStr), (∀ kv ∈ acc, ∀ x ∈ kv.2, x ≠ []) →
    (∀ p ∈ ps, p.2 ≠ []) →
    ∀ kv ∈ insertAll acc ps, ∀ x ∈ kv.2, x ≠ [] := by
  induction ps with
  | nil => intro acc h _; exact h
  | cons p pt ih =>
    intro acc h hp
    rw [insertAll_cons]
    exact ih _ (insertPair_vals_elem h (hp p (by simp)))
      (fun q hq => hp q (by simp [hq]))

theorem parse_qs_pairwise (q : PyStr) :
    (parse_qs q).Pairwise (fun a b => a.1 ≠ b.1) :=
  insertAll_pairwise _ [] (by simp)

theorem parse_qs_vals_ne (q : PyStr) : ∀ kv ∈ parse_qs q, kv.2 ≠ [] :=
  insertAll_vals_ne _ [] (by simp)

theorem parse_qs_vals_elem (q : PyStr) :
    ∀ kv ∈ parse_qs q, ∀ x ∈ kv.2, x ≠ [] :=
  insertAll_vals_elem _ [] (by simp) (parse_qsl_val_ne q)

/-! ## C1: sortedItems (sorted by unique keys) -/

theorem pyStrLt_asymm {a b : PyStr} (h : pyStrLtB a b = true) :
    pyStrLtB b a = false := by
  by_contra hh
  rw [Bool.not_eq_false] at hh
  have := pyStrLt_trans a b a h hh
  rw [pyStrLt_irrefl] at this
  cases this

theorem insertSorted_perm (x : PyStr × List PyStr) (l : List (PyStr × List PyStr)) :
    (insertSorted x l).Perm (x :: l) := by
  induction l with
  | nil => exact List.Perm.refl _
  | cons y ys ih =>
    rw [insertSorted]
    by_cases hlt : pyStrLtB x.1 y.1 = true
    · rw [if_pos hlt]
    · rw [if_neg hlt]
      exact (List.Perm.cons y ih).trans (List.Perm.swap x y ys)

theorem sortedItems_perm (l : List (PyStr × List PyStr)) :
    (sortedItems l).Perm l := by
  induction l with
  | nil => exact List.Perm.refl _
  | cons x xs ih =>
    rw [sortedItems, List.foldr_cons]
    exact (insertSorted_perm x _).trans (List.Perm.cons x ih)

theorem insertSorted_pairwise {l : List (PyStr × List PyStr)}
    (h : l.Pairwise (fun a b => pyStrLtB b.1 a.1 = false))
    (x : PyStr × List PyStr) :
    (insertSorted x l).Pairwise (fun a b => pyStrLtB b.1 a.1 = false) := by
  induction l with
  | nil => simp [insertSorted]
  | cons y ys ih =>
    rw [List.pairwise_cons] at h
    rw [insertSorted]
    by_cases hlt : pyStrLtB x.1 y.1 = true
    · rw [if_pos hlt, List.pairwise_cons]
      constructor
      · intro b hb
        rcases List.mem_cons.mp hb with rfl | hb'
        · exact pyStrLt_asymm hlt
        · -- b ∈ ys : x < y ≤ b so ¬ b < x
          by_contra hbx
          rw [Bool.not_eq_false] at hbx
          have hby := h.1 b hb'
          have hxb := pyStrLt_trans b.1 x.1 y.1 hbx hlt
          rw [hby] at hxb
          cases hxb
      · exact List.pairwise_cons.mpr ⟨h.1, h.2⟩
    · rw [if_neg hlt, List.pairwise_cons]
      constructor
      · intro b hb
        have hmem := (insertSorted_perm x ys).mem_iff.mp hb
        rcases List.mem_cons.mp hmem with rfl | hb'
        · simpa using hlt
        · exact h.1 b hb'
      · exact ih h.2

theorem sortedItems_pairwise_le (l : List (PyStr × List PyStr)) :
    (sortedItems l).Pairwise (fun a b => pyStrLtB b.1 a.1 = false) := by
  induction l with
  | nil => simp [sortedItems]
  | cons x xs ih =>
    rw [sortedItems, List.foldr_cons]
    exact insertSorted_pairwise ih x

theorem sortedItems_pairwise_lt {l : List (PyStr × List PyStr)}
    (h : l.Pairwise (fun a b => a.1 ≠ b.1)) :
    (sortedItems l).Pairwise (fun a b => pyStrLtB a.1 b.1 = true) := by
  have hne : (sortedItems l).Pairwise (fun a b => a.1 ≠ b.1) :=
    ((sortedItems_perm l).pairwise_iff (fun hab => hab.symm)).mpr h
  have hle := sortedItems_pairwise_le l
  have hand := hle.and hne
  refine hand.imp ?_
  intro a b hab
  rcases pyStrLt_tricho a.1 b.1 with h1 | h1 | h1
  · exact h1
  · exact absurd h1 hab.2
  · rw [hab.1] at h1; cases h1

theorem insertSorted_min {l : List (PyStr × List PyStr)}
    {x : PyStr × List PyStr} (h : ∀ y ∈ l, pyStrLtB x.1 y.1 = true) :
    insertSorted x l = x :: l := by
  cases l with
  | nil => rfl
  | cons y ys => rw [insertSorted, if_pos (h y (by simp))]

theorem sortedItems_fix {l : List (PyStr × List PyStr)}
    (h : l.Pairwise (fun a b => pyStrLtB a.1 b.1 = true)) :
    sortedItems l = l := by
  induction l with
  | nil => rfl
  | cons x xs ih =>
    rw [List.pairwise_cons] at h
    rw [sortedItems, List.foldr_cons, ← sortedItems, ih h.2]
    exact insertSorted_min h.1

theorem sortedItems_idem {l : List (PyStr × List PyStr)}
    (h : l.Pairwise (fun a b => a.1 ≠ b.1)) :
    sortedItems (sortedItems l) = sortedItems l :=
  sortedItems_fix (sortedItems_pairwise_lt h)

/-! ## C1: the full query component is a fixpoint of re-normalization -/

theorem normalized_query_fix (q : PyStr) :
    urlencode (sortedItems (parse_qs (urlencode (sortedItems (parse_qs q))))) =
      urlencode (sortedItems (parse_qs q)) := by
  have hpw : (sortedItems (parse_qs q)).Pairwise (fun a b => a.1 ≠ b.1) :=
    ((sortedItems_perm _).pairwise_iff (fun hab => hab.symm)).mpr (parse_qs_pairwise q)
  have hne : ∀ kv ∈ sortedItems (parse_qs q), kv.2 ≠ [] := fun kv hkv =>
    parse_qs_vals_ne q kv ((sortedItems_perm _).mem_iff.mp hkv)
  have hvne : ∀ kv ∈ sortedItems (parse_qs q), ∀ x ∈ kv.2, x ≠ [] := fun kv hkv =>
    parse_qs_vals_elem q kv ((sortedItems_perm _).mem_iff.mp hkv)
  rw [parse_qs_enc hpw hne hvne,
    sortedItems_fix (sortedItems_pairwise_lt (parse_qs_pairwise q))]

/-! ## C1: character classes (scheme characters, lowering) -/

theorem isUpper_iff {c : Char} :
    c.isUpper = true ↔ 0x41 ≤ c.toNat ∧ c.toNat ≤ 0x5A := by
  rw [Char.isUpper]
  simp only [Bool.and_eq_true, decide_eq_true_eq]
  exact Iff.rfl

theorem isLower_iff {c : Char} :
    c.isLower = true ↔ 0x61 ≤ c.toNat ∧ c.toNat ≤ 0x7A := by
  rw [Char.isLower]
  simp only [Bool.and_eq_true, decide_eq_true_eq]
  exact Iff.rfl

theorem isDigit_iff {c : Char} :
    c.isDigit = true ↔ 0x30 ≤ c.toNat ∧ c.toNat ≤ 0x39 := by
  rw [Char.isDigit]
  simp only [Bool.and_eq_true, decide_eq_true_eq]
  exact Iff.rfl

theorem isAlpha_iff {c : Char} :
    c.isAlpha = true ↔ (0x41 ≤ c.toNat ∧ c.toNat ≤ 0x5A) ∨
      (0x61 ≤ c.toNat ∧ c.toNat ≤ 0x7A) := by
  rw [Char.isAlpha, Bool.or_eq_true_iff, isUpper_iff, isLower_iff]

theorem char_eq_iff_toNat {c : Char} {d : Char} : c = d ↔ c.toNat = d.toNat :=
  ⟨fun h => h ▸ rfl, char_toNat_inj⟩

theorem isSchemeChar_iff {c : Char} :
    isSchemeChar c = true ↔ (0x30 ≤ c.toNat ∧ c.toNat ≤ 0x39) ∨
      (0x41 ≤ c.toNat ∧ c.toNat ≤ 0x5A) ∨ (0x61 ≤ c.toNat ∧ c.toNat ≤ 0x7A) ∨
      c.toNat = 0x2B ∨ c.toNat = 0x2D ∨ c.toNat = 0x2E := by
  rw [isSchemeChar]
  simp only [Bool.or_eq_true_iff, Char.isAlphanum, Bool.or_eq_true_iff, isAlpha_iff,
    isDigit_iff, beq_iff_eq, char_eq_iff_toNat]
  rw [show ('+').toNat = 0x2B from rfl, show ('-').toNat = 0x2D from rfl,
    show ('.').toNat = 0x2E from rfl]
  omega

theorem toLower_toNat (c : Char) : (Char.toLower c).toNat =
    if 0x41 ≤ c.toNat ∧ c.toNat ≤ 0x5A then c.toNat + 32 else c.toNat := by
  rw [Char.toLower]
  by_cases h : c.toNat ≥ 65 ∧ c.toNat ≤ 90
  · rw [if_pos h, if_pos ⟨h.1, h.2⟩, char_toNat_ofNat (by omega)]
  · rw [if_neg h, if_neg (fun hh => h ⟨hh.1, hh.2⟩)]

theorem toLower_idem (c : Char) :
    Char.toLower (Char.toLower c) = Char.toLower c := by
  apply char_toNat_inj
  have h1 := toLower_toNat c
  rw [toLower_toNat, h1]
  split_ifs <;> omega

theorem isAlpha_toLower {c : Char} (h : c.isAlpha = true) :
    (Char.toLower c).isAlpha = true := by
  rw [isAlpha_iff] at h ⊢
  rw [toLower_toNat]
  split_ifs <;> omega
theorem isSchemeChar_toLower {c : Char} (h : isSchemeChar c = true) :
    isSchemeChar (Char.toLower c) = true := by
  rw [isSchemeChar_iff] at h ⊢
  rw [toLower_toNat]
  split_ifs <;> omega

theorem toLower_gt_space {c : Char} (h : isSchemeChar c = true) :
    0x20 < (Char.toLower c).toNat := by
  rw [isSchemeChar_iff] at h
  rw [toLower_toNat]
  split_ifs <;> omega

theorem cleanChar_of_gt_space {c : Char} (h : 0x20 < c.toNat) :
    cleanChar c = true := by
  rw [cleanChar]
  simp only [Bool.or_eq_true_iff, Bool.not_eq_true', Bool.or_eq_false_iff]
  refine ⟨⟨?_, ?_⟩, ?_⟩ <;>
    (rw [beq_eq_false_iff_ne]; intro hh; rw [hh] at h; exact absurd h (by decide))

/-! ## C1: splitScheme / splitNetloc analysis -/

theorem splitScheme_eq {u s r : PyStr} (h : splitScheme u = (s, r)) :
    (s = [] ∧ r = u) ∨
    (∃ pre, pre ≠ [] ∧ pre.headI.isAlpha = true ∧ pre.all isSchemeChar = true ∧
      u = pre ++ ':' :: r ∧ s = pre.map Char.toLower) := by
  rw [splitScheme] at h
  cases he : splitOnceChar ':' u with
  | none =>
    rw [he] at h
    injection h with h1 h2
    exact Or.inl ⟨h1.symm, h2.symm⟩
  | some p =>
    obtain ⟨pre, post⟩ := p
    rw [he] at h
    have h' : (if pre ≠ [] ∧ (pre.headI).isAlpha ∧ pre.all isSchemeChar then
        (pre.map Char.toLower, post) else ([], u)) = (s, r) := h
    clear h
    by_cases hc : pre ≠ [] ∧ (pre.headI).isAlpha ∧ pre.all isSchemeChar
    · rw [if_pos hc] at h'
      injection h' with h1 h2
      right
      obtain ⟨hs, _⟩ := splitOnce_some he
      refine ⟨pre, hc.1, by simpa using hc.2.1, by simpa using hc.2.2, ?_, h1.symm⟩
      rw [← h2]
      exact hs
    · rw [if_neg hc] at h'
      injection h' with h1 h2
      exact Or.inl ⟨h1.symm, h2.symm⟩

theorem splitScheme_canon {s : PyStr} (hne : s ≠ []) (hhead : s.headI.isAlpha = true)
    (hall : s.all isSchemeChar = true) (hlow : s.map Char.toLower = s) (r : PyStr) :
    splitScheme (s ++ ':' :: r) = (s, r) := by
  have hc : ':' ∉ s := by
    intro hmem
    have := List.all_eq_true.mp hall _ hmem
    exact absurd this (by decide)
  rw [splitScheme, splitOnce_mk hc]
  simp only
  rw [if_pos ⟨hne, by simpa using hhead, by simpa using hall⟩, hlow]

theorem splitScheme_none {u : PyStr}
    (h : ∀ pre post, splitOnceChar ':' u = some (pre, post) →
      ¬ (pre ≠ [] ∧ pre.headI.isAlpha = true ∧ pre.all isSchemeChar = true)) :
    splitScheme u = ([], u) := by
  rw [splitScheme]
  cases he : splitOnceChar ':' u with
  | none => rfl
  | some p =>
    obtain ⟨pre, post⟩ := p
    show (if pre ≠ [] ∧ (pre.headI).isAlpha ∧ pre.all isSchemeChar then
        (pre.map Char.toLower, post) else ([], u)) = ([], u)
    rw [if_neg]
    intro hc
    exact h pre post he ⟨hc.1, by simpa using hc.2.1, by simpa using hc.2.2⟩

theorem splitNetloc_canon {n : PyStr} (hn : ∀ c ∈ n, isNetlocDelim c = false)
    {r : PyStr} (hr : r = [] ∨ isNetlocDelim r.headI = true) :
    splitNetloc ('/' :: '/' :: (n ++ r)) = (n, r) := by
  have hp : ∀ c ∈ n, (fun c => ! isNetlocDelim c) c = true := by
    intro c hc
    simp [hn c hc]
  have htn : n.takeWhile (fun c => ! isNetlocDelim c) = n :=
    List.takeWhile_eq_self_iff.mpr hp
  have hdn : n.dropWhile (fun c => ! isNetlocDelim c) = [] :=
    List.dropWhile_eq_nil_iff.mpr hp
  have htr : r.takeWhile (fun c => ! isNetlocDelim c) = [] := by
    cases r with
    | nil => rfl
    | cons a t =>
      rcases hr with h | h
      · simp at h
      · rw [List.takeWhile_cons, if_neg (by simp_all [List.headI])]
  have hdr : r.dropWhile (fun c => ! isNetlocDelim c) = r := by
    cases r with
    | nil => rfl
    | cons a t =>
      rcases hr with h | h
      · simp at h
      · rw [List.dropWhile_cons, if_neg (by simp_all [List.headI])]
  show (((n ++ r).takeWhile fun c => ! isNetlocDelim c),
      ((n ++ r).dropWhile fun c => ! isNetlocDelim c)) = (n, r)
  rw [List.takeWhile_append, if_pos (by rw [htn]), htr,
    List.dropWhile_append, if_pos (by rw [hdn]; rfl), hdr]
  simp [htn]

theorem splitScheme_pos {u pre post : PyStr}
    (he : splitOnceChar ':' u = some (pre, post))
    (hv : pre ≠ [] ∧ pre.headI.isAlpha = true ∧ pre.all isSchemeChar = true) :
    splitScheme u = (pre.map Char.toLower, post) := by
  rw [splitScheme, he]
  show (if pre ≠ [] ∧ (pre.headI).isAlpha ∧ pre.all isSchemeChar then
      (pre.map Char.toLower, post) else ([], u)) = (pre.map Char.toLower, post)
  rw [if_pos ⟨hv.1, by simpa using hv.2.1, by simpa using hv.2.2⟩]

theorem splitScheme_neg {u pre post : PyStr}
    (he : splitOnceChar ':' u = some (pre, post))
    (hv : ¬ (pre ≠ [] ∧ pre.headI.isAlpha = true ∧ pre.all isSchemeChar = true)) :
    splitScheme u = ([], u) := by
  rw [splitScheme, he]
  show (if pre ≠ [] ∧ (pre.headI).isAlpha ∧ pre.all isSchemeChar then
      (pre.map Char.toLower, post) else ([], u)) = ([], u)
  rw [if_neg]
  intro hc
  exact hv ⟨hc.1, by simpa using hc.2.1, by simpa using hc.2.2⟩

theorem splitScheme_no_colon {u : PyStr} (h : ':' ∉ u) :
    splitScheme u = ([], u) := by
  rw [splitScheme, splitOnce_none_iff.mpr h]

theorem splitNetloc_eq {w n r : PyStr} (h : splitNetloc w = (n, r)) :
    (n = [] ∧ r = w) ∨
    (w = '/' :: '/' :: (n ++ r) ∧ (∀ c ∈ n, isNetlocDelim c = false)) := by
  rw [splitNetloc.eq_def] at h
  split at h
  · rename_i rest
    injection h with h1 h2
    right
    constructor
    · rw [← h1, ← h2, List.takeWhile_append_dropWhile]
    · intro c hc
      rw [← h1] at hc
      have := List.mem_takeWhile_imp hc
      simpa using this
  · injection h with h1 h2
    exact Or.inl ⟨h1.symm, h2.symm⟩


theorem dropWhile_head_false {p : Char → Bool} {u : List Char} {a : Char}
    {t0 : List Char} (h : u.dropWhile p = a :: t0) : p a = false := by
  induction u with
  | nil => simp at h
  | cons x xs ih =>
    rw [List.dropWhile_cons] at h
    by_cases hx : p x = true
    · rw [if_pos hx] at h
      exact ih h
    · rw [if_neg hx] at h
      injection h with h1 _
      rw [← h1]
      simpa using hx

theorem clean_head (u : List Char) :
    (u.dropWhile (fun c => decide (c.toNat ≤ 0x20))).filter cleanChar = [] ∨
      0x20 < (((u.dropWhile (fun c => decide (c.toNat ≤ 0x20))).filter
        cleanChar).headI).toNat := by
  cases hd : u.dropWhile (fun c => decide (c.toNat ≤ 0x20)) with
  | nil => left; rfl
  | cons a t0 =>
    right
    have hpa := dropWhile_head_false hd
    have ha : 0x20 < a.toNat := by
      simp at hpa
      omega
    rw [List.filter_cons, if_pos (cleanChar_of_gt_space ha)]
    simpa using ha

theorem urlsplit_analysis (u : PyStr) :
    ∃ u2 r1 r2 t s n p q f,
      urlsplit u = ⟨s, n, p, q, f⟩ ∧
      (u.dropWhile (fun c => decide (c.toNat ≤ 0x20))).filter cleanChar = u2 ∧
      (∀ c ∈ u2, cleanChar c = true) ∧
      (u2 = [] ∨ 0x20 < u2.headI.toNat) ∧
      splitScheme u2 = (s, r1) ∧
      splitNetloc r1 = (n, r2) ∧
      r2 = p ++ t ∧
      '#' ∉ p ∧ '?' ∉ p := by
  rcases hsp : splitScheme
      ((u.dropWhile (fun c => decide (c.toNat ≤ 0x20))).filter cleanChar)
    with ⟨s, r1⟩
  rcases hsn : splitNetloc r1 with ⟨n, r2⟩
  have hclean : ∀ c ∈ (u.dropWhile
      (fun c => decide (c.toNat ≤ 0x20))).filter cleanChar, cleanChar c = true :=
    fun c hc => (List.mem_filter.mp hc).2
  have hhead := clean_head u
  cases hf : splitOnceChar '#' r2 with
  | some pp =>
    obtain ⟨pf, f⟩ := pp
    obtain ⟨hr2, hnf⟩ := splitOnce_some hf
    cases hq : splitOnceChar '?' pf with
    | some qq =>
      obtain ⟨p0, q0⟩ := qq
      obtain ⟨hpf, hnq⟩ := splitOnce_some hq
      refine ⟨_, r1, r2, '?' :: (q0 ++ '#' :: f), s, n, p0, q0, f,
        ?_, rfl, hclean, hhead, hsp, hsn, ?_, ?_, ?_⟩
      · simp only [urlsplit]
        rw [hsp]
        dsimp only
        rw [hsn]
        dsimp only
        rw [hf]
        dsimp only
        rw [hq]
      · rw [hr2, hpf]
        simp
      · intro hm
        have : '#' ∈ pf := by rw [hpf]; simp [hm]
        exact hnf this
      · exact hnq
    | none =>
      have hnq : '?' ∉ pf := splitOnce_none_iff.mp hq
      refine ⟨_, r1, r2, '#' :: f, s, n, pf, [], f,
        ?_, rfl, hclean, hhead, hsp, hsn, hr2, hnf, hnq⟩
      simp only [urlsplit]
      rw [hsp]
      dsimp only
      rw [hsn]
      dsimp only
      rw [hf]
      dsimp only
      rw [hq]
  | none =>
    have hnf : '#' ∉ r2 := splitOnce_none_iff.mp hf
    cases hq : splitOnceChar '?' r2 with
    | some qq =>
      obtain ⟨p0, q0⟩ := qq
      obtain ⟨hr2, hnq⟩ := splitOnce_some hq
      refine ⟨_, r1, r2, '?' :: q0, s, n, p0, q0, [],
        ?_, rfl, hclean, hhead, hsp, hsn, hr2, ?_, hnq⟩
      · simp only [urlsplit]
        rw [hsp]
        dsimp only
        rw [hsn]
        dsimp only
        rw [hf]
        dsimp only
        rw [hq]
      · intro hm
        have : '#' ∈ r2 := by rw [hr2]; simp [hm]
        exact hnf this
    | none =>
      have hnq : '?' ∉ r2 := splitOnce_none_iff.mp hq
      refine ⟨_, r1, r2, [], s, n, r2, [], [],
        ?_, rfl, hclean, hhead, hsp, hsn, by simp, hnf, hnq⟩
      simp only [urlsplit]
      rw [hsp]
      dsimp only
      rw [hsn]
      dsimp only
      rw [hf]
      dsimp only
      rw [hq]

/-! ## C1: reassembly helper lemmas -/

theorem headI_append {a b : List Char} (h : a ≠ []) : (a ++ b).headI = a.headI := by
  cases a with
  | nil => exact absurd rfl h
  | cons x xs => rfl

theorem headI_mem {l : List Char} (h : l ≠ []) : l.headI ∈ l := by
  cases l with
  | nil => exact absurd rfl h
  | cons x xs => simp [List.headI]

theorem dropWhile_eq_self_of_head {p : Char → Bool} {l : List Char}
    (h : l = [] ∨ p l.headI = false) : l.dropWhile p = l := by
  cases l with
  | nil => rfl
  | cons a t =>
    rcases h with h | h
    · simp at h
    · rw [List.dropWhile_cons, if_neg (by simp_all [List.headI])]

theorem urlparse_no_params {u : PyStr}
    (h : ((urlsplit u).path).contains ';' = false) :
    urlparse u = ⟨(urlsplit u).scheme, (urlsplit u).netloc, (urlsplit u).path, [],
      (urlsplit u).query, (urlsplit u).fragment⟩ := by
  rw [urlparse, if_neg]
  intro hc
  rw [h] at hc
  exact absurd hc.2 (by simp)

theorem urlunparse_no_params (s n p q f : PyStr) :
    urlunparse ⟨s, n, p, [], q, f⟩ = urlunsplit s n p q f := by
  rw [urlunparse]
  simp

theorem normalizeUrl_unfold (u : PyStr) :
    normalizeUrl u = urlunparse { urlparse u with
      fragment := []
      query := urlencode (sortedItems (parse_qs (urlparse u).query))
      path := if rstripSlash (urlparse u).path = [] then ['/']
        else rstripSlash (urlparse u).path } := rfl

theorem splitNetloc_no {w : PyStr} (h : w.take 2 ≠ pys "//") :
    splitNetloc w = ([], w) := by
  rw [splitNetloc.eq_def]
  split
  · exact absurd rfl h
  · rfl

theorem splitNetloc_snd_head {w n r : PyStr} (h : splitNetloc w = (n, r)) :
    r = w ∨ r = [] ∨ isNetlocDelim r.headI = true := by
  rw [splitNetloc.eq_def] at h
  split at h
  · rename_i rest
    injection h with h1 h2
    right
    cases hr : rest.dropWhile (fun c => ! isNetlocDelim c) with
    | nil => left; rw [← h2, hr]
    | cons a t =>
      right
      have hfalse := dropWhile_head_false hr
      rw [← h2, hr]
      simpa using hfalse
  · injection h with h1 h2
    left
    exact h2.symm

theorem splitScheme_head_not_alpha {v : PyStr} (h : v.headI.isAlpha = false) :
    splitScheme v = ([], v) := by
  cases he : splitOnceChar ':' v with
  | none => rw [splitScheme, he]
  | some p =>
    obtain ⟨pre, post⟩ := p
    apply splitScheme_neg he
    rintro ⟨hne, hal, _⟩
    obtain ⟨hv, _⟩ := splitOnce_some he
    cases pre with
    | nil => exact absurd rfl hne
    | cons a l =>
      rw [hv] at h
      simp [List.headI] at h hal
      rw [hal] at h
      cases h

theorem splitOnce_some_of_mem {c : Char} {s : PyStr} (h : c ∈ s) :
    ∃ x y, splitOnceChar c s = some (x, y) := by
  cases he : splitOnceChar c s with
  | none => exact absurd (splitOnce_none_iff.mp he) (by simp [h])
  | some p =>
    obtain ⟨x, y⟩ := p
    exact ⟨x, y, rfl⟩

theorem schemeChar_gt_space {c : Char} (h : isSchemeChar c = true) :
    0x20 < c.toNat := by
  rw [isSchemeChar_iff] at h
  omega

theorem qpOK_ranges {c : Char} (h : qpOK c = true) :
    c.toNat = 0x25 ∨ c.toNat = 0x2B ∨ c.toNat = 0x2D ∨ c.toNat = 0x2E ∨
    (0x30 ≤ c.toNat ∧ c.toNat ≤ 0x39) ∨ (0x41 ≤ c.toNat ∧ c.toNat ≤ 0x5A) ∨
    c.toNat = 0x5F ∨ (0x61 ≤ c.toNat ∧ c.toNat ≤ 0x7A) ∨ c.toNat = 0x7E := by
  rw [qpOK, alwaysSafeByte, isUpHex] at h
  simp only [Bool.or_eq_true_iff, Bool.and_eq_true, decide_eq_true_eq, beq_iff_eq,
    char_eq_iff_toNat] at h
  rw [show ('%').toNat = 0x25 from rfl, show ('+').toNat = 0x2B from rfl] at h
  omega

theorem intercalate_cons {x : Char} {a : List Char} {ls : List (List Char)}
    (h : ls ≠ []) :
    List.intercalate [x] (a :: ls) = a ++ x :: List.intercalate [x] ls := by
  cases ls with
  | nil => exact absurd rfl h
  | cons b t => simp [List.intercalate, List.intersperse]

theorem mem_intercalate {c x : Char} {ls : List (List Char)}
    (h : c ∈ List.intercalate [x] ls) : c = x ∨ ∃ l ∈ ls, c ∈ l := by
  induction ls with
  | nil => simp [List.intercalate] at h
  | cons a rest ih =>
    cases rest with
    | nil =>
      simp [List.intercalate] at h
      exact Or.inr ⟨a, by simp, h⟩
    | cons b rest2 =>
      rw [intercalate_cons (by simp)] at h
      rcases List.mem_append.mp h with h' | h'
      · exact Or.inr ⟨a, by simp, h'⟩
      · rcases List.mem_cons.mp h' with rfl | h''
        · exact Or.inl rfl
        · rcases ih h'' with h3 | ⟨l, hl, hcl⟩
          · exact Or.inl h3
          · exact Or.inr ⟨l, by simp [hl], hcl⟩

theorem mem_urlencode {c : Char} {l : List (PyStr × List PyStr)}
    (h : c ∈ urlencode l) : qpOK c = true ∨ c = '&' ∨ c = '=' := by
  rw [urlencode_flatten] at h
  rcases mem_intercalate h with rfl | ⟨piece, hp, hcp⟩
  · exact Or.inr (Or.inl rfl)
  · obtain ⟨kv, _, rfl⟩ := List.mem_map.mp hp
    rcases List.mem_append.mp hcp with h' | h'
    · exact Or.inl (mem_quote_plus h')
    · rcases List.mem_cons.mp h' with rfl | h''
      · exact Or.inr (Or.inr rfl)
      · exact Or.inl (mem_quote_plus h'')

theorem not_mem_urlencode {c : Char} (h1 : qpOK c = false) (h2 : c ≠ '&')
    (h3 : c ≠ '=') (l : List (PyStr × List PyStr)) : c ∉ urlencode l := by
  intro hm
  rcases mem_urlencode hm with h | h | h
  · rw [h1] at h; cases h
  · exact h2 h
  · exact h3 h

theorem urlencode_gt_space {c : Char} {l : List (PyStr × List PyStr)}
    (h : c ∈ urlencode l) : 0x20 < c.toNat := by
  rcases mem_urlencode h with h' | rfl | rfl
  · have := qpOK_ranges h'
    omega
  · decide
  · decide

theorem urlunsplit_eq (s n url q : PyStr) :
    urlunsplit s n url q [] =
      (if s ≠ [] then
        s ++ ':' :: (if n ≠ [] ∨ (s ≠ [] ∧ s ∈ uses_netloc ∧ url.take 2 ≠ pys "//")
          then pys "//" ++ n ++
            (if url ≠ [] ∧ url.take 1 ≠ pys "/" then '/' :: url else url)
          else url)
      else (if n ≠ [] ∨ (s ≠ [] ∧ s ∈ uses_netloc ∧ url.take 2 ≠ pys "//")
          then pys "//" ++ n ++
            (if url ≠ [] ∧ url.take 1 ≠ pys "/" then '/' :: url else url)
          else url)) ++ (if q = [] then [] else '?' :: q) := by
  by_cases hq : q = [] <;> by_cases hs : s = [] <;>
    simp [urlunsplit, hq, hs]

theorem urlsplit_reassemble {v s1 n1 r1' r2' body q1 : PyStr}
    (h1 : v.dropWhile (fun c => decide (c.toNat ≤ 0x20)) = v)
    (h2 : v.filter cleanChar = v)
    (hsp : splitScheme v = (s1, r1'))
    (hsn : splitNetloc r1' = (n1, r2'))
    (hr2 : r2' = body ++ (if q1 = [] then [] else '?' :: q1))
    (hbh : '#' ∉ body) (hbq : '?' ∉ body) (hqh : '#' ∉ q1) (hqq : '?' ∉ q1) :
    urlsplit v = ⟨s1, n1, body, q1, []⟩ := by
  simp only [urlsplit]
  rw [h1, h2, hsp]
  dsimp only
  rw [hsn]
  dsimp only
  have hf : splitOnceChar '#' r2' = none := by
    rw [splitOnce_none_iff, hr2]
    intro hm
    rcases List.mem_append.mp hm with hm' | hm'
    · exact hbh hm'
    · by_cases hq1 : q1 = []
      · rw [if_pos hq1] at hm'
        simp at hm'
      · rw [if_neg hq1] at hm'
        rcases List.mem_cons.mp hm' with hc | hc
        · exact absurd hc (by decide)
        · exact hqh hc
  rw [hf]
  dsimp only
  by_cases hq1 : q1 = []
  · have hb : r2' = body := by rw [hr2, if_pos hq1, List.append_nil]
    have hq : splitOnceChar '?' r2' = none := by
      rw [splitOnce_none_iff, hb]
      exact hbq
    rw [hq]
    dsimp only
    rw [hb, hq1]
  · have hb : r2' = body ++ '?' :: q1 := by rw [hr2, if_neg hq1]
    have hq : splitOnceChar '?' r2' = some (body, q1) := by
      rw [hb]
      exact splitOnce_mk hbq q1
    rw [hq]

theorem take2_append_ne {a b : PyStr} (ha : a ≠ []) (h2 : a.take 2 ≠ pys "//")
    (hb : b = [] ∨ b.headI = '?') : (a ++ b).take 2 ≠ pys "//" := by
  cases a with
  | nil => exact absurd rfl ha
  | cons c1 arest =>
    cases arest with
    | nil =>
      rcases hb with rfl | hh
      · simpa using h2
      · cases b with
        | nil => simpa using h2
        | cons d brest =>
          intro hc
          simp [pys] at hc
          simp [List.headI] at hh
          rw [hh] at hc
          exact absurd hc.2 (by decide)
    | cons c2 arest2 =>
      intro hc
      apply h2
      simpa [pys] using (by simpa [pys] using hc : c1 = '/' ∧ c2 = '/')

theorem mem_qt {c : Char} {q' : PyStr}
    (h : c ∈ (if q' = [] then ([] : PyStr) else '?' :: q')) :
    c = '?' ∨ c ∈ q' := by
  by_cases hq : q' = []
  · rw [if_pos hq] at h
    simp at h
  · rw [if_neg hq] at h
    rcases List.mem_cons.mp h with rfl | h'
    · exact Or.inl rfl
    · exact Or.inr h'

theorem qt_head {q' : PyStr} :
    (if q' = [] then ([] : PyStr) else '?' :: q') = [] ∨
      ((if q' = [] then ([] : PyStr) else '?' :: q')).headI = '?' := by
  by_cases hq : q' = []
  · rw [if_pos hq]
    exact Or.inl rfl
  · rw [if_neg hq]
    exact Or.inr rfl

theorem reassembled_urlsplit {s n path' q' : PyStr}
    (hs_scheme : s = [] ∨ (s ≠ [] ∧ s.headI.isAlpha = true ∧
      s.all isSchemeChar = true ∧ s.map Char.toLower = s))
    (hn_delim : ∀ c ∈ n, isNetlocDelim c = false)
    (hn_clean : ∀ c ∈ n, cleanChar c = true)
    (hpne : path' ≠ [])
    (hph' : '#' ∉ path') (hpq' : '?' ∉ path')
    (hpath'_clean : ∀ c ∈ path', cleanChar c = true)
    (hq'_set : ∀ c ∈ q', qpOK c = true ∨ c = '&' ∨ c = '=')
    (htk2 : n = [] → path'.take 2 ≠ pys "//")
    (hsch : s = [] → n = [] →
      splitScheme (path' ++ (if q' = [] then [] else '?' :: q')) =
        ([], path' ++ (if q' = [] then [] else '?' :: q')))
    (hhd : s = [] → n = [] → 0x20 < path'.headI.toNat) :
    urlsplit (urlunsplit s n path' q' []) =
      ⟨s, n,
        (if (n ≠ [] ∨ (s ≠ [] ∧ s ∈ uses_netloc ∧ path'.take 2 ≠ pys "//"))
          then (if path' ≠ [] ∧ path'.take 1 ≠ pys "/" then '/' :: path' else path')
          else path'),
        q', []⟩ := by
  obtain ⟨pp, hppdef⟩ : ∃ pp : PyStr, pp =
      (if path' ≠ [] ∧ path'.take 1 ≠ pys "/" then '/' :: path' else path') := ⟨_, rfl⟩
  obtain ⟨qt, hqtdef⟩ : ∃ qt : PyStr, qt =
      (if q' = [] then [] else '?' :: q') := ⟨_, rfl⟩
  obtain ⟨B, hBdef⟩ : ∃ B : PyStr, B =
      (if (n ≠ [] ∨ (s ≠ [] ∧ s ∈ uses_netloc ∧ path'.take 2 ≠ pys "//"))
        then pys "//" ++ n ++ pp else path') := ⟨_, rfl⟩
  have hveq : urlunsplit s n path' q' [] =
      (if s ≠ [] then s ++ ':' :: B else B) ++ qt := by
    rw [urlunsplit_eq, hBdef, hppdef, hqtdef]
  -- character facts
  have hs_clean : ∀ c ∈ s, cleanChar c = true := by
    rcases hs_scheme with rfl | ⟨_, _, hall, _⟩
    · simp
    · intro c hc
      exact cleanChar_of_gt_space
        (schemeChar_gt_space (List.all_eq_true.mp hall c hc))
  have hq'_gt : ∀ c ∈ q', 0x20 < c.toNat := by
    intro c hc
    rcases hq'_set c hc with h | rfl | rfl
    · have := qpOK_ranges h
      omega
    · decide
    · decide
  have hq'_clean : ∀ c ∈ q', cleanChar c = true :=
    fun c hc => cleanChar_of_gt_space (hq'_gt c hc)
  have hq'_noq : '?' ∉ q' := by
    intro hm
    rcases hq'_set _ hm with h | h | h
    · rw [show qpOK '?' = false from by decide] at h
      cases h
    · exact absurd h (by decide)
    · exact absurd h (by decide)
  have hq'_nohash : '#' ∉ q' := by
    intro hm
    rcases hq'_set _ hm with h | h | h
    · rw [show qpOK '#' = false from by decide] at h
      cases h
    · exact absurd h (by decide)
    · exact absurd h (by decide)
  have hq'_nocolon : ':' ∉ q' := by
    intro hm
    rcases hq'_set _ hm with h | h | h
    · rw [show qpOK ':' = false from by decide] at h
      cases h
    · exact absurd h (by decide)
    · exact absurd h (by decide)
  have hpp_ne : pp ≠ [] := by
    rw [hppdef]
    split
    · simp
    · exact hpne
  have hpp_mem : ∀ c ∈ pp, c ∈ path' ∨ c = '/' := by
    intro c hc
    rw [hppdef] at hc
    by_cases hpr : path' ≠ [] ∧ path'.take 1 ≠ pys "/"
    · rw [if_pos hpr] at hc
      rcases List.mem_cons.mp hc with rfl | h
      · exact Or.inr rfl
      · exact Or.inl h
    · rw [if_neg hpr] at hc
      exact Or.inl hc
  have hpp_clean : ∀ c ∈ pp, cleanChar c = true := by
    intro c hc
    rcases hpp_mem c hc with h | rfl
    · exact hpath'_clean c h
    · decide
  have hpp_hash : '#' ∉ pp := by
    intro hm
    rcases hpp_mem _ hm with h | h
    · exact hph' h
    · exact absurd h (by decide)
  have hpp_q : '?' ∉ pp := by
    intro hm
    rcases hpp_mem _ hm with h | h
    · exact hpq' h
    · exact absurd h (by decide)
  have hqt_mem : ∀ c ∈ qt, c = '?' ∨ c ∈ q' := by
    intro c hc
    exact mem_qt (hqtdef ▸ hc)
  have hqt_clean : ∀ c ∈ qt, cleanChar c = true := by
    intro c hc
    rcases hqt_mem c hc with rfl | h
    · decide
    · exact hq'_clean c h
  have hqt_head : qt = [] ∨ qt.headI = '?' := hqtdef ▸ qt_head
  have hqt_nocolon : ':' ∉ qt := by
    intro hm
    rcases hqt_mem _ hm with h | h
    · exact absurd h (by decide)
    · exact hq'_nocolon h
  have hB_clean : ∀ c ∈ B, cleanChar c = true := by
    intro c hc
    rw [hBdef] at hc
    by_cases hb : (n ≠ [] ∨ (s ≠ [] ∧ s ∈ uses_netloc ∧ path'.take 2 ≠ pys "//"))
    · rw [if_pos hb] at hc
      simp only [List.mem_append] at hc
      rcases hc with (hc | hc) | hc
      · rcases (by simpa [pys] using hc : c = '/') with rfl
        decide
      · exact hn_clean c hc
      · exact hpp_clean c hc
    · rw [if_neg hb] at hc
      exact hpath'_clean c hc
  have hv_clean : ∀ c ∈ urlunsplit s n path' q' [], cleanChar c = true := by
    intro c hc
    rw [hveq] at hc
    rcases List.mem_append.mp hc with hc | hc
    · by_cases hs' : s ≠ []
      · rw [if_pos hs'] at hc
        simp only [List.mem_append, List.mem_cons] at hc
        rcases hc with hc | rfl | hc
        · exact hs_clean c hc
        · decide
        · exact hB_clean c hc
      · rw [if_neg hs'] at hc
        exact hB_clean c hc
    · exact hqt_clean c hc
  have hfilter : (urlunsplit s n path' q' []).filter cleanChar =
      urlunsplit s n path' q' [] := List.filter_eq_self.mpr hv_clean
  -- the head of the reassembled URL is above 0x20 in every case
  have hpp_head : (path' ≠ [] ∧ path'.take 1 ≠ pys "/") → pp.headI = '/' := by
    intro hpr
    rw [hppdef, if_pos hpr]
    rfl
  have hpp_head2 : ¬ (path' ≠ [] ∧ path'.take 1 ≠ pys "/") → pp = path' := by
    intro hpr
    rw [hppdef, if_neg hpr]
  have hpath'_slash : ¬ (path' ≠ [] ∧ path'.take 1 ≠ pys "/") → path'.headI = '/' := by
    intro hpr
    rcases not_and_or.mp hpr with h | h
    · exact absurd hpne (by simpa using h)
    · rw [not_not] at h
      cases path' with
      | nil => exact absurd rfl hpne
      | cons a t =>
        have : [a] = pys "/" := by simpa using h
        simp [pys] at this
        simp [List.headI, this]
  have hpp_head_slash : pp.headI = '/' := by
    by_cases hpr : path' ≠ [] ∧ path'.take 1 ≠ pys "/"
    · exact hpp_head hpr
    · rw [hpp_head2 hpr]
      exact hpath'_slash hpr
  clear hpp_head hpp_head2
  -- netloc-branch rest decomposition
  have hrest : (pys "//" ++ n ++ pp) ++ qt = '/' :: '/' :: (n ++ (pp ++ qt)) := by
    rw [show pys "//" = ['/', '/'] from rfl]
    simp [List.append_assoc]
  have hnsplit : splitNetloc ('/' :: '/' :: (n ++ (pp ++ qt))) = (n, pp ++ qt) := by
    apply splitNetloc_canon hn_delim
    right
    rw [headI_append hpp_ne, hpp_head_slash]
    rfl
  have hppqt : pp ++ qt = pp ++ (if q' = [] then [] else '?' :: q') := by rw [hqtdef]
  by_cases hb : (n ≠ [] ∨ (s ≠ [] ∧ s ∈ uses_netloc ∧ path'.take 2 ≠ pys "//"))
  · -- netloc branch: the reassembled path is pp
    have hB : B = pys "//" ++ n ++ pp := by rw [hBdef, if_pos hb]
    rw [if_pos hb, ← hppdef]
    by_cases hs0 : s = []
    · subst hs0
      have hveq2 : urlunsplit [] n path' q' [] = '/' :: '/' :: (n ++ (pp ++ qt)) := by
        rw [hveq, if_neg (by simp), hB, hrest]
      rw [hveq2] at hfilter ⊢
      apply urlsplit_reassemble (v := '/' :: '/' :: (n ++ (pp ++ qt)))
        (by apply dropWhile_eq_self_of_head; right; simp)
        hfilter
        (splitScheme_head_not_alpha (show ('/').isAlpha = false from by decide))
        hnsplit hppqt hpp_hash hpp_q hq'_nohash hq'_noq
    · obtain ⟨hsne, hhd', hall, hlow⟩ := hs_scheme.resolve_left hs0
      have hveq2 : urlunsplit s n path' q' [] =
          s ++ ':' :: ((pys "//" ++ n ++ pp) ++ qt) := by
        rw [hveq, if_pos hsne, hB]
        simp [List.append_assoc]
      rw [hveq2] at hfilter ⊢
      apply urlsplit_reassemble (v := s ++ ':' :: ((pys "//" ++ n ++ pp) ++ qt))
        (by
          apply dropWhile_eq_self_of_head
          right
          rw [headI_append hsne]
          have := schemeChar_gt_space (List.all_eq_true.mp hall _ (headI_mem hsne))
          simp
          omega)
        hfilter
        (by rw [splitScheme_canon hsne hhd' hall hlow])
        (by rw [hrest]; exact hnsplit)
        hppqt hpp_hash hpp_q hq'_nohash hq'_noq
  · -- no netloc emitted: the path part stays path'
    have hB : B = path' := by rw [hBdef, if_neg hb]
    rw [if_neg hb]
    have hn0 : n = [] := by
      by_contra hn1
      exact hb (Or.inl hn1)
    have hnosplit : splitNetloc (path' ++ qt) = ([], path' ++ qt) := by
      apply splitNetloc_no
      apply take2_append_ne hpne (htk2 hn0) (hqtdef ▸ qt_head)
    have hr2eq : path' ++ qt = path' ++ (if q' = [] then [] else '?' :: q') := by
      rw [hqtdef]
    by_cases hs0 : s = []
    · subst hs0
      have hveq2 : urlunsplit [] n path' q' [] = path' ++ qt := by
        rw [hveq, if_neg (by simp), hB]
      rw [hveq2] at hfilter ⊢
      rw [hn0]
      have hsch' : splitScheme (path' ++ qt) = ([], path' ++ qt) := by
        rw [← hqtdef] at hsch
        exact hsch rfl hn0
      apply urlsplit_reassemble (v := path' ++ qt)
        (by
          apply dropWhile_eq_self_of_head
          right
          rw [headI_append hpne]
          have := hhd rfl hn0
          simp
          omega)
        hfilter hsch' hnosplit hr2eq hph' hpq' hq'_nohash hq'_noq
    · obtain ⟨hsne, hhd', hall, hlow⟩ := hs_scheme.resolve_left hs0
      have hveq2 : urlunsplit s n path' q' [] = s ++ ':' :: (path' ++ qt) := by
        rw [hveq, if_pos hsne, hB]
        simp [List.append_assoc]
      rw [hveq2] at hfilter ⊢
      rw [hn0]
      apply urlsplit_reassemble (v := s ++ ':' :: (path' ++ qt))
        (by
          apply dropWhile_eq_self_of_head
          right
          rw [headI_append hsne]
          have := schemeChar_gt_space (List.all_eq_true.mp hall _ (headI_mem hsne))
          simp
          omega)
        hfilter
        (by rw [splitScheme_canon hsne hhd' hall hlow])
        hnosplit hr2eq hph' hpq' hq'_nohash hq'_noq

theorem map_congr_mem {f g : Char → Char} {l : PyStr} (h : ∀ x ∈ l, f x = g x) :
    l.map f = l.map g := by
  induction l with
  | nil => rfl
  | cons a t0 ih =>
    rw [List.map_cons, List.map_cons, h a (by simp),
      ih (fun x hx => h x (by simp [hx]))]

theorem normalize_fix {u : PyStr}
    (hsemi : ((urlsplit u).path).contains ';' = false)
    (hdsl : ¬ ((urlsplit u).netloc = [] ∧ ((urlsplit u).path).take 2 = pys "//")) :
    normalizeUrl (normalizeUrl u) = normalizeUrl u := by
  obtain ⟨u2, r1, r2, t, s, n, p, q, f, hU, hu2, hclean, hhead, hsp, hsn, hr2,
    hph, hpq⟩ := urlsplit_analysis u
  have hsemi' : p.contains ';' = false := by rw [hU] at hsemi; exact hsemi
  have hdsl' : ¬ (n = [] ∧ p.take 2 = pys "//") := by rw [hU] at hdsl; exact hdsl
  have hsemi'' : ';' ∉ p := by simpa using hsemi'
  have hparse : urlparse u = ⟨s, n, p, [], q, f⟩ := by
    have h0 := urlparse_no_params (u := u) (by rw [hU]; exact hsemi')
    rw [hU] at h0
    exact h0
  obtain ⟨p0, hp0⟩ : ∃ w : PyStr, w = rstripSlash p := ⟨_, rfl⟩
  obtain ⟨path', hpath'⟩ : ∃ w : PyStr,
    w = (if p0 = [] then (['/'] : PyStr) else p0) := ⟨_, rfl⟩
  obtain ⟨q', hqdefn⟩ : ∃ w : PyStr,
    w = urlencode (sortedItems (parse_qs q)) := ⟨_, rfl⟩
  have hpath'' : path' =
      (if rstripSlash p = [] then (['/'] : PyStr) else rstripSlash p) := by
    rw [hpath', hp0]
  have hnorm1 : normalizeUrl u = urlunsplit s n path' q' [] := by
    rw [normalizeUrl_unfold, hparse]
    show urlunparse ⟨s, n,
      (if rstripSlash p = [] then (['/'] : PyStr) else rstripSlash p), [],
      urlencode (sortedItems (parse_qs q)), []⟩ = _
    rw [← hpath'', ← hqdefn]
    exact urlunparse_no_params s n path' q' []
  have hp_u2 : ∀ c ∈ p, c ∈ u2 := by
    intro c hc
    have h1 : c ∈ r2 := by rw [hr2]; simp [hc]
    have h2 : c ∈ r1 := by
      rcases splitNetloc_eq hsn with ⟨_, heq⟩ | ⟨hw, _⟩
      · rw [← heq]; exact h1
      · rw [hw]; simp [h1]
    rcases splitScheme_eq hsp with ⟨_, heq⟩ | ⟨pre, _, _, _, hueq, _⟩
    · rw [heq] at h2; exact h2
    · rw [hueq]; simp [h2]
  have hn_u2 : ∀ c ∈ n, c ∈ u2 := by
    intro c hc
    have h2 : c ∈ r1 := by
      rcases splitNetloc_eq hsn with ⟨hn0, _⟩ | ⟨hw, _⟩
      · rw [hn0] at hc; simp at hc
      · rw [hw]; simp [hc]
    rcases splitScheme_eq hsp with ⟨_, heq⟩ | ⟨pre, _, _, _, hueq, _⟩
    · rw [heq] at h2; exact h2
    · rw [hueq]; simp [h2]
  have hn_delim : ∀ c ∈ n, isNetlocDelim c = false := by
    rcases splitNetloc_eq hsn with ⟨hn0, _⟩ | ⟨_, hd⟩
    · rw [hn0]; simp
    · exact hd
  have hn_clean : ∀ c ∈ n, cleanChar c = true := fun c hc => hclean c (hn_u2 c hc)
  have hp_clean : ∀ c ∈ p, cleanChar c = true := fun c hc => hclean c (hp_u2 c hc)
  have hs_scheme : s = [] ∨ (s ≠ [] ∧ s.headI.isAlpha = true ∧
      s.all isSchemeChar = true ∧ s.map Char.toLower = s) := by
    rcases splitScheme_eq hsp with ⟨hs0, _⟩ | ⟨pre, hne, hhd0, hall, _, hmap⟩
    · exact Or.inl hs0
    · right
      rw [hmap]
      refine ⟨by simp [hne], ?_, ?_, ?_⟩
      · cases pre with
        | nil => exact absurd rfl hne
        | cons a l =>
          simp only [List.map_cons, List.headI]
          exact isAlpha_toLower (by simpa [List.headI] using hhd0)
      · rw [List.all_eq_true]
        intro x hx
        obtain ⟨y, hy, rfl⟩ := List.mem_map.mp hx
        exact isSchemeChar_toLower (List.all_eq_true.mp hall y hy)
      · rw [List.map_map]
        exact map_congr_mem (fun x _ => toLower_idem x)
  have hpne : path' ≠ [] := by
    rw [hpath']
    by_cases h0 : p0 = []
    · rw [if_pos h0]; simp
    · rw [if_neg h0]; exact h0
  have hmem_path' : ∀ c ∈ path', c ∈ p ∨ c = '/' := by
    intro c hc
    rw [hpath'] at hc
    by_cases h0 : p0 = []
    · rw [if_pos h0] at hc
      simp at hc
      exact Or.inr hc
    · rw [if_neg h0] at hc
      rw [hp0] at hc
      exact Or.inl (mem_rstrip hc)
  have hph' : '#' ∉ path' := by
    intro hm
    rcases hmem_path' _ hm with h | h
    · exact hph h
    · exact absurd h (by decide)
  have hpq' : '?' ∉ path' := by
    intro hm
    rcases hmem_path' _ hm with h | h
    · exact hpq h
    · exact absurd h (by decide)
  have hpath'_clean : ∀ c ∈ path', cleanChar c = true := by
    intro c hc
    rcases hmem_path' c hc with h | rfl
    · exact hp_clean c h
    · decide
  have htk2trans : path'.take 2 = pys "//" → p.take 2 = pys "//" := by
    intro htk
    rw [hpath'] at htk
    by_cases h0 : p0 = []
    · rw [if_pos h0] at htk
      exact absurd htk (by decide)
    · rw [if_neg h0, hp0] at htk
      exact rstrip_take_two htk
  have htk2 : n = [] → path'.take 2 ≠ pys "//" := by
    intro hn0 htk
    exact hdsl' ⟨hn0, htk2trans htk⟩
  have hq'_set : ∀ c ∈ q', qpOK c = true ∨ c = '&' ∨ c = '=' := by
    intro c hc
    rw [hqdefn] at hc
    exact mem_urlencode hc
  -- head of the path in the schemeless, netloc-less case
  have hcaseA : s = [] → n = [] →
      (∃ t2, u2 = p ++ t2) ∨ path'.headI = '/' := by
    intro hs0 hn0
    have hr1u2 : r1 = u2 := by
      rcases splitScheme_eq hsp with ⟨_, heq⟩ | ⟨pre, hne, _, _, _, hmap⟩
      · exact heq
      · rw [hs0] at hmap
        have hpre : pre = [] := by simpa using hmap.symm
        exact absurd hpre hne
    rcases splitNetloc_eq hsn with ⟨_, hr2r1⟩ | ⟨hw, _⟩
    · left
      exact ⟨t, by rw [← hr1u2, ← hr2r1, hr2]⟩
    · right
      -- the "//" was consumed: r2 is empty or starts with a delimiter
      have hphead : p = [] ∨ p.headI = '/' := by
        rcases splitNetloc_snd_head hsn with hr2r1 | hr20 | hdel
        · -- r2 = r1 contradicts r1 = '/'::'/'::(n ++ r2)
          rw [hw, hn0] at hr2r1
          have hlen := congrArg List.length hr2r1
          simp only [List.length_cons, List.length_append, List.length_nil] at hlen
          omega
        · rw [hr20] at hr2
          left
          cases p with
          | nil => rfl
          | cons a l => simp at hr2
        · cases p with
          | nil => exact Or.inl rfl
          | cons a l =>
            right
            have hhead2 : r2.headI = a := by rw [hr2]; rfl
            rw [hhead2] at hdel
            have ha : a ∈ a :: l := by simp
            by_cases h3 : a = '/'
            · exact h3
            · by_cases h4 : a = '?'
              · rw [h4] at ha hpq
                exact absurd ha hpq
              · by_cases h5 : a = '#'
                · rw [h5] at ha hph
                  exact absurd ha hph
                · exfalso
                  rw [isNetlocDelim] at hdel
                  simp [h3, h4, h5] at hdel
      by_cases h0 : p0 = []
      · rw [hpath', if_pos h0]
        rfl
      · have hpn : p ≠ [] := by
          intro hh
          apply h0
          rw [hp0, hh]
          rfl
        rw [hpath', if_neg h0, hp0, rstrip_headI (by rw [← hp0]; exact h0)]
        exact hphead.resolve_left hpn
  have hhd_case : s = [] → n = [] → 0x20 < path'.headI.toNat := by
    intro hs0 hn0
    rcases hcaseA hs0 hn0 with ⟨t2, hu2p⟩ | hslash
    · by_cases h0 : p0 = []
      · rw [hpath', if_pos h0]
        decide
      · have hpn : p ≠ [] := by
          intro hh
          apply h0
          rw [hp0, hh]
          rfl
        rw [hpath', if_neg h0, hp0, rstrip_headI (by rw [← hp0]; exact h0)]
        have hu2ne : u2 ≠ [] := by
          rw [hu2p]
          simp [hpn]
        have hhd2 : u2.headI = p.headI := by
          rw [hu2p]
          exact headI_append hpn
        rcases hhead with h | h
        · exact absurd h hu2ne
        · rw [← hhd2]
          exact h
    · rw [hslash]
      decide
  have hsch : s = [] → n = [] →
      splitScheme (path' ++ (if q' = [] then [] else '?' :: q')) =
        ([], path' ++ (if q' = [] then [] else '?' :: q')) := by
    intro hs0 hn0
    rcases hcaseA hs0 hn0 with ⟨t2, hu2p⟩ | hslash
    · by_cases hcol : ':' ∈ path'
      · have hcolp : ':' ∈ p := by
          rcases hmem_path' _ hcol with h | h
          · exact h
          · exact absurd h (by decide)
        have hp0ne : p0 ≠ [] := by
          intro h0
          rw [hpath', if_pos h0] at hcol
          simp at hcol
        have hpathp0 : path' = p0 := by rw [hpath', if_neg hp0ne]
        obtain ⟨pre1, rest1, hsp1⟩ := splitOnce_some_of_mem (hpathp0 ▸ hcol)
        obtain ⟨t', hpt', ht'⟩ := rstrip_decomp p
        rw [← hp0] at hpt'
        have hsplitp : splitOnceChar ':' p = some (pre1, rest1 ++ t') := by
          rw [hpt']
          exact splitOnce_app_left hsp1 t'
        have hsplitu2 : splitOnceChar ':' u2 =
            some (pre1, (rest1 ++ t') ++ t2) := by
          rw [hu2p]
          exact splitOnce_app_left hsplitp t2
        have hinvalid : ¬ (pre1 ≠ [] ∧ pre1.headI.isAlpha = true ∧
            pre1.all isSchemeChar = true) := by
          intro hval
          have hsch2 := splitScheme_pos hsplitu2 hval
          rw [hsp, hs0] at hsch2
          injection hsch2 with h1 _
          have hpre1 : pre1 = [] := by simpa using h1.symm
          exact hval.1 hpre1
        have hsplitv : splitOnceChar ':'
            (path' ++ (if q' = [] then [] else '?' :: q')) =
            some (pre1, rest1 ++ (if q' = [] then [] else '?' :: q')) := by
          rw [hpathp0]
          exact splitOnce_app_left hsp1 _
        exact splitScheme_neg hsplitv hinvalid
      · apply splitScheme_no_colon
        intro hm
        rcases List.mem_append.mp hm with h | h
        · exact hcol h
        · rcases mem_qt h with h' | h'
          · exact absurd h' (by decide)
          · have hnc : ':' ∉ q' := by
              rw [hqdefn]
              exact not_mem_urlencode (by decide) (by decide) (by decide) _
            exact hnc h'
    · apply splitScheme_head_not_alpha
      rw [headI_append hpne, hslash]
      decide
  -- the reassembled split
  have hsplitv := reassembled_urlsplit hs_scheme hn_delim hn_clean hpne hph'
    hpq' hpath'_clean hq'_set htk2 hsch hhd_case
  obtain ⟨p2, hp2⟩ : ∃ w : PyStr, w =
      (if (n ≠ [] ∨ (s ≠ [] ∧ s ∈ uses_netloc ∧ path'.take 2 ≠ pys "//"))
        then (if path' ≠ [] ∧ path'.take 1 ≠ pys "/" then '/' :: path' else path')
        else path') := ⟨_, rfl⟩
  rw [← hp2] at hsplitv
  have hp2cases : p2 = path' ∨ (p2 = '/' :: path' ∧
      (n ≠ [] ∨ (s ≠ [] ∧ s ∈ uses_netloc ∧ path'.take 2 ≠ pys "//")) ∧
      path'.take 1 ≠ pys "/") := by
    rw [hp2]
    by_cases hb : (n ≠ [] ∨ (s ≠ [] ∧ s ∈ uses_netloc ∧ path'.take 2 ≠ pys "//"))
    · rw [if_pos hb]
      by_cases hpr : path' ≠ [] ∧ path'.take 1 ≠ pys "/"
      · rw [if_pos hpr]
        exact Or.inr ⟨rfl, hb, hpr.2⟩
      · rw [if_neg hpr]
        exact Or.inl rfl
    · rw [if_neg hb]
      exact Or.inl rfl
  have hmem_p2 : ∀ c ∈ p2, c ∈ path' ∨ c = '/' := by
    intro c hc
    rcases hp2cases with hcase | ⟨hcase, _, _⟩
    · rw [hcase] at hc
      exact Or.inl hc
    · rw [hcase] at hc
      rcases List.mem_cons.mp hc with rfl | h
      · exact Or.inr rfl
      · exact Or.inl h
  have hsemi2 : ';' ∉ p2 := by
    intro hm
    rcases hmem_p2 _ hm with h | h
    · rcases hmem_path' _ h with h2 | h2
      · exact hsemi'' h2
      · exact absurd h2 (by decide)
    · exact absurd h (by decide)
  have hparse2 : urlparse (urlunsplit s n path' q' []) = ⟨s, n, p2, [], q', []⟩ := by
    have h0 := urlparse_no_params (u := urlunsplit s n path' q' [])
      (by rw [hsplitv]; simpa using hsemi2)
    rw [hsplitv] at h0
    exact h0
  have hp2fix : (if rstripSlash p2 = [] then (['/'] : PyStr) else rstripSlash p2)
      = p2 := by
    rcases hp2cases with hcase | ⟨hcase, _, hpr⟩
    · by_cases h0 : p0 = []
      · rw [hcase, hpath', if_pos h0,
          show rstripSlash ['/'] = ([] : PyStr) from rfl, if_pos rfl]
      · have hfix : rstripSlash p0 = p0 := by
          rw [hp0]
          exact rstrip_idem p
        rw [hcase, hpath', if_neg h0, hfix, if_neg h0]
    · have h0 : p0 ≠ [] := by
        intro hh
        apply hpr
        rw [hpath', if_pos hh]
        rfl
      have hpathp0 : path' = p0 := by rw [hpath', if_neg h0]
      have hfix : rstripSlash p0 = p0 := by
        rw [hp0]
        exact rstrip_idem p
      have hfix2 : rstripSlash ('/' :: p0) = '/' :: p0 := rstrip_cons_slash hfix h0
      rw [hcase, hpathp0, hfix2, if_neg (by simp)]
  have hq'fix : urlencode (sortedItems (parse_qs q')) = q' := by
    rw [hqdefn]
    exact normalized_query_fix q
  have hnorm2 : normalizeUrl (urlunsplit s n path' q' []) =
      urlunsplit s n p2 q' [] := by
    rw [normalizeUrl_unfold, hparse2]
    show urlunparse ⟨s, n,
      (if rstripSlash p2 = [] then (['/'] : PyStr) else rstripSlash p2), [],
      urlencode (sortedItems (parse_qs q')), []⟩ = _
    rw [hp2fix, hq'fix]
    exact urlunparse_no_params s n p2 q' []
  have hfinal : urlunsplit s n p2 q' [] = urlunsplit s n path' q' [] := by
    rcases hp2cases with hcase | ⟨hcase, hb, hpr⟩
    · rw [hcase]
    · rw [hcase, urlunsplit_eq, urlunsplit_eq]
      have hne2 : ('/' :: path').take 2 ≠ pys "//" := by
        cases path' with
        | nil => exact absurd rfl hpne
        | cons a t0 =>
          have ha : a ≠ '/' := by
            intro hh
            apply hpr
            rw [hh]
            rfl
          intro hc
          simp [pys] at hc
          exact ha hc
      have hb2 : (n ≠ [] ∨ (s ≠ [] ∧ s ∈ uses_netloc ∧
          ('/' :: path').take 2 ≠ pys "//")) := by
        rcases hb with h | ⟨h1, h2, _⟩
        · exact Or.inl h
        · exact Or.inr ⟨h1, h2, hne2⟩
      have hBB : (if (n ≠ [] ∨ (s ≠ [] ∧ s ∈ uses_netloc ∧
            ('/' :: path').take 2 ≠ pys "//"))
          then pys "//" ++ n ++ (if ('/' :: path') ≠ [] ∧
            ('/' :: path').take 1 ≠ pys "/" then '/' :: ('/' :: path')
            else ('/' :: path'))
          else ('/' :: path')) =
          (if (n ≠ [] ∨ (s ≠ [] ∧ s ∈ uses_netloc ∧ path'.take 2 ≠ pys "//"))
          then pys "//" ++ n ++ (if path' ≠ [] ∧ path'.take 1 ≠ pys "/"
            then '/' :: path' else path')
          else path') := by
        rw [if_pos hb2, if_pos hb, if_neg (fun hc => hc.2 rfl),
          if_pos ⟨hpne, hpr⟩]
      rw [hBB]
  rw [hnorm1, hnorm2, hfinal]

/-! ## C1: query-order independence -/

theorem lookup_cons (k0 : PyStr) (k : PyStr) (vs : List PyStr)
    (rest : List (PyStr × List PyStr)) :
    lookupKey k0 ((k, vs) :: rest) =
      if k = k0 then some vs else lookupKey k0 rest := rfl

theorem lookup_none_of_keys {k : PyStr} {l : List (PyStr × List PyStr)}
    (h : ∀ kv ∈ l, kv.1 ≠ k) : lookupKey k l = none := by
  induction l with
  | nil => rfl
  | cons a rest ih =>
    obtain ⟨k0, vs⟩ := a
    rw [lookup_cons, if_neg (h (k0, vs) (by simp)),
      ih (fun kv hkv => h kv (by simp [hkv]))]

theorem lookup_isSome_mem {k : PyStr} {l : List (PyStr × List PyStr)}
    {ws : List PyStr} (h : lookupKey k l = some ws) : ∃ kv ∈ l, kv.1 = k := by
  induction l with
  | nil => simp [lookupKey] at h
  | cons a rest ih =>
    obtain ⟨k0, vs⟩ := a
    rw [lookup_cons] at h
    by_cases hk : k0 = k
    · exact ⟨(k0, vs), by simp, hk⟩
    · rw [if_neg hk] at h
      obtain ⟨kv, hkv, hfst⟩ := ih h
      exact ⟨kv, by simp [hkv], hfst⟩

theorem lookup_insertPair (acc : List (PyStr × List PyStr)) (k : PyStr)
    (v : PyStr) (k0 : PyStr) :
    lookupKey k0 (insertPair acc k v) =
      if k = k0 then
        (match lookupKey k0 acc with
          | none => some [v]
          | some ws => some (ws ++ [v]))
      else lookupKey k0 acc := by
  induction acc with
  | nil =>
    by_cases hk : k = k0
    · rw [if_pos hk]
      simp [insertPair, lookupKey, hk]
    · rw [if_neg hk]
      simp [insertPair, lookupKey, hk]
  | cons a rest ih =>
    obtain ⟨ka, vsa⟩ := a
    by_cases hka : ka = k
    · rw [insertPair, if_pos hka]
      by_cases hk : k = k0
      · rw [if_pos hk, lookup_cons, lookup_cons]
        rw [hka, hk]
        simp
      · rw [if_neg hk, lookup_cons, lookup_cons]
        have hka0 : (ka = k0) = False := by
          simp
          rw [hka]
          exact hk
        rw [if_neg (by simp [hka0]), if_neg (by simp [hka0])]
    · rw [insertPair, if_neg hka]
      by_cases hk : k = k0
      · rw [if_pos hk, lookup_cons, lookup_cons]
        by_cases hka0 : ka = k0
        · exact absurd (hka0.trans hk.symm) hka
        · rw [if_neg hka0, if_neg hka0, ih, if_pos hk]
      · rw [if_neg hk, lookup_cons, lookup_cons]
        by_cases hka0 : ka = k0
        · rw [if_pos hka0, if_pos hka0]
        · rw [if_neg hka0, if_neg hka0, ih, if_neg hk]

theorem lookup_insertAll_some (ps : List (PyStr × PyStr)) :
    ∀ (acc : List (PyStr × List PyStr)) (k : PyStr) (ws : List PyStr),
    lookupKey k acc = some ws →
    lookupKey k (insertAll acc ps) =
      some (ws ++ (ps.filter (fun kv => kv.1 == k)).map Prod.snd) := by
  induction ps with
  | nil =>
    intro acc k ws h
    simp [insertAll, h]
  | cons p pt ih =>
    intro acc k ws h
    obtain ⟨kp, vp⟩ := p
    rw [insertAll_cons]
    by_cases hk : kp = k
    · have h2 : lookupKey k (insertPair acc kp vp) = some (ws ++ [vp]) := by
        rw [lookup_insertPair, if_pos hk, h]
      rw [ih _ _ _ h2, List.filter_cons]
      simp only [hk]
      rw [if_pos (by simp)]
      simp
    · have h2 : lookupKey k (insertPair acc kp vp) = some ws := by
        rw [lookup_insertPair, if_neg hk, h]
      rw [ih _ _ _ h2, List.filter_cons, if_neg (by simp [hk])]

theorem lookup_insertAll_none (ps : List (PyStr × PyStr)) :
    ∀ (acc : List (PyStr × List PyStr)) (k : PyStr),
    lookupKey k acc = none →
    lookupKey k (insertAll acc ps) =
      (if ((ps.filter (fun kv => kv.1 == k)).map Prod.snd) = [] then none
        else some ((ps.filter (fun kv => kv.1 == k)).map Prod.snd)) := by
  induction ps with
  | nil =>
    intro acc k h
    simp [insertAll, h]
  | cons p pt ih =>
    intro acc k h
    obtain ⟨kp, vp⟩ := p
    rw [insertAll_cons]
    by_cases hk : kp = k
    · have h2 : lookupKey k (insertPair acc kp vp) = some [vp] := by
        rw [lookup_insertPair, if_pos hk, h]
      have hfil : List.filter (fun kv => kv.1 == k) ((kp, vp) :: pt) =
          (kp, vp) :: List.filter (fun kv => kv.1 == k) pt := by
        rw [List.filter_cons, if_pos (by simp [hk])]
      rw [lookup_insertAll_some _ _ _ _ h2, hfil, List.map_cons,
        if_neg (by simp)]
      simp
    · have h2 : lookupKey k (insertPair acc kp vp) = none := by
        rw [lookup_insertPair, if_neg hk, h]
      have hfil : List.filter (fun kv => kv.1 == k) ((kp, vp) :: pt) =
          List.filter (fun kv => kv.1 == k) pt := by
        rw [List.filter_cons, if_neg (by simp [hk])]
      rw [ih _ _ h2, hfil]

theorem parse_qs_lookup (q : PyStr) (k : PyStr) :
    lookupKey k (parse_qs q) =
      (if (((parse_qsl q).filter (fun kv => kv.1 == k)).map Prod.snd) = [] then none
        else some (((parse_qsl q).filter (fun kv => kv.1 == k)).map Prod.snd)) :=
  lookup_insertAll_none _ [] k rfl

theorem lookup_perm {A B : List (PyStr × List PyStr)} (hp : A.Perm B)
    (hA : A.Pairwise (fun a b => a.1 ≠ b.1)) (k : PyStr) :
    lookupKey k A = lookupKey k B := by
  induction hp with
  | nil => rfl
  | cons x l ih =>
    obtain ⟨kx, vx⟩ := x
    rw [lookup_cons, lookup_cons]
    rw [List.pairwise_cons] at hA
    by_cases hk : kx = k
    · rw [if_pos hk, if_pos hk]
    · rw [if_neg hk, if_neg hk]
      exact ih hA.2
  | swap x y l =>
    obtain ⟨kx, vx⟩ := x
    obtain ⟨ky, vy⟩ := y
    rw [List.pairwise_cons] at hA
    have hxy : ky ≠ kx := hA.1 (kx, vx) (by simp)
    rw [lookup_cons, lookup_cons, lookup_cons, lookup_cons]
    by_cases hky : ky = k
    · have hkx : ¬ kx = k := fun hh => hxy (hky.trans hh.symm)
      rw [if_pos hky, if_neg hkx, if_pos hky]
    · rw [if_neg hky]
      by_cases hkx : kx = k
      · rw [if_pos hkx, if_pos hkx]
      · rw [if_neg hkx, if_neg hkx, if_neg hky]
  | trans h1 h2 ih1 ih2 =>
    rename_i l1 l2 l3
    rw [ih1 hA, ih2 (((h1.pairwise_iff (fun hab => hab.symm)).mp hA))]

theorem sorted_lookup_ext {A B : List (PyStr × List PyStr)}
    (hA : A.Pairwise (fun a b => pyStrLtB a.1 b.1 = true))
    (hB : B.Pairwise (fun a b => pyStrLtB a.1 b.1 = true))
    (h : ∀ k, lookupKey k A = lookupKey k B) : A = B := by
  induction A generalizing B with
  | nil =>
    cases B with
    | nil => rfl
    | cons b bt =>
      obtain ⟨kb, vb⟩ := b
      have h1 := h kb
      rw [lookup_cons, if_pos rfl] at h1
      simp [lookupKey] at h1
  | cons a at' ih =>
    obtain ⟨ka, va⟩ := a
    cases B with
    | nil =>
      have h1 := h ka
      rw [lookup_cons, if_pos rfl] at h1
      simp [lookupKey] at h1
    | cons b bt =>
      obtain ⟨kb, vb⟩ := b
      rw [List.pairwise_cons] at hA hB
      have hat : ∀ kv ∈ at', kv.1 ≠ ka := by
        intro kv hkv hh
        have := hA.1 kv hkv
        rw [hh] at this
        rw [pyStrLt_irrefl] at this
        cases this
      have hbt : ∀ kv ∈ bt, kv.1 ≠ kb := by
        intro kv hkv hh
        have := hB.1 kv hkv
        rw [hh] at this
        rw [pyStrLt_irrefl] at this
        cases this
      have hkey : ka = kb := by
        rcases pyStrLt_tricho ka kb with hlt | heq | hlt
        · have h1 := h ka
          rw [lookup_cons, if_pos rfl, lookup_cons,
            if_neg (fun hh => by rw [hh] at hlt; rw [pyStrLt_irrefl] at hlt; cases hlt)] at h1
          obtain ⟨kv, hkv, hfst⟩ := lookup_isSome_mem h1.symm
          have := hB.1 kv hkv
          rw [hfst] at this
          have := pyStrLt_trans _ _ _ hlt this
          rw [pyStrLt_irrefl] at this
          cases this
        · exact heq
        · have h1 := h kb
          rw [lookup_cons (k := ka), if_neg (fun hh => by rw [hh] at hlt; rw [pyStrLt_irrefl] at hlt; cases hlt),
            lookup_cons, if_pos rfl] at h1
          obtain ⟨kv, hkv, hfst⟩ := lookup_isSome_mem h1
          have := hA.1 kv hkv
          rw [hfst] at this
          have := pyStrLt_trans _ _ _ hlt this
          rw [pyStrLt_irrefl] at this
          cases this
      have hval : va = vb := by
        have h1 := h ka
        rw [lookup_cons, if_pos rfl, lookup_cons, if_pos hkey.symm] at h1
        exact Option.some.inj h1
      have htail : at' = bt := by
        apply ih hA.2 hB.2
        intro k
        by_cases hk : k = ka
        · rw [hk, lookup_none_of_keys hat,
            lookup_none_of_keys (by rw [← hkey] at hbt; exact hbt)]
        · have h1 := h k
          rw [lookup_cons, if_neg (fun hh => hk hh.symm), lookup_cons,
            if_neg (fun hh => hk (hh.symm.trans hkey.symm))] at h1
          exact h1
      rw [hkey, hval, htail]

theorem filterMap_filter_key (ps : List PyStr) (k : PyStr) :
    ((ps.filterMap decodePiece).filter (fun kv => kv.1 == k)) =
      ((ps.filter (fun nv => decodeKey nv == some k)).filterMap decodePiece) := by
  induction ps with
  | nil => rfl
  | cons nv rest ih =>
    rw [List.filterMap_cons, List.filter_cons]
    cases hdp : decodePiece nv with
    | none =>
      rw [show (decodeKey nv == some k) = false by simp [decodeKey, hdp]]
      simp only [Bool.false_eq_true, if_false]
      rw [ih]
    | some kv =>
      by_cases hk : kv.1 = k
      · rw [show (decodeKey nv == some k) = true by simp [decodeKey, hdp, hk],
          if_pos rfl, List.filterMap_cons, hdp, List.filter_cons,
          if_pos (by simp [hk]), ih]
      · rw [show (decodeKey nv == some k) = false by simp [decodeKey, hdp, hk],
          List.filter_cons, if_neg (by simp [hk])]
        simp only [Bool.false_eq_true, if_false]
        rw [ih]

theorem filter_key_nil {ps : List PyStr} {k : PyStr}
    (h : k ∉ ps.filterMap decodeKey) :
    ps.filter (fun nv => decodeKey nv == some k) = [] := by
  rw [List.filter_eq_nil_iff]
  intro nv hnv
  simp only [beq_iff_eq]
  intro hdk
  exact h (List.mem_filterMap.mpr ⟨nv, hnv, hdk⟩)

theorem sortedItems_parse_qs_ext {q1 q2 : PyStr}
    (hkeys : ∀ k ∈ ((q1.splitOn '&') ++ (q2.splitOn '&')).filterMap decodeKey,
      (q1.splitOn '&').filter (fun nv => decodeKey nv == some k) =
      (q2.splitOn '&').filter (fun nv => decodeKey nv == some k)) :
    sortedItems (parse_qs q1) = sortedItems (parse_qs q2) := by
  have hlook : ∀ k, lookupKey k (parse_qs q1) = lookupKey k (parse_qs q2) := by
    intro k
    have hfil : (q1.splitOn '&').filter (fun nv => decodeKey nv == some k) =
        (q2.splitOn '&').filter (fun nv => decodeKey nv == some k) := by
      by_cases hmem : k ∈ ((q1.splitOn '&') ++ (q2.splitOn '&')).filterMap decodeKey
      · exact hkeys k hmem
      · rw [List.filterMap_append] at hmem
        rw [filter_key_nil (fun hh => hmem (List.mem_append.mpr (Or.inl hh))),
          filter_key_nil (fun hh => hmem (List.mem_append.mpr (Or.inr hh)))]
    rw [parse_qs_lookup, parse_qs_lookup, parse_qsl_eq, parse_qsl_eq,
      filterMap_filter_key, filterMap_filter_key, hfil]
  have hs1 := sortedItems_pairwise_lt (parse_qs_pairwise q1)
  have hs2 := sortedItems_pairwise_lt (parse_qs_pairwise q2)
  apply sorted_lookup_ext hs1 hs2
  intro k
  rw [lookup_perm (sortedItems_perm (parse_qs q1))
      (((sortedItems_perm (parse_qs q1)).pairwise_iff (fun hab => hab.symm)).mpr
        (parse_qs_pairwise q1)) k,
    lookup_perm (sortedItems_perm (parse_qs q2))
      (((sortedItems_perm (parse_qs q2)).pairwise_iff (fun hab => hab.symm)).mpr
        (parse_qs_pairwise q2)) k]
  exact hlook k

theorem dropWhile_append_stop {p : Char → Bool} {a b : List Char} (hb : b ≠ [])
    (hhb : p b.headI = false) : (a ++ b).dropWhile p = a.dropWhile p ++ b := by
  rw [List.dropWhile_append]
  split
  · rename_i hemp
    rw [List.isEmpty_iff] at hemp
    rw [hemp, List.nil_append]
    exact dropWhile_eq_self_of_head (Or.inr hhb)
  · rfl

theorem takeWhile_append_stop {p : Char → Bool} {a b : List Char} (hb : b ≠ [])
    (hhb : p b.headI = false) : (a ++ b).takeWhile p = a.takeWhile p := by
  rw [List.takeWhile_append]
  split
  · rename_i hlen
    have hta : a.takeWhile p = a :=
      ((List.takeWhile_sublist p (l := a)).eq_of_length hlen)
    rw [hta]
    have htb : b.takeWhile p = [] := by
      cases b with
      | nil => rfl
      | cons x xs =>
        rw [List.takeWhile_cons, if_neg (by simp_all [List.headI])]
    rw [htb, List.append_nil]
  · rfl

theorem splitScheme_query {preC : PyStr} (hNCq : '?' ∉ preC) :
    ∃ s1 W, '?' ∉ W ∧ (∀ c ∈ W, c ∈ preC) ∧
      ∀ q : PyStr, splitScheme (preC ++ '?' :: q) = (s1, W ++ '?' :: q) := by
  cases hcol : splitOnceChar ':' preC with
  | some ab =>
    obtain ⟨a, b⟩ := ab
    obtain ⟨hsplit, hna⟩ := splitOnce_some hcol
    have hbmem : ∀ c ∈ b, c ∈ preC := by
      intro c hc
      rw [hsplit]
      simp [hc]
    by_cases hval : (a ≠ [] ∧ a.headI.isAlpha = true ∧ a.all isSchemeChar = true)
    · refine ⟨a.map Char.toLower, b, fun hm => hNCq (hbmem _ hm), hbmem, ?_⟩
      intro q
      exact splitScheme_pos (splitOnce_app_left hcol _) hval
    · refine ⟨[], preC, hNCq, fun c h => h, ?_⟩
      intro q
      rw [splitScheme_neg (splitOnce_app_left hcol _) hval]
  | none =>
    refine ⟨[], preC, hNCq, fun c h => h, ?_⟩
    intro q
    have happ := splitOnce_app_none hcol ('?' :: q)
    cases hq2 : splitOnceChar ':' ('?' :: q) with
    | none =>
      rw [hq2] at happ
      simp only [Option.map_none'] at happ
      exact splitScheme_no_colon (splitOnce_none_iff.mp happ)
    | some ab2 =>
      obtain ⟨a2, b2⟩ := ab2
      rw [hq2] at happ
      simp only [Option.map_some'] at happ
      obtain ⟨heq2, _⟩ := splitOnce_some hq2
      have ha2 : '?' ∈ a2 := by
        cases a2 with
        | nil => simp at heq2
        | cons x xs =>
          have hx : '?' = x := by
            have := congrArg List.headI heq2
            simpa [List.headI] using this
          rw [← hx]
          simp
      apply splitScheme_neg happ
      rintro ⟨_, _, hval⟩
      have hmem : '?' ∈ preC ++ a2 := by simp [ha2]
      have := List.all_eq_true.mp hval _ hmem
      exact absurd this (by decide)

theorem splitNetloc_query {W : PyStr} (hWq : '?' ∉ W) :
    ∃ n1 body, (∀ c ∈ body, c ∈ W) ∧
      ∀ q : PyStr, splitNetloc (W ++ '?' :: q) = (n1, body ++ '?' :: q) := by
  rcases W with _ | ⟨c1, _ | ⟨c2, rest⟩⟩
  · refine ⟨[], [], by simp, ?_⟩
    intro q
    exact splitNetloc_no (by simp [pys])
  · refine ⟨[], [c1], by simp, ?_⟩
    intro q
    apply splitNetloc_no
    intro hc
    simp [pys] at hc
  · by_cases hsl : c1 = '/' ∧ c2 = '/'
    · obtain ⟨rfl, rfl⟩ := hsl
      refine ⟨rest.takeWhile (fun c => ! isNetlocDelim c),
        rest.dropWhile (fun c => ! isNetlocDelim c),
        fun c hc => by simp [(List.dropWhile_sublist _).mem hc], ?_⟩
      intro q
      show splitNetloc ('/' :: '/' :: (rest ++ '?' :: q)) = _
      rw [splitNetloc]
      rw [takeWhile_append_stop (by simp)
          (show (! isNetlocDelim '?') = false from by decide),
        dropWhile_append_stop (by simp)
          (show (! isNetlocDelim '?') = false from by decide)]
    · refine ⟨[], c1 :: c2 :: rest, fun c hc => hc, ?_⟩
      intro q
      apply splitNetloc_no
      intro hc
      simp [pys] at hc
      exact hsl ⟨hc.1, hc.2⟩

theorem urlsplit_steps {v w s1 n1 r1' r2' body q1 : PyStr}
    (hw : (v.dropWhile (fun c => decide (c.toNat ≤ 0x20))).filter cleanChar = w)
    (hsp2 : splitScheme w = (s1, r1'))
    (hsn2 : splitNetloc r1' = (n1, r2'))
    (hr2' : r2' = body ++ '?' :: q1)
    (hbh : '#' ∉ body) (hbq : '?' ∉ body) (hqh : '#' ∉ q1) :
    urlsplit v = ⟨s1, n1, body, q1, []⟩ := by
  simp only [urlsplit]
  rw [hw, hsp2]
  dsimp only
  rw [hsn2]
  dsimp only
  have hf : splitOnceChar '#' r2' = none := by
    rw [splitOnce_none_iff, hr2']
    intro hm
    rcases List.mem_append.mp hm with hm' | hm'
    · exact hbh hm'
    · rcases List.mem_cons.mp hm' with hc | hc
      · exact absurd hc (by decide)
      · exact hqh hc
  rw [hf]
  dsimp only
  have hq : splitOnceChar '?' r2' = some (body, q1) := by
    rw [hr2']
    exact splitOnce_mk hbq q1
  rw [hq]

theorem urlsplit_query (pre : PyStr) (hq1 : '?' ∉ pre) (hh : '#' ∉ pre) :
    ∃ s1 n1 body, '#' ∉ body ∧
      ∀ q : PyStr, '#' ∉ q → (∀ c ∈ q, cleanChar c = true) →
        urlsplit (pre ++ '?' :: q) = ⟨s1, n1, body, q, []⟩ := by
  obtain ⟨preC, hpreC⟩ : ∃ w : PyStr, w =
    (pre.dropWhile (fun c => decide (c.toNat ≤ 0x20))).filter cleanChar := ⟨_, rfl⟩
  have hpreC_mem : ∀ c ∈ preC, c ∈ pre := by
    intro c hc
    rw [hpreC] at hc
    exact (List.dropWhile_sublist _).mem ((List.filter_sublist _).mem hc)
  have hNCq : '?' ∉ preC := fun hm => hq1 (hpreC_mem _ hm)
  have hNCh : '#' ∉ preC := fun hm => hh (hpreC_mem _ hm)
  obtain ⟨s1, W, hWq, hWmem, hsch⟩ := splitScheme_query hNCq
  obtain ⟨n1, body, hbodyW, hnet⟩ := splitNetloc_query hWq
  refine ⟨s1, n1, body, fun hm => hNCh (hWmem _ (hbodyW _ hm)), ?_⟩
  intro q hqh hqc
  have hcleanstep : ((pre ++ '?' :: q).dropWhile
      (fun c => decide (c.toNat ≤ 0x20))).filter cleanChar = preC ++ '?' :: q := by
    rw [dropWhile_append_stop (by simp)
        (show decide (('?').toNat ≤ 0x20) = false from by decide),
      List.filter_append, List.filter_cons, if_pos (by decide),
      List.filter_eq_self.mpr hqc, hpreC]
  exact urlsplit_steps hcleanstep (hsch q) (hnet q) rfl
    (fun hm => hNCh (hWmem _ (hbodyW _ hm)))
    (fun hm => hNCq (hWmem _ (hbodyW _ hm))) hqh

theorem normalize_query_order {pre q1 q2 : PyStr}
    (hpre : '?' ∉ pre) (hpreh : '#' ∉ pre)
    (h1h : '#' ∉ q1) (h2h : '#' ∉ q2)
    (h1c : ∀ c ∈ q1, cleanChar c = true) (h2c : ∀ c ∈ q2, cleanChar c = true)
    (hkeys : ∀ k ∈ ((q1.splitOn '&') ++ (q2.splitOn '&')).filterMap decodeKey,
      (q1.splitOn '&').filter (fun nv => decodeKey nv == some k) =
      (q2.splitOn '&').filter (fun nv => decodeKey nv == some k)) :
    normalizeUrl (pre ++ '?' :: q1) = normalizeUrl (pre ++ '?' :: q2) := by
  obtain ⟨s1, n1, body, hbh, hrun⟩ := urlsplit_query pre hpre hpreh
  have hU1 := hrun q1 h1h h1c
  have hU2 := hrun q2 h2h h2c
  have henc : urlencode (sortedItems (parse_qs q1)) =
      urlencode (sortedItems (parse_qs q2)) := by
    rw [sortedItems_parse_qs_ext hkeys]
  rw [normalizeUrl_unfold, normalizeUrl_unfold, urlparse, urlparse, hU1, hU2]
  dsimp only
  split_ifs
  all_goals dsimp only
  all_goals rw [henc]

/-- C1 counterexample: the claim as stated is false. `normalizeUrl` is not
idempotent (the `params` split of `urlparse` interacts with `rstrip("/")`:
normalizing `"a/;x/"` yields `"a/;x"`, normalizing that again yields `"a;x"`),
and it is not invariant under arbitrary reorderings of query parameters when a
key repeats (`parse_qs` keeps the per-key value order, so `"a?x=1&x=2"` and
`"a?x=2&x=1"` normalize to distinct strings). -/
theorem normalize_not_idempotent_cex :
    normalizeUrl (normalizeUrl (pys "a/;x/")) ≠ normalizeUrl (pys "a/;x/") ∧
    normalizeUrl (pys "a?x=1&x=2") ≠ normalizeUrl (pys "a?x=2&x=1") := by
  constructor <;> decide

/-- C1 (amended): normalization is idempotent for every URL `u` such that the
split path contains no `';'`, it is not the case that the netloc is empty while
the path starts with `"//"`, and the netloc contains no bracket (the inputs on
which CPython `urlsplit` raises); and normalization is query-order independent
for reorderings that keep, for every decoded key, the subsequence of
`'&'`-separated pieces decoding to that key: if `q1` and `q2` are
permutations of each other as lists of pieces and agree on the per-decoded-key
filtered piece lists, then `pre ++ "?" ++ q1` and `pre ++ "?" ++ q2`
normalize to the same string (for `pre` free of `'?'`/`'#'` and queries free
of `'#'` and of the tab/CR/LF characters `urlsplit` strips). -/
theorem normalize_idempotent_and_order (u pre q1 q2 : PyStr)
    (hsemi : ((urlsplit u).path).contains ';' = false)
    (hdsl : ¬ ((urlsplit u).netloc = [] ∧ ((urlsplit u).path).take 2 = pys "//"))
    (hbr : ((urlsplit u).netloc).contains '[' = false ∧
      ((urlsplit u).netloc).contains ']' = false)
    (hqpre : '?' ∉ pre) (hhpre : '#' ∉ pre)
    (h1h : '#' ∉ q1) (h2h : '#' ∉ q2)
    (h1c : ∀ c ∈ q1, cleanChar c = true) (h2c : ∀ c ∈ q2, cleanChar c = true)
    (hperm : (q1.splitOn '&').Perm (q2.splitOn '&'))
    (hkeys : ∀ k ∈ ((q1.splitOn '&') ++ (q2.splitOn '&')).filterMap decodeKey,
      (q1.splitOn '&').filter (fun nv => decodeKey nv == some k) =
      (q2.splitOn '&').filter (fun nv => decodeKey nv == some k)) :
    normalizeUrl (normalizeUrl u) = normalizeUrl u ∧
    normalizeUrl (pre ++ '?' :: q1) = normalizeUrl (pre ++ '?' :: q2) :=
  ⟨normalize_fix hsemi hdsl,
   normalize_query_order hqpre hhpre h1h h2h h1c h2c hkeys⟩

theorem normalize_idempotent_and_order_witness :
    normalizeUrl (normalizeUrl (pys "http://Ex.ample/a//?b=2&a=1&a=5#f")) =
      normalizeUrl (pys "http://Ex.ample/a//?b=2&a=1&a=5#f") ∧
    normalizeUrl (pys "http://h/p" ++ '?' :: pys "a=1&b=2&a=3") =
      normalizeUrl (pys "http://h/p" ++ '?' :: pys "b=2&a=1&a=3") :=
  normalize_idempotent_and_order (pys "http://Ex.ample/a//?b=2&a=1&a=5#f")
    (pys "http://h/p") (pys "a=1&b=2&a=3") (pys "b=2&a=1&a=3")
    (by decide) (by decide) (by decide) (by decide) (by decide) (by decide)
    (by decide) (by decide) (by decide) (by decide) (by decide)
